import Mathlib

/-!
Verification of the resume-processing pipeline of this repository.

The development shallowly embeds the code of `backend/utils/resume_agents.py`
and `backend/utils/chunk_resume.py`: Python strings are lists of characters
(`Chs`), Python dictionaries holding JSON data are association lists over a
small value type (`JVal`), regular-expression rewriting is realised by
explicit left-to-right scanners that mirror the backtracking behaviour of the
concrete patterns appearing in the source, and code that can raise returns
`Except`.  Definitions come first, theorems about the claims follow at the
end of the file.
-/

abbrev Chs := List Char

/-- Python whitespace, as recognised by `str.split` / `str.strip` / regex
`\s` on `str` patterns: TAB..CR, space, the C0 separators 0x1c-0x1f, NEL,
NBSP and the Unicode space-separator block. -/
def pyIsSpace (c : Char) : Bool :=
  decide ((9 ≤ c.toNat ∧ c.toNat ≤ 13) ∨ c.toNat = 32 ∨
    (28 ≤ c.toNat ∧ c.toNat ≤ 31) ∨ c.toNat = 0x85 ∨ c.toNat = 0xa0 ∨
    c.toNat = 0x1680 ∨ (0x2000 ≤ c.toNat ∧ c.toNat ≤ 0x200a) ∨
    c.toNat = 0x2028 ∨ c.toNat = 0x2029 ∨ c.toNat = 0x202f ∨
    c.toNat = 0x205f ∨ c.toNat = 0x3000)

/-- `str.lstrip()`. -/
def stripLeft (s : Chs) : Chs := s.dropWhile pyIsSpace

/-- `str.rstrip()`. -/
def stripRight (s : Chs) : Chs := (s.reverse.dropWhile pyIsSpace).reverse

/-- `str.strip()`. -/
def pyStrip (s : Chs) : Chs := stripRight (stripLeft s)

/-- `str.strip(chars)` for an explicit character set. -/
def stripCharsOf (cs : List Char) (s : Chs) : Chs :=
  let p := fun c => cs.contains c
  ((s.dropWhile p).reverse.dropWhile p).reverse

/-- `str.split()` with no argument: split on whitespace runs, no empties.
Fuelled by the string length (each word step consumes at least one
character) so that the kernel can evaluate it. -/
def pyWordsF : Nat → Chs → List Chs
  | _, [] => []
  | 0, _ => []
  | fuel + 1, c :: t =>
    if pyIsSpace c then pyWordsF fuel t
    else
      (c :: t.takeWhile (fun d => !pyIsSpace d)) ::
        pyWordsF fuel (t.dropWhile (fun d => !pyIsSpace d))

def pyWords (s : Chs) : List Chs := pyWordsF s.length s

/-- `' '.join(words)`. -/
def joinSp : List Chs → Chs
  | [] => []
  | [w] => w
  | w :: ws => w ++ ' ' :: joinSp ws

/-- `' '.join(s.split())`: collapse all whitespace to single spaces. -/
def pyCollapse (s : Chs) : Chs := joinSp (pyWords s)

/-- ASCII lower-casing of one character (`str.lower()` on our inputs). -/
def lowerC (c : Char) : Char := c.toLower

/-- `str.lower()`. -/
def lowerS (s : Chs) : Chs := s.map lowerC

/-- Case-insensitive prefix test (regex `re.IGNORECASE` literal match). -/
def ciPre (pat : Chs) (s : Chs) : Bool :=
  lowerS (s.take pat.length) == lowerS pat && decide (pat.length ≤ s.length)

/-- Regex word character `\w` (ASCII approximation, adequate here). -/
def isWordChar (c : Char) : Bool := c.isAlphanum || c == '_'

/-- Word-character test on an optional character (absent = non-word). -/
def isWordOpt : Option Char → Bool
  | none => false
  | some c => isWordChar c

/-- Python `str.capitalize()`: first character upper, the rest lower. -/
def pyCapitalize : Chs → Chs
  | [] => []
  | c :: t => c.toUpper :: lowerS t

/--
Generic left-to-right, non-overlapping regex-substitution scanner.
`m prev s` attempts a match at the start of `s` given the character `prev`
immediately preceding the position in the original text (for `\b`
look-arounds); on success it yields the replacement text together with the
number of extra characters consumed beyond the first (total consumed
= k+1 ≥ 1, which also makes the scan terminate).  This mirrors how
`re.sub` scans: try each position in order, emit replacements, resume
after the consumed text.
-/
def rewriteScanF (m : Option Char → Chs → Option (Chs × Nat)) :
    Nat → Option Char → Chs → Chs
  | _, _, [] => []
  | 0, _, s => s
  | fuel + 1, prev, c :: rest =>
    match m prev (c :: rest) with
    | some (repl, k) =>
      repl ++ rewriteScanF m fuel ((c :: rest).get? k) (rest.drop k)
    | none => c :: rewriteScanF m fuel (some c) rest

def rewriteScan (m : Option Char → Chs → Option (Chs × Nat))
    (prev : Option Char) (s : Chs) : Chs :=
  rewriteScanF m s.length prev s

/-- Substitution scanner for patterns without look-behind. -/
def rewriteScanNB (m : Chs → Option (Chs × Nat)) (s : Chs) : Chs :=
  rewriteScan (fun _ t => m t) none s

/-- Generic `re.search` existence scanner (with look-behind context). -/
def searchScan (p : Option Char → Chs → Bool) : Option Char → Chs → Bool
  | _, [] => false
  | prev, c :: rest => p prev (c :: rest) || searchScan p (some c) rest

/-! ### `normalize_work_period` (resume_agents.py lines 102-208) -/

/-- Matcher for `\s+to\s+` (IGNORECASE), replacement `' - '`. -/
def mToSep (s : Chs) : Option (Chs × Nat) :=
  let w := s.takeWhile pyIsSpace
  if w.isEmpty then none
  else
    match s.drop w.length with
    | t :: o :: r2 =>
      if lowerC t == 't' && lowerC o == 'o' then
        let w2 := r2.takeWhile pyIsSpace
        if w2.isEmpty then none
        else some ([' ', '-', ' '], w.length + 2 + w2.length - 1)
      else none
    | _ => none

/-- Matcher for `(\d)\s*/\s*(\d)`, replacement `\1 - \2`. -/
def mSlash : Chs → Option (Chs × Nat)
  | d1 :: r1 =>
    if d1.isDigit then
      let w1 := r1.takeWhile pyIsSpace
      match r1.drop w1.length with
      | sl :: r2 =>
        if sl == '/' then
          let w2 := r2.takeWhile pyIsSpace
          match r2.drop w2.length with
          | d2 :: _ =>
            if d2.isDigit then
              some ([d1, ' ', '-', ' ', d2], w1.length + 1 + w2.length + 1)
            else none
          | [] => none
        else none
      | [] => none
    else none
  | [] => none

/-- Matcher for `\s*-\s*`, replacement `' - '`. -/
def mHyph (s : Chs) : Option (Chs × Nat) :=
  let w := s.takeWhile pyIsSpace
  match s.drop w.length with
  | h :: r =>
    if h == '-' then
      let w2 := r.takeWhile pyIsSpace
      some ([' ', '-', ' '], w.length + w2.length)
    else none
  | [] => none

/-- Matcher for a whole word `\bpat\b` (IGNORECASE), fixed replacement. -/
def mWord (pat repl : Chs) (prev : Option Char) (s : Chs) : Option (Chs × Nat) :=
  if isWordOpt prev then none
  else if ciPre pat s then
    if ((s.drop pat.length).head?.map isWordChar).getD false then none
    else some (repl, pat.length - 1)
  else none

/-- `re.sub(rf'\b{pat}\b', repl, s, flags=re.IGNORECASE)`. -/
def subWordAll (pat repl : String) (s : Chs) : Chs :=
  rewriteScan (mWord pat.data repl.data) none s

/-- The month-name table of `normalize_work_period` (May is absent). -/
def monthPairs : List (String × String) :=
  [("January", "Jan"), ("February", "Feb"), ("March", "Mar"),
   ("April", "Apr"), ("June", "Jun"), ("July", "Jul"),
   ("August", "Aug"), ("September", "Sep"), ("October", "Oct"),
   ("November", "Nov"), ("December", "Dec")]

/-- Sequential whole-word month substitutions, in source dict order. -/
def monthSubAll (s : Chs) : Chs :=
  monthPairs.foldl (fun acc p => subWordAll p.1 p.2 acc) s

/-- `re.match(r'^\s*(\d{4})\s*$', s)`: the captured year. -/
def bareYear (s : Chs) : Option Chs :=
  let r := s.dropWhile pyIsSpace
  let ds := r.takeWhile Char.isDigit
  if ds.length == 4 && (r.drop 4).all pyIsSpace then some ds else none

/-- `re.match(r'^\s*(\d{4})\s*-\s*(\d{4})\s*$', s)`: both captured years. -/
def yearRange (s : Chs) : Option (Chs × Chs) :=
  let r := s.dropWhile pyIsSpace
  let d1 := r.takeWhile Char.isDigit
  if d1.length == 4 then
    let r1 := (r.drop 4).dropWhile pyIsSpace
    match r1 with
    | '-' :: r2 =>
      let r3 := r2.dropWhile pyIsSpace
      let d2 := r3.takeWhile Char.isDigit
      if d2.length == 4 && (r3.drop 4).all pyIsSpace then some (d1, d2)
      else none
    | _ => none
  else none

/-- The till-date spellings of the `year_till_date` pattern, source order. -/
def tillWords : List String := ["Till Date", "Present", "Current", "Till Now"]

/-- `re.match(r'^\s*(\d{4})\s*-\s*(Till Date|Present|Current|Till Now)\s*$',
s, re.IGNORECASE)`: the captured year. -/
def yearTillDate (s : Chs) : Option Chs :=
  let r := s.dropWhile pyIsSpace
  let d1 := r.takeWhile Char.isDigit
  if d1.length == 4 then
    let r1 := (r.drop 4).dropWhile pyIsSpace
    match r1 with
    | '-' :: r2 =>
      let r3 := r2.dropWhile pyIsSpace
      if tillWords.any (fun w =>
          ciPre w.data r3 && (r3.drop w.length).all pyIsSpace)
      then some d1 else none
    | _ => none
  else none

/-- Leftmost match of `' - [^0-9]*$'`: the prefix before it, if any. -/
def findSepTail : Chs → Option Chs
  | [] => none
  | c :: rest =>
    if (match c :: rest with
        | ' ' :: '-' :: ' ' :: t => t.all (fun d => !d.isDigit)
        | _ => false)
    then some []
    else (findSepTail rest).map (fun p => c :: p)

/-- `re.sub(r' - [^0-9]*$', ' - Till Date', s)` (applied when it matches). -/
def subTrailingTill (s : Chs) : Chs :=
  match findSepTail s with
  | some pre => pre ++ (" - Till Date").data
  | none => s

/-- `normalize_work_period` on character lists; the logging-only steps of
the source (FIX #12 validation warnings) do not affect the value. -/
def normalizeWorkPeriodL (s : Chs) : Chs :=
  if s.isEmpty then s
  else
    let n1 := s.map (fun c => if c == '–' || c == '—' then '-' else c)
    let n2 := rewriteScanNB mToSep n1
    let n3 := rewriteScanNB mSlash n2
    let n4 := rewriteScanNB mHyph n3
    let n5 := monthSubAll n4
    match bareYear n5 with
    | some y => y
    | none =>
      match yearRange n5 with
      | some (a, b) => a ++ (" - ").data ++ b
      | none =>
        match yearTillDate n5 with
        | some a => a ++ (" - Till Date").data
        | none => pyStrip (subTrailingTill n5)

/-- `normalize_work_period` (resume_agents.py line 102). -/
def normalize_work_period (s : String) : String :=
  String.mk (normalizeWorkPeriodL s.data)

/-! ### `normalize_location` (resume_agents.py lines 211-301) -/

/-- `_US_STATE_MAP`, in source dict order. -/
def usStatePairs : List (String × String) :=
  [("Alabama", "AL"), ("Alaska", "AK"), ("Arizona", "AZ"), ("Arkansas", "AR"),
   ("California", "CA"), ("Colorado", "CO"), ("Connecticut", "CT"),
   ("Delaware", "DE"), ("Florida", "FL"), ("Georgia", "GA"), ("Hawaii", "HI"),
   ("Idaho", "ID"), ("Illinois", "IL"), ("Indiana", "IN"), ("Iowa", "IA"),
   ("Kansas", "KS"), ("Kentucky", "KY"), ("Louisiana", "LA"), ("Maine", "ME"),
   ("Maryland", "MD"), ("Massachusetts", "MA"), ("Michigan", "MI"),
   ("Minnesota", "MN"), ("Mississippi", "MS"), ("Missouri", "MO"),
   ("Montana", "MT"), ("Nebraska", "NE"), ("Nevada", "NV"),
   ("New Hampshire", "NH"), ("New Jersey", "NJ"), ("New Mexico", "NM"),
   ("New York", "NY"), ("North Carolina", "NC"), ("North Dakota", "ND"),
   ("Ohio", "OH"), ("Oklahoma", "OK"), ("Oregon", "OR"),
   ("Pennsylvania", "PA"), ("Rhode Island", "RI"), ("South Carolina", "SC"),
   ("South Dakota", "SD"), ("Tennessee", "TN"), ("Texas", "TX"),
   ("Utah", "UT"), ("Vermont", "VT"), ("Virginia", "VA"),
   ("Washington", "WA"), ("West Virginia", "WV"), ("Wisconsin", "WI"),
   ("Wyoming", "WY"), ("District of Columbia", "DC")]

/-- ASCII upper-case letter (regex `[A-Z]`). -/
def isUpperAZ (c : Char) : Bool := decide ('A' ≤ c ∧ c ≤ 'Z')

/-- `re.search(r'\bIndia\b', s, re.IGNORECASE)`. -/
def hasWordIndia (s : Chs) : Bool :=
  searchScan
    (fun prev t =>
      !isWordOpt prev && ciPre ("India").data t &&
        !(((t.drop 5).head?.map isWordChar).getD false))
    none s

/-- Matcher for `\b[A-Z]{2}\b` (case-sensitive), replacement empty. -/
def mAZ2 (prev : Option Char) (s : Chs) : Option (Chs × Nat) :=
  if isWordOpt prev then none
  else
    match s with
    | a :: b :: r =>
      if isUpperAZ a && isUpperAZ b &&
          !((r.head?.map isWordChar).getD false) then some ([], 1)
      else none
    | _ => none

/-- Does `\s*,\s*\w+\s*$` match starting at this position? -/
def commaWordTailHere (s : Chs) : Bool :=
  let w := s.takeWhile pyIsSpace
  match s.drop w.length with
  | ',' :: r =>
    let r2 := r.dropWhile pyIsSpace
    let wrd := r2.takeWhile isWordChar
    !wrd.isEmpty && (r2.drop wrd.length).all pyIsSpace
  | _ => false

/-- Leftmost match of `\s*,\s*\w+\s*$`: prefix before it, if any. -/
def findCommaWordTail : Chs → Option Chs
  | [] => none
  | c :: rest =>
    if commaWordTailHere (c :: rest) then some []
    else (findCommaWordTail rest).map (fun p => c :: p)

/-- `re.sub(r'\s*,\s*\w+\s*$', '', s)`. -/
def subCommaWordTail (s : Chs) : Chs :=
  match findCommaWordTail s with
  | some pre => pre
  | none => s

/-- Matcher for `,\s*STATE\b` (IGNORECASE), replacement `, AB`. -/
def mStateRepl (st ab : Chs) : Chs → Option (Chs × Nat)
  | ',' :: r =>
    let w := r.takeWhile pyIsSpace
    let r2 := r.drop w.length
    if ciPre st r2 then
      if ((r2.drop st.length).head?.map isWordChar).getD false then none
      else some (',' :: ' ' :: ab, w.length + st.length)
    else none
  | _ => none

/-- The RULE-2 loop: first state (dict order) whose `,\s*STATE\b` pattern
occurs is abbreviated everywhere, then the loop breaks. -/
def applyStateSub : List (String × String) → Chs → Chs
  | [], s => s
  | (st, ab) :: rest, s =>
    if searchScan (fun _ t => (mStateRepl st.data ab.data t).isSome) none s then
      rewriteScanNB (mStateRepl st.data ab.data) s
    else applyStateSub rest s

/-- `re.match(r'^([A-Za-z\s]+)\s+([A-Z]{2})$', s)`: the stripped city and
the two-letter token. -/
def noCommaUS (n : Chs) : Option (Chs × Chs) :=
  if n.all (fun c => c.isAlpha || pyIsSpace c) then
    match n.reverse with
    | u2 :: u1 :: sp :: restRev =>
      if isUpperAZ u1 && isUpperAZ u2 && pyIsSpace sp && !restRev.isEmpty then
        some (pyStrip restRev.reverse, [u1, u2])
      else none
    | _ => none
  else none

/-- Matcher for `\s*,\s*`, replacement `', '`. -/
def mCommaSpace (s : Chs) : Option (Chs × Nat) :=
  let w := s.takeWhile pyIsSpace
  match s.drop w.length with
  | ',' :: r =>
    let w2 := r.takeWhile pyIsSpace
    some ([',', ' '], w.length + w2.length)
  | _ => none

/-- Matcher for `\s+[-|]\s+`, replacement `', '`. -/
def mSepBar (s : Chs) : Option (Chs × Nat) :=
  let w := s.takeWhile pyIsSpace
  if w.isEmpty then none
  else
    match s.drop w.length with
    | c :: r =>
      if c == '-' || c == '|' then
        let w2 := r.takeWhile pyIsSpace
        if w2.isEmpty then none
        else some ([',', ' '], w.length + w2.length)
      else none
    | [] => none

/-- The city extraction of the India branch: the pre-comma segment,
stripped, with standalone two-letter uppercase tokens removed, stripped
of spaces/commas, with a trailing `, word` removed, stripped. -/
def indiaCity (n : Chs) : Chs :=
  pyStrip (subCommaWordTail
    (stripCharsOf [' ', ','] (rewriteScan mAZ2 none
      (pyStrip (n.takeWhile (fun c => c != ','))))))

/-- The RULE-1 India branch of `normalize_location` applied to the
whitespace-collapsed input. -/
def indiaBranch (n : Chs) : Chs :=
  if (n.takeWhile (fun c => c != ',')).isEmpty then ("India").data
  else
    if !(indiaCity n).isEmpty && lowerS (indiaCity n) != ("india").data then
      indiaCity n ++ (", India").data
    else ("India").data

/-- `normalize_location` on character lists. -/
def normalizeLocationL (s : Chs) : Chs :=
  if s.isEmpty then s
  else
    let n := pyCollapse s
    if hasWordIndia n then indiaBranch n
    else
      let n1 := applyStateSub usStatePairs n
      let viaNoComma : Option Chs :=
        match noCommaUS n1 with
        | some (city, st) =>
          if usStatePairs.any (fun p => p.2.data == st) then
            some (city ++ ',' :: ' ' :: st)
          else none
        | none => none
      match viaNoComma with
      | some r => r
      | none =>
        let stripped := pyStrip n1
        if usStatePairs.any (fun p => p.1.data == stripped) then
          stripped ++ (", USA").data
        else if usStatePairs.any (fun p => p.2.data == stripped) then
          stripped ++ (", USA").data
        else
          pyStrip (rewriteScanNB mSepBar (rewriteScanNB mCommaSpace n1))

/-- `normalize_location` (resume_agents.py line 235). -/
def normalize_location (s : String) : String :=
  String.mk (normalizeLocationL s.data)

/-! ### ` strip_bullet_prefix` (chunk_resume.py lines 410-431) -/

/-- The bullet characters of `BULLET_PREFIX_PATTERN`. -/
def isBulletChar (c : Char) : Bool :=
  c == '-' || c == '*' ||
    decide (c.toNat = 0x2022 ∨ c.toNat = 0x2023 ∨ c.toNat = 0x25E6 ∨
      c.toNat = 0x2043 ∨ c.toNat = 0x2219 ∨ c.toNat = 0xB7)

/--
One `BULLET_PREFIX_PATTERN.sub("", s, count=1)` application.  The pattern
`^\s*(?:--+|[-*•‣◦⁃∙·]+)(?:\s+|(?=[A-Za-z0-9]))` is anchored; all its
repetitions range over disjoint character classes whose members are neither
whitespace nor alphanumeric, so backtracking cannot produce a different
match and the greedy reading below is exact: maximal whitespace, a
non-empty maximal bullet run, then either a consumed whitespace run or a
zero-width alphanumeric look-ahead; anything else leaves `s` unchanged.
-/
def bulletStep (s : Chs) : Chs :=
  let w := s.takeWhile pyIsSpace
  let r1 := s.drop w.length
  let b := r1.takeWhile isBulletChar
  if b.isEmpty then s
  else
    let r2 := r1.drop b.length
    match r2 with
    | [] => s
    | c :: _ =>
      if pyIsSpace c then r2.dropWhile pyIsSpace
      else if c.isAlphanum then r2
      else s

/-- The rewrite loop of ` strip_bullet_prefix`, supplied with enough fuel:
each productive step strictly shortens the string (see the C10 theorem),
so `s.length` iterations always reach the fixed point the Python
`while True` loop stops at. -/
def bulletIter : Nat → Chs → Chs
  | 0, s => s
  | n + 1, s =>
    let t := bulletStep s
    if t = s then s else bulletIter n t

/-- ` strip_bullet_prefix` (chunk_resume.py line 416): iterate the pattern
substitution to a fixed point, then `lstrip()`. -/
def stripBulletPrefixL (s : Chs) : Chs :=
  stripLeft (bulletIter s.length s)

/-- ` strip_bullet_prefix` on `String`. -/
def strip_bullet_prefix (s : String) : String :=
  String.mk (stripBulletPrefixL s.data)

/-! ### `remove_vendor_names` / `sanitize_responsibilities`
(resume_agents.py lines 336-381) -/

/-- The lead-in alternation `using|via|with|through|like|i\.?e\.?|e\.?g\.?|
tool|platform`, expanded into literal candidates in backtracking order. -/
def vendorLeadIns : List String :=
  ["using", "via", "with", "through", "like",
   "i.e.", "i.e", "ie.", "ie", "e.g.", "e.g", "eg.", "eg",
   "tool", "platform"]

/-- `_VENDOR_NAMES_TO_REMOVE`, in source order. -/
def vendorNames : List String :=
  ["Gearset", "Conga", "Muelsoft", "MuleSoft", "Copado"]

/-- The look-ahead `(?=\s*[,\.;\)]|\s*$)` of `_VENDOR_REMOVAL_PATTERN`. -/
def vendorLookahead (r : Chs) : Bool :=
  let r2 := r.dropWhile pyIsSpace
  match r2 with
  | [] => true
  | c :: _ => c == ',' || c == '.' || c == ';' || c == ')'

/-- A vendor name (IGNORECASE) at the head of `s` with the look-ahead:
its length, preferring source alternation order. -/
def vendorAt (s : Chs) : Option Nat :=
  (vendorNames.find? (fun v => ciPre v.data s && vendorLookahead (s.drop v.length))).map
    (fun v => v.length)

/--
Matcher of `_VENDOR_REMOVAL_PATTERN`.  The optional prefix group tries a
lead-in word followed by `\s+`, then a `(?<=,\s)` look-behind, then the
empty alternative; the latter two consume the same span (just the vendor
name), so only the lead-in branch changes the removed text.
-/
def mVendor (s : Chs) : Option (Chs × Nat) :=
  match vendorLeadIns.findSome? (fun li =>
      if ciPre li.data s then
        let r := s.drop li.length
        let w := r.takeWhile pyIsSpace
        if w.isEmpty then none
        else
          match vendorAt (r.drop w.length) with
          | some vl => some (li.length + w.length + vl)
          | none => none
      else none) with
  | some total => some ([], total - 1)
  | none =>
    match vendorAt s with
    | some vl => some ([], vl - 1)
    | none => none

/-- Matcher for `[ \t]+`, replacement `' '`. -/
def mSpaceTabRun (s : Chs) : Option (Chs × Nat) :=
  let w := s.takeWhile (fun c => c == ' ' || c == '\t')
  if w.isEmpty then none else some ([' '], w.length - 1)

/-- Matcher for `\s+\.`, replacement `'.'`. -/
def mWsDot (s : Chs) : Option (Chs × Nat) :=
  let w := s.takeWhile pyIsSpace
  if w.isEmpty then none
  else
    match s.drop w.length with
    | '.' :: _ => some (['.'], w.length)
    | _ => none

/-- Matcher for `,\s*\.`, replacement `'.'`. -/
def mCommaWsDot : Chs → Option (Chs × Nat)
  | ',' :: r =>
    let w := r.takeWhile pyIsSpace
    match r.drop w.length with
    | '.' :: _ => some (['.'], w.length + 1)
    | _ => none
  | _ => none

/-- Does `\s*,\s*$` match starting at this position? -/
def commaTailHere (s : Chs) : Bool :=
  let w := s.takeWhile pyIsSpace
  match s.drop w.length with
  | ',' :: r => r.all pyIsSpace
  | _ => false

/-- Leftmost match of `\s*,\s*$`: the prefix before it, if any. -/
def findCommaTail : Chs → Option Chs
  | [] => none
  | c :: rest =>
    if commaTailHere (c :: rest) then some []
    else (findCommaTail rest).map (fun p => c :: p)

/-- `re.sub(r'\s*,\s*$', '.', s)`. -/
def subCommaTailDot (s : Chs) : Chs :=
  match findCommaTail s with
  | some pre => pre ++ ['.']
  | none => s

/-- `remove_vendor_names` (resume_agents.py line 354). -/
def removeVendorNamesL (s : Chs) : Chs :=
  if s.isEmpty then s
  else
    let c1 := rewriteScanNB mVendor s
    let c2 := rewriteScanNB mSpaceTabRun c1
    let c3 := rewriteScanNB mWsDot c2
    let c4 := rewriteScanNB mCommaWsDot c3
    let c5 := subCommaTailDot c4
    let c6 := stripRight c5
    pyStrip c6

/-- `remove_vendor_names` on `String`. -/
def remove_vendor_names (s : String) : String :=
  String.mk (removeVendorNamesL s.data)

/-! ### `extract_location_from_company_name` (resume_agents.py lines
388-413) -/

/-- Character class `[A-Za-z\s]`. -/
def isAlphaWs (c : Char) : Bool := c.isAlpha || pyIsSpace c

/-- The value of `\s*([A-Za-z\s]+)` on a non-empty all-class run: the
greedy `\s*` eats the whitespace prefix, but gives one character back
when the group would otherwise be empty. -/
def groupAfterWs (run : Chs) : Chs :=
  let w0 := run.takeWhile pyIsSpace
  if w0.length = run.length then run.drop (run.length - 1)
  else run.drop w0.length

/-- Leftmost match of `,\s*([A-Za-z\s]+),\s*([A-Za-z\s]+)\s*$`: both
captured groups. -/
def findEmbeddedLoc : Chs → Option (Chs × Chs)
  | [] => none
  | c :: rest =>
    (if c == ',' then
      (let run := rest.takeWhile isAlphaWs
       if run.isEmpty then none
       else
         match rest.drop run.length with
         | ',' :: r2 =>
           let run2 := r2.takeWhile isAlphaWs
           if !run2.isEmpty && (r2.drop run2.length).isEmpty then
             some (groupAfterWs run, groupAfterWs r2)
           else none
         | _ => none)
     else none) <|> findEmbeddedLoc rest

/-- `extract_location_from_company_name` (resume_agents.py line 388). -/
def extract_location_from_company_name (s : String) : Option String :=
  if s.data.isEmpty then none
  else
    match findEmbeddedLoc s.data with
    | some (g1, g2) =>
      some (String.mk (normalizeLocationL
        (pyStrip g1 ++ (", ").data ++ pyStrip g2)))
    | none => none

/-! ### `normalize_person_name` (resume_agents.py lines 38-99) -/

/-- One optional literal dot (`\.?`, greedy). -/
def optDot : Chs → Nat × Chs
  | '.' :: r => (1, r)
  | r => (0, r)

/-- Match lengths of `a\.?\s*k\.?\s*a\.?` at the head of `s`, in
backtracking preference order (inner dots and the whitespace runs are
forced; only the final optional dot branches). -/
def akaLens (s : Chs) : List Nat :=
  match s with
  | a :: r1 =>
    if lowerC a == 'a' then
      let d1 := optDot r1
      let w1 := d1.2.takeWhile pyIsSpace
      match d1.2.drop w1.length with
      | k :: r4 =>
        if lowerC k == 'k' then
          let d2 := optDot r4
          let w2 := d2.2.takeWhile pyIsSpace
          match d2.2.drop w2.length with
          | a2 :: r7 =>
            if lowerC a2 == 'a' then
              let base := 1 + d1.1 + w1.length + 1 + d2.1 + w2.length + 1
              match r7 with
              | '.' :: _ => [base + 1, base]
              | _ => [base]
            else []
          | [] => []
        else []
      | [] => []
    else []
  | [] => []

/-- Match lengths of the `metadata_keywords` alternation at the head of
`s` (IGNORECASE), alternatives in source order. -/
def kwLens (s : Chs) : List Nat :=
  (if ciPre ("preferred").data s then
    (let r := s.drop 9
     let w := r.takeWhile pyIsSpace
     if ciPre ("name").data (r.drop w.length) then [9 + w.length + 4] else [])
   else []) ++
  (if ciPre ("pronouns").data s then [8] else []) ++
  (if ciPre ("pronoun").data s then [7] else []) ++
  akaLens s ++
  (if ciPre ("aka").data s then [3] else []) ++
  (if ciPre ("also known as").data s then [13] else []) ++
  (if ciPre ("legal name").data s then [10] else []) ++
  (if ciPre ("nickname").data s then [8] else []) ++
  (if ciPre ("maiden name").data s then [11] else [])

/-- Is there a metadata keyword, with `(?<!\w)`/`(?!\w)` boundaries,
anywhere in a bracket body (the opening bracket precedes the body)? -/
def bodyHasKw : Option Char → Chs → Bool
  | _, [] => false
  | prev, c :: r =>
    (!isWordOpt prev &&
      (kwLens (c :: r)).any (fun L =>
        !((((c :: r).drop L).head?.map isWordChar).getD false))) ||
      bodyHasKw (some c) r

/-- Matcher for the bracketed-metadata pattern
`\s*[([{][^)\]}]*(?<!\w)KW(?!\w)[^)\]}]*[)\]}]\s*`, replacement `' '`.
Whatever keyword position the engine settles on, the consumed span is
always the whole bracket group with surrounding whitespace. -/
def mBracketMeta (s : Chs) : Option (Chs × Nat) :=
  let w := s.takeWhile pyIsSpace
  match s.drop w.length with
  | op :: r2 =>
    if op == '(' || op == '[' || op == '{' then
      let body := r2.takeWhile (fun c => !(c == ')' || c == ']' || c == '}'))
      match r2.drop body.length with
      | _cl :: r3 =>
        if bodyHasKw none body then
          let w2 := r3.takeWhile pyIsSpace
          some ([' '], w.length + 1 + body.length + 1 + w2.length - 1)
        else none
      | [] => none
    else none
  | [] => none

/-- The `(?:\s*[:\-])?\s+.*$` tail after an inline metadata keyword.  The
input reaching this pattern is whitespace-collapsed, hence newline-free,
so `$` is end-of-string here. -/
def inlineTailOk (r : Chs) : Bool :=
  let w := r.takeWhile pyIsSpace
  if !w.isEmpty then true
  else
    match r with
    | c :: r2 => (c == ':' || c == '-') && !(r2.takeWhile pyIsSpace).isEmpty
    | [] => false

/-- Matcher for `(?<!\w)KW(?!\w)(?:\s*[:\-])?\s+.*$`, replacement empty:
deletes from the keyword to the end of the string. -/
def mInlineMetaTail (prev : Option Char) (s : Chs) : Option (Chs × Nat) :=
  if isWordOpt prev then none
  else if (kwLens s).any (fun L => inlineTailOk (s.drop L)) then
    some ([], s.length - 1)
  else none

/-- Character class `[A-Za-z\.\-'\s]` kept by the name-charset filter. -/
def keepNameChar (c : Char) : Bool :=
  c.isAlpha || c == '.' || c == '-' || c == '\'' || pyIsSpace c

/-- Matcher for `\s+`, replacement `' '`. -/
def mWsRun (s : Chs) : Option (Chs × Nat) :=
  let w := s.takeWhile pyIsSpace
  if w.isEmpty then none else some ([' '], w.length - 1)

/-- `word.split("'")` (keeps empty parts, as Python does). -/
def splitOnApos : Chs → List Chs
  | [] => [[]]
  | c :: r =>
    let rest := splitOnApos r
    if c = '\'' then [] :: rest
    else
      match rest with
      | h :: t => (c :: h) :: t
      | [] => [[c]]

/-- `"'".join(parts)`. -/
def joinApos : List Chs → Chs
  | [] => []
  | [w] => w
  | w :: ws => w ++ '\'' :: joinApos ws

/-- Leading `^\s*(?:name|candidate name|full name)\s*[:\-]\s*` label
removal (alternative initial characters are distinct, so at most one
alternative can apply). -/
def stripLeadLabel (s : Chs) : Chs :=
  let w := s.takeWhile pyIsSpace
  let r := s.drop w.length
  match ["name", "candidate name", "full name"].findSome? (fun alt =>
      if ciPre alt.data r then
        let r2 := r.drop alt.length
        let w2 := r2.takeWhile pyIsSpace
        match r2.drop w2.length with
        | c :: r3 =>
          if c == ':' || c == '-' then some (r3.dropWhile pyIsSpace)
          else none
        | [] => none
      else none) with
  | some rest => rest
  | none => s

/-- FIX #8 Title-Case step: capitalize each word, treating an apostrophe
as an internal word boundary. -/
def titleWord (w : Chs) : Chs :=
  if w.contains '\'' then
    joinApos ((splitOnApos w).map (fun p => if p.isEmpty then p else pyCapitalize p))
  else pyCapitalize w

/-- `normalize_person_name` on character lists. -/
def normalizePersonNameL (s : Chs) : Chs :=
  if s.isEmpty then []
  else
    let n0 := pyCollapse s
    let n1 := stripLeadLabel n0
    let n2 := rewriteScanNB mBracketMeta n1
    let n3 := rewriteScan mInlineMetaTail none n2
    let n4 := n3.map (fun c => if keepNameChar c then c else ' ')
    let n5 := stripCharsOf [' ', '-', ',', ':', ';'] (rewriteScanNB mWsRun n4)
    joinSp ((pyWords n5).map titleWord)

/-- `normalize_person_name` (resume_agents.py line 38). -/
def normalize_person_name (s : String) : String :=
  String.mk (normalizePersonNameL s.data)

/-! ### Python JSON values and dictionaries

The data the agents pass around are `json.loads` results: nulls, booleans,
numbers, strings, lists and (insertion-ordered) dictionaries.  Code that
would raise (`AttributeError` on a method of a non-string, `TypeError`
when iterating a non-iterable) returns `Except`. -/

inductive JVal where
  | jnull : JVal
  | jbool : Bool → JVal
  | jnum : Int → JVal
  | jstr : String → JVal
  | jlist : List JVal → JVal
  | jdict : List (String × JVal) → JVal
deriving Repr, BEq

abbrev JDict := List (String × JVal)

/-- Python truthiness of a JSON value. -/
def truthy : JVal → Bool
  | .jnull => false
  | .jbool b => b
  | .jnum n => n != 0
  | .jstr s => !s.isEmpty
  | .jlist xs => !xs.isEmpty
  | .jdict d => !d.isEmpty

/-- `d.get(k)` (`None` when absent is `Option.none`). -/
def dget (d : JDict) (k : String) : Option JVal :=
  (d.find? (fun p => p.1 == k)).map (fun p => p.2)

/-- `d.get(k, default)`. -/
def dgetD (d : JDict) (k : String) (v : JVal) : JVal := (dget d k).getD v

/-- Truthiness of `d.get(k)`. -/
def truthyAt (d : JDict) (k : String) : Bool :=
  ((dget d k).map truthy).getD false

/-- `d[k] = v`: replace in place, or append a new key. -/
def dset : JDict → String → JVal → JDict
  | [], k, v => [(k, v)]
  | (k', v') :: t, k, v =>
    if k' == k then (k, v) :: t else (k', v') :: dset t k v

/-- `k in d`. -/
def hasKey (d : JDict) (k : String) : Bool :=
  (d.find? (fun p => p.1 == k)).isSome

/-- `str(value)` coercion point: only actual strings succeed; anything
else models an `AttributeError`/`TypeError` raised by a string method. -/
def asStr : JVal → Except String String
  | .jstr s => .ok s
  | _ => .error "AttributeError"

/-- `(v or '').strip()`. -/
def orEmptyStrip (v : JVal) : Except String String :=
  if truthy v then (asStr v).map (fun s => String.mk (pyStrip s.data))
  else .ok ""

/-- Python `for x in v`: lists iterate their elements, strings their
characters, dicts their keys; other values raise `TypeError`. -/
def pyIterate : JVal → Except String (List JVal)
  | .jlist xs => .ok xs
  | .jstr s => .ok (s.data.map (fun c => .jstr (String.mk [c])))
  | .jdict d => .ok (d.map (fun p => .jstr p.1))
  | _ => .error "TypeError"

/-- Effectful map over a list in the `Except` monad, left to right,
short-circuiting on the first raise (the semantics of a Python `for`
loop that rebuilds/overwrites each element). -/
def mapME {A B : Type} (f : A → Except String B) : List A → Except String (List B)
  | [] => .ok []
  | x :: xs => do
    let y ← f x
    let ys ← mapME f xs
    return y :: ys

/-- Effectful left fold in the `Except` monad (the semantics of a Python
`for` loop threading an accumulator, short-circuiting on a raise). -/
def foldME {A B : Type} (f : B → A → Except String B) : B → List A → Except String B
  | b, [] => .ok b
  | b, x :: xs => do
    let c ← f b x
    foldME f c xs

/-! ### `enforce_tech_responsibility_rules` /
`enforce_project_period_dedup` (resume_agents.py lines 416-464) -/

/-- `enforce_tech_responsibility_rules` (resume_agents.py line 416). -/
def enforce_tech_responsibility_rules (job : JDict) : JDict :=
  if truthyAt job "projects" then
    let j1 := if truthyAt job "keyTechnologies" then
        dset job "keyTechnologies" (.jstr "") else job
    if truthyAt j1 "responsibilities" then
      dset j1 "responsibilities" (.jlist []) else j1
  else job

/-- `enforce_project_period_dedup` (resume_agents.py line 441). -/
def enforce_project_period_dedup (job : JDict) : Except String JDict := do
  let jobPeriod ← orEmptyStrip (dgetD job "workPeriod" .jnull)
  match dget job "projects" with
  | some (.jlist ps) =>
    if jobPeriod.isEmpty || ps.isEmpty then return job
    else
      let ps' ← mapME (fun p => do
        match p with
        | .jdict pd =>
          let projPeriod ← orEmptyStrip (dgetD pd "period" .jnull)
          if !projPeriod.isEmpty && projPeriod == jobPeriod then
            return JVal.jdict (dset pd "period" (.jstr ""))
          else return JVal.jdict pd
        | other => return other) ps
      return dset job "projects" (.jlist ps')
  | _ => return job

/-! ### `extract_certification_fields` (resume_agents.py lines 518-585) -/

/-- Case-sensitive literal prefix test. -/
def csPre (pat : Chs) (s : Chs) : Bool :=
  s.take pat.length == pat && decide (pat.length ≤ s.length)

/-- `\b` between two optional characters. -/
def wordBoundary (a b : Option Char) : Bool :=
  ((a.map isWordChar).getD false) != ((b.map isWordChar).getD false)

/-- Expansions of `issued|obtained|date|expires?|expiration|number|#`, in
backtracking order. -/
def leakAlts : List String :=
  ["issued", "obtained", "date", "expires", "expire", "expiration",
   "number", "#"]

/-- `re.search(r'\b(?:issued|...|#)\b', s, re.IGNORECASE)`. -/
def hasLeakWord (s : Chs) : Bool :=
  searchScan
    (fun prev t =>
      leakAlts.any (fun alt =>
        ciPre alt.data t && wordBoundary prev t.head? &&
          wordBoundary (t.get? (alt.length - 1)) ((t.drop alt.length).head?)))
    none s

/-- The keyword alternation of the clean-name pattern (case-sensitive). -/
def certNameKws : List String :=
  ["Issued", "issued", "Obtained", "obtained", "From", "from",
   "Date", "date", "by"]

/-- Does `\s+(?:Issued|...|by)\b` match at this position? -/
def certKwTailHere (rest : Chs) : Bool :=
  let w := rest.takeWhile pyIsSpace
  if w.isEmpty then false
  else
    let r1 := rest.drop w.length
    certNameKws.any (fun kw =>
      csPre kw.data r1 && !(((r1.drop kw.length).head?.map isWordChar).getD false))

/-- `re.match(r'^(.+?)(?:\s+(?:Issued|...|by)\b)', s)`: the lazily
captured prefix (which `.` keeps free of newlines). -/
def cleanNameSplitGo (takenRev : Chs) : Chs → Option Chs
  | [] => none
  | c :: r =>
    if !takenRev.isEmpty && certKwTailHere (c :: r) then some takenRev.reverse
    else if c.toNat = 10 then none
    else cleanNameSplitGo (c :: takenRev) r

def cleanNameSplit (s : Chs) : Option Chs := cleanNameSplitGo [] s

/-- Character class `[^,\n(]`. -/
def notCommaNlParen (c : Char) : Bool :=
  !(c == ',' || c.toNat = 10 || c == '(')

/--
The `\s*[:\-]?\s*([^,\n(]+)` tail of the issuer pattern.  Greedy choices
first; when the group would be empty, the engine gives back one
whitespace character, then drops the optional separator, then gives back
leading whitespace, in that backtracking order.
-/
def issuerGroupTail (r : Chs) : Option Chs :=
  let w1 := r.takeWhile pyIsSpace
  let r1 := r.drop w1.length
  let sepPresent := match r1 with
    | c :: _ => c == ':' || c == '-'
    | [] => false
  let r2 := if sepPresent then r1.drop 1 else r1
  let w2 := r2.takeWhile pyIsSpace
  let r3 := r2.drop w2.length
  let g := r3.takeWhile notCommaNlParen
  if !g.isEmpty then some g
  else if !w2.isEmpty then some ((r2.drop (w2.length - 1)).takeWhile notCommaNlParen)
  else if sepPresent then some (r1.takeWhile notCommaNlParen)
  else if !w1.isEmpty then some ((r.drop (w1.length - 1)).takeWhile notCommaNlParen)
  else none

/-- Keyword lengths of `Issued\s+by|issued\s+by|From|from|by` at the head
of `s` (case-sensitive), in alternation order. -/
def issuerKwLens (s : Chs) : List Nat :=
  (["Issued", "issued"].filterMap (fun kw =>
    if csPre kw.data s then
      let r := s.drop 6
      let w := r.takeWhile pyIsSpace
      if !w.isEmpty && csPre ("by").data (r.drop w.length) then
        some (6 + w.length + 2)
      else none
    else none)) ++
  (["From", "from"].filterMap (fun kw =>
    if csPre kw.data s then some 4 else none)) ++
  (if csPre ("by").data s then [2] else [])

/-- Leftmost match of the issuer pattern: the captured group. -/
def issuerSearch : Chs → Option Chs
  | [] => none
  | c :: rest =>
    ((issuerKwLens (c :: rest)).findSome? (fun L =>
      issuerGroupTail ((c :: rest).drop L))) <|> issuerSearch rest

/-- The date group `[A-Za-z]{3,}\s+\d{4}|\d{2}/\d{2,4}` at the head of
`r` (both alternatives are whitespace-initial-free, so the preceding
`\s*` pieces are deterministic). -/
def dateGroupHere (r : Chs) : Option Chs :=
  let letters := r.takeWhile Char.isAlpha
  let afterL := r.drop letters.length
  let w := afterL.takeWhile pyIsSpace
  let digits := (afterL.drop w.length).takeWhile Char.isDigit
  if decide (3 ≤ letters.length) && !w.isEmpty && decide (4 ≤ digits.length) then
    some (letters ++ w ++ digits.take 4)
  else
    match r with
    | d1 :: d2 :: '/' :: r2 =>
      if d1.isDigit && d2.isDigit then
        let ds := r2.takeWhile Char.isDigit
        if decide (2 ≤ ds.length) then some ([d1, d2, '/'] ++ ds.take 4)
        else none
      else none
    | _ => none

/-- `\s*[:\-]?\s*` before a group whose first character is neither
whitespace nor a separator: deterministic skipping. -/
def skipSepWs (r : Chs) : Chs :=
  let r1 := r.dropWhile pyIsSpace
  let r2 := match r1 with
    | c :: t => if c == ':' || c == '-' then t else r1
    | [] => r1
  r2.dropWhile pyIsSpace

/-- Generic search for `(?:KWS)\s*[:\-]?\s*(DATEGROUP)` with a
case-sensitivity flag for the keywords. -/
def dateKwSearch (kws : List String) (ci : Bool) : Chs → Option Chs
  | [] => none
  | c :: rest =>
    (kws.findSome? (fun kw =>
      if (if ci then ciPre kw.data (c :: rest) else csPre kw.data (c :: rest)) then
        dateGroupHere (skipSepWs ((c :: rest).drop kw.length))
      else none)) <|> dateKwSearch kws ci rest

/-- The certification-number group `[A-Z0-9][A-Z0-9\-]+`. -/
def numGroupHere (r : Chs) : Option Chs :=
  match r with
  | c :: t =>
    if isUpperAZ c || c.isDigit then
      let run := t.takeWhile (fun d => isUpperAZ d || d.isDigit || d == '-')
      if run.isEmpty then none else some (c :: run)
    else none
  | [] => none

/-- Keywords of the certification-number pattern (case-sensitive). -/
def numKws : List String :=
  ["Certification", "certification", "Number", "number", "ID", "id", "#"]

/-- Leftmost match of the certification-number pattern: the group. -/
def numSearch : Chs → Option Chs
  | [] => none
  | c :: rest =>
    (numKws.findSome? (fun kw =>
      if csPre kw.data (c :: rest) then
        numGroupHere (skipSepWs ((c :: rest).drop kw.length))
      else none)) <|> numSearch rest

/-- Expansions of `Expir(?:es?|ation)|expires?` (IGNORECASE), in
backtracking order. -/
def expKws : List String :=
  ["Expires", "Expire", "Expiration", "expires", "expire"]

/-- `extract_certification_fields` (resume_agents.py line 518). -/
def extract_certification_fields (cert : JDict) : Except String JDict := do
  let name ← asStr (dgetD cert "name" (.jstr ""))
  if !hasLeakWord name.data then return cert
  let c1 := match cleanNameSplit name.data with
    | some pre =>
      dset cert "name" (.jstr (String.mk (stripCharsOf [' ', '-', '(', ')'] pre)))
    | none => cert
  let c2 := if !truthyAt c1 "issuedBy" then
      match issuerSearch name.data with
      | some g => dset c1 "issuedBy" (.jstr (String.mk (pyStrip g)))
      | none => c1
    else c1
  let c3 := if !truthyAt c2 "dateObtained" then
      match dateKwSearch ["Obtained", "obtained", "Date", "date", "Issued"]
          false name.data with
      | some g => dset c2 "dateObtained" (.jstr (String.mk (pyStrip g)))
      | none => c2
    else c2
  let c4 := if !truthyAt c3 "certificationNumber" then
      match numSearch name.data with
      | some g => dset c3 "certificationNumber" (.jstr (String.mk (pyStrip g)))
      | none => c3
    else c3
  let c5 := if !truthyAt c4 "expirationDate" then
      match dateKwSearch expKws true name.data with
      | some g => dset c4 "expirationDate" (.jstr (String.mk (pyStrip g)))
      | none => c4
    else c4
  return c5

/-! ### `ResumeAgent._clean_extracted_data` (resume_agents.py lines
848-1011) -/

inductive AgentType where
  | header | summary | experience | education | skills | certifications
deriving Repr, DecidableEq

/-- `[ strip_bullet_prefix(item) for item in items if isinstance(item, str)]`. -/
def stripStrItems (items : List JVal) : List JVal :=
  items.filterMap (fun it =>
    match it with
    | .jstr s => some (.jstr ( strip_bullet_prefix s))
    | _ => none)

/-- `sanitize_responsibilities` (resume_agents.py line 379). -/
def sanitizeList (items : List JVal) : List JVal :=
  items.filterMap (fun it =>
    match it with
    | .jstr s => some (.jstr (remove_vendor_names s))
    | _ => none)

/-- `for x in v: body(x)` with in-place mutation: list elements are
written back; iterating a string or a dict yields fresh strings whose
mutations are lost (the body still runs, so its exceptions surface);
anything else raises `TypeError`. -/
def iterInPlace (v : JVal) (f : JVal → Except String JVal) : Except String JVal :=
  match v with
  | .jlist xs => do
    let ys ← mapME f xs
    return .jlist ys
  | .jstr s => do
    let _ ← mapME f (s.data.map (fun c => JVal.jstr (String.mk [c])))
    return .jstr s
  | .jdict d => do
    let _ ← mapME f (d.map (fun p => JVal.jstr p.1))
    return .jdict d
  | _ => .error "TypeError"

/-- Is a value a dict (`isinstance(x, dict)`)? -/
def isJDict : JVal → Bool
  | .jdict _ => true
  | _ => false

/-- The body of the summary-sections loop. -/
def cleanSummarySection (v : JVal) : Except String JVal :=
  match v with
  | .jdict sd =>
    if truthyAt sd "content" then do
      let cs ← pyIterate (dgetD sd "content" .jnull)
      return .jdict (dset sd "content" (.jlist (stripStrItems cs)))
    else return v
  | _ => return v

/-- The SUMMARY branch of `_clean_extracted_data`. -/
def cleanSummaryData (d : JDict) : Except String JDict := do
  let ps ← pyIterate (dgetD d "professionalSummary" .jnull)
  let d1 := dset d "professionalSummary" (.jlist (stripStrItems ps))
  if truthyAt d1 "summarySections" then do
    let v' ← iterInPlace (dgetD d1 "summarySections" .jnull) cleanSummarySection
    return dset d1 "summarySections" v'
  else return d1

/-- The per-job cleaning of the EXPERIENCE branch. -/
def cleanJob (job : JDict) : Except String JDict := do
  let j1 ← (if truthyAt job "workPeriod" then do
      let s ← asStr (dgetD job "workPeriod" .jnull)
      pure (dset job "workPeriod" (.jstr (normalize_work_period s)))
    else pure job)
  let j2 ← (if !truthyAt j1 "location" && truthyAt j1 "companyName" then do
      let cn ← asStr (dgetD j1 "companyName" .jnull)
      match extract_location_from_company_name cn with
      | some loc =>
        if !loc.isEmpty then pure (dset j1 "location" (.jstr loc)) else pure j1
      | none => pure j1
    else pure j1)
  let j3 ← (if truthyAt j2 "location" then do
      let s ← asStr (dgetD j2 "location" .jnull)
      pure (dset j2 "location" (.jstr (normalize_location s)))
    else pure j2)
  let j4 := (match dget j3 "responsibilities" with
    | some (.jlist items) =>
      if !items.isEmpty then
        dset j3 "responsibilities" (.jlist (sanitizeList (stripStrItems items)))
      else j3
    | _ => j3)
  let j5 := (match dget j4 "subsections" with
    | some (.jlist subs) =>
      if !subs.isEmpty then
        dset j4 "subsections" (.jlist (subs.map (fun sub =>
          match sub with
          | .jdict sd =>
            (match dget sd "content" with
             | some (.jlist cs) =>
               if !cs.isEmpty then
                 JVal.jdict (dset sd "content" (.jlist (stripStrItems cs)))
               else sub
             | _ => sub)
          | other => other)))
      else j4
    | _ => j4)
  let j6 ← (match dget j5 "projects" with
    | some (.jlist ps) =>
      if !ps.isEmpty then do
        let ps' ← mapME (fun p =>
          match p with
          | .jdict pd => do
            let p1 ← (if truthyAt pd "period" then do
                let s ← asStr (dgetD pd "period" .jnull)
                pure (dset pd "period" (.jstr (normalize_work_period s)))
              else pure pd)
            let p2 ← (if truthyAt p1 "projectLocation" then do
                let s ← asStr (dgetD p1 "projectLocation" .jnull)
                pure (dset p1 "projectLocation" (.jstr (normalize_location s)))
              else pure p1)
            let p3 := (match dget p2 "projectResponsibilities" with
              | some (.jlist items) =>
                if !items.isEmpty then
                  dset p2 "projectResponsibilities"
                    (.jlist (sanitizeList (stripStrItems items)))
                else p2
              | _ => p2)
            pure (JVal.jdict p3)
          | other => pure other) ps
        pure (dset j5 "projects" (.jlist ps'))
      else pure j5
    | _ => pure j5)
  let j7 := (match dget j6 "projects" with
    | some (.jlist ps) => dset j6 "projects" (.jlist (ps.filter isJDict))
    | _ => j6)
  let j8 := enforce_tech_responsibility_rules j7
  enforce_project_period_dedup j8

/-- The EXPERIENCE branch of `_clean_extracted_data`: guard against a
stray string or bare dict, clean each job dict, skip non-dict entries,
then drop them from the final list. -/
def cleanExperienceData (d : JDict) : Except String JDict :=
  match dgetD d "employmentHistory" .jnull with
  | .jstr _ => return dset d "employmentHistory" (.jlist [])
  | .jdict jd => do
    let j ← cleanJob jd
    return dset d "employmentHistory" (.jlist [.jdict j])
  | .jlist xs => do
    let xs' ← mapME (fun x =>
      match x with
      | .jdict jd => (cleanJob jd).map JVal.jdict
      | other => pure other) xs
    return dset d "employmentHistory" (.jlist (xs'.filter isJDict))
  | _ => .error "TypeError"

/-- The body of the education loop. -/
def cleanEduEntry (e : JVal) : Except String JVal :=
  match e with
  | .jdict ed => do
    let e1 ← (if truthyAt ed "location" then do
        let s ← asStr (dgetD ed "location" .jnull)
        pure (dset ed "location" (.jstr (normalize_location s)))
      else pure ed)
    let e2 ← (if truthyAt e1 "date" then do
        let s ← asStr (dgetD e1 "date" .jnull)
        pure (dset e1 "date" (.jstr (normalize_work_period s)))
      else pure e1)
    return .jdict e2
  | _ => return e

/-- The EDUCATION branch of `_clean_extracted_data`. -/
def cleanEducationData (d : JDict) : Except String JDict := do
  let v' ← iterInPlace (dgetD d "education" .jnull) cleanEduEntry
  return dset d "education" v'

/-- The body of the skills loop. -/
def cleanSkillCategory (v : JVal) : Except String JVal :=
  match v with
  | .jdict cd =>
    (match dget cd "subCategories" with
     | some (.jlist _) => return v
     | _ => return .jdict (dset cd "subCategories" (.jlist [])))
  | _ => return v

/-- The SKILLS branch of `_clean_extracted_data`. -/
def cleanSkillsData (d : JDict) : Except String JDict := do
  let v' ← iterInPlace (dgetD d "skillCategories" .jnull) cleanSkillCategory
  return dset d "skillCategories" v'

/-- The body of the certifications loop: this loop has no
`isinstance(cert, dict)` guard, so a non-dict entry raises. -/
def cleanCertEntry (v : JVal) : Except String JVal :=
  match v with
  | .jdict cd => do
    let c1 ← (if truthyAt cd "dateObtained" then do
        let s ← asStr (dgetD cd "dateObtained" .jnull)
        pure (dset cd "dateObtained" (.jstr (normalize_work_period s)))
      else pure cd)
    let c2 ← (if truthyAt c1 "expirationDate" then do
        let s ← asStr (dgetD c1 "expirationDate" .jnull)
        pure (dset c1 "expirationDate" (.jstr (normalize_work_period s)))
      else pure c1)
    let c3 ← extract_certification_fields c2
    return .jdict c3
  | _ => .error "AttributeError"

/-- The CERTIFICATIONS branch of `_clean_extracted_data`. -/
def cleanCertsData (d : JDict) : Except String JDict := do
  let v' ← iterInPlace (dgetD d "certifications" .jnull) cleanCertEntry
  return dset d "certifications" v'

/-- `_clean_extracted_data` (resume_agents.py line 848): dispatch on the
agent type, each branch guarded by truthiness of its top-level field. -/
def cleanExtractedData : AgentType → JDict → Except String JDict
  | .summary, d =>
    if truthyAt d "professionalSummary" then cleanSummaryData d else pure d
  | .experience, d =>
    if truthyAt d "employmentHistory" then cleanExperienceData d else pure d
  | .education, d =>
    if truthyAt d "education" then cleanEducationData d else pure d
  | .skills, d =>
    if truthyAt d "skillCategories" then cleanSkillsData d else pure d
  | .certifications, d =>
    if truthyAt d "certifications" then cleanCertsData d else pure d
  | .header, d => pure d

/-! ### The section chunker (chunk_resume.py lines 1-404) -/

/-- Values of the chunker's result dictionary: a string, `None`, the
integrity-check sub-dictionary, or the warning list. -/
inductive IntegRec where
  | unc (raw_chars extracted_chars : Nat) (status : String)
  | sec (raw_slice_chars raw_slice_trimmed_chars extracted_chars
      segment_count : Nat) (status : String)
deriving Repr

def statusOf : IntegRec → String
  | .unc _ _ st => st
  | .sec _ _ _ _ st => st

inductive CVal where
  | text (s : Chs)
  | noneV
  | integ (entries : List (String × IntegRec))
  | warn (msgs : List String)
deriving Repr

/-- Generic ordered-dictionary get. -/
def kvGet {α : Type} (m : List (String × α)) (k : String) : Option α :=
  (m.find? (fun p => p.1 == k)).map (fun p => p.2)

/-- Generic ordered-dictionary set: replace in place or append. -/
def kvSet {α : Type} : List (String × α) → String → α → List (String × α)
  | [], k, v => [(k, v)]
  | (k', v') :: t, k, v =>
    if k' == k then (k, v) :: t else (k', v') :: kvSet t k v

/-- Line-break characters recognised by `str.splitlines`. -/
def isLineBreak (c : Char) : Bool :=
  decide (c.toNat = 10 ∨ c.toNat = 11 ∨ c.toNat = 12 ∨ c.toNat = 13 ∨
    c.toNat = 28 ∨ c.toNat = 29 ∨ c.toNat = 30 ∨ c.toNat = 0x85 ∨
    c.toNat = 0x2028 ∨ c.toNat = 0x2029)

/-- `str.splitlines(keepends=True)`. -/
def splitLinesGo (acc : Chs) : Chs → List Chs
  | [] => if acc.isEmpty then [] else [acc.reverse]
  | '\r' :: '\n' :: r => (acc.reverse ++ ['\r', '\n']) :: splitLinesGo [] r
  | c :: r =>
    if isLineBreak c then (acc.reverse ++ [c]) :: splitLinesGo [] r
    else splitLinesGo (c :: acc) r

def splitLinesKE (s : Chs) : List Chs := splitLinesGo [] s

/-- `line.rstrip("\r\n")`. -/
def rstripCRLF (s : Chs) : Chs :=
  (s.reverse.dropWhile (fun c => c == '\r' || c == '\n')).reverse

/-- `SECTION_HEADER_ALIASES`, restricted to the non-header default
sections, in chunking order. -/
def sectionAliases : List (String × List String) :=
  [("summary",
    ["summary", "professional summary", "profile", "professional profile",
     "career summary", "summary of qualifications", "objective",
     "career objective"]),
   ("experience",
    ["experience", "job experience", "work experience",
     "professional experience", "employment history", "job history",
     "work history"]),
   ("education",
    ["education", "academic background", "educational background",
     "qualifications"]),
   ("skills",
    ["skills", "skill set", "technical skills", "technical skill set",
     "technical proficiency", "technical proficiencies", "key skills",
     "core competencies", "competencies", "skills summary"]),
   ("certifications",
    ["certifications", "certification", "technical certifications",
     "technical certification", "licenses", "certificates",
     "professional certifications"])]

/-- A detected heading: section key, line start/end, content start
(absolute offsets into the raw text). -/
structure HMatch where
  key : String
  ls : Nat
  le : Nat
  cs : Nat
deriving Repr

/--
The `line_prefix` regex
`\s*(?:\*{1,2}\s*)?(?:[-*•‣◦⁃∙·]+\s*)?(?:\d+\s*[.)]\s*)?`, compiled to a
deterministic scanner: every optional group ranges over characters
disjoint from whatever can follow it (aliases start with letters), so the
greedy reading is exact.  Returns the consumed length and the rest. -/
def pfxWs (s : Chs) : Nat × Chs :=
  let w := s.takeWhile pyIsSpace
  (w.length, s.drop w.length)

def pfxStar (r0 : Chs) : Nat × Chs :=
  match r0 with
  | '*' :: '*' :: t =>
    let w := t.takeWhile pyIsSpace
    (2 + w.length, t.drop w.length)
  | '*' :: t =>
    let w := t.takeWhile pyIsSpace
    (1 + w.length, t.drop w.length)
  | _ => (0, r0)

def pfxBullet (r1 : Chs) : Nat × Chs :=
  let b := r1.takeWhile isBulletChar
  if b.isEmpty then (0, r1)
  else
    let t := r1.drop b.length
    let w := t.takeWhile pyIsSpace
    (b.length + w.length, t.drop w.length)

def pfxNum (r2 : Chs) : Nat × Chs :=
  let dg := r2.takeWhile Char.isDigit
  if dg.isEmpty then (0, r2)
  else
    let t := r2.drop dg.length
    let w := t.takeWhile pyIsSpace
    match t.drop w.length with
    | c :: t2 =>
      if c == '.' || c == ')' then
        let w2 := t2.takeWhile pyIsSpace
        (dg.length + w.length + 1 + w2.length, t2.drop w2.length)
      else (0, r2)
    | [] => (0, r2)

def parseLinePrefix (s : Chs) : Nat × Chs :=
  let a := pfxWs s
  let b := pfxStar a.2
  let c := pfxBullet b.2
  let d := pfxNum c.2
  (a.1 + b.1 + c.1 + d.1, d.2)

/-- The standalone-heading tail `\s*(?:[:|\-])?(?:\s*\*{1,2})?\s*$`. -/
def standaloneTail (r : Chs) : Bool :=
  let r1 := r.dropWhile pyIsSpace
  let r2 := match r1 with
    | c :: t => if c == ':' || c == '|' || c == '-' then t else r1
    | [] => []
  let r3 := r2.dropWhile pyIsSpace
  match r3 with
  | [] => true
  | '*' :: '*' :: u => (u.dropWhile pyIsSpace).isEmpty
  | '*' :: t => (t.dropWhile pyIsSpace).isEmpty
  | _ => false

/-- The inline-heading tail `\s*[:|\-]\s*` before `(?P<content>\S...)`:
the extra offset to the content start, when content exists. -/
def inlineTail (r : Chs) : Option Nat :=
  let w := r.takeWhile pyIsSpace
  match r.drop w.length with
  | c :: t =>
    if c == ':' || c == '|' || c == '-' then
      let w2 := t.takeWhile pyIsSpace
      if (t.drop w2.length).isEmpty then none
      else some (w.length + 1 + w2.length)
    else none
  | [] => none

/-- Inline match attempt for one section: the content offset within the
stripped line. -/
def tryInline (aliases : List String) (pc : Nat) (r3 : Chs) : Option Nat :=
  aliases.findSome? (fun al =>
    if ciPre al.data r3 then
      (inlineTail (r3.drop al.length)).map (fun t => pc + al.length + t)
    else none)

/-- Standalone match attempt for one section. -/
def tryStandalone (aliases : List String) (r3 : Chs) : Bool :=
  aliases.any (fun al => ciPre al.data r3 && standaloneTail (r3.drop al.length))

/-- One line of `_detect_headers`: try each section's pattern pair in
order, inline first, and stop at the first hit. -/
def matchLine (lineNN : Chs) (ls le : Nat) : Option HMatch :=
  let pr := parseLinePrefix lineNN
  sectionAliases.findSome? (fun p =>
    match tryInline p.2 pr.1 pr.2 with
    | some off => some ⟨p.1, ls, le, ls + off⟩
    | none =>
      if tryStandalone p.2 pr.2 then some ⟨p.1, ls, le, le⟩ else none)

/-- The line scan of `_detect_headers`. -/
def detectGo (pos : Nat) : List Chs → List HMatch
  | [] => []
  | line :: rest =>
    let le := pos + line.length
    match matchLine (rstripCRLF line) pos le with
    | some m => m :: detectGo le rest
    | none => detectGo le rest

/-- `_detect_headers` (chunk_resume.py line 257). -/
def detectHeaders (raw : Chs) : List HMatch := detectGo 0 (splitLinesKE raw)

/-- Expansions of the month alternation of `WORK_DATE_RANGE_PATTERN`, in
alternation order, greedy suffixes first. -/
def monthAltExps : List String :=
  ["january", "jan", "february", "feb", "march", "mar", "april", "apr",
   "may", "june", "jun", "july", "jul", "august", "aug",
   "september", "sept", "sep", "october", "oct", "november", "nov",
   "december", "dec"]

/-- A month token at the head of `s` (IGNORECASE): its length.  A longer
expansion is always followed by a letter where the shorter one ends, so
the first prefix hit is the only viable one. -/
def monthAt (s : Chs) : Option Nat :=
  monthAltExps.findSome? (fun m =>
    if ciPre m.data s then some m.length else none)

/-- `(19|20)\d{2}` at the head of `s`. -/
def yearAt : Chs → Bool
  | a :: b :: c :: d :: _ =>
    ((a == '1' && b == '9') || (a == '2' && b == '0')) && c.isDigit && d.isDigit
  | _ => false

/-- The closing alternation
`present|current|till\s+date|MONTH\s+(19|20)\d{2}` with the final `\b`. -/
def dateRangeEndAt (r : Chs) : Bool :=
  (["present", "current"].any (fun w =>
    ciPre w.data r && !(((r.drop 7).head?.map isWordChar).getD false))) ||
  (ciPre ("till").data r &&
    (let w := (r.drop 4).takeWhile pyIsSpace
     let r2 := (r.drop 4).drop w.length
     !w.isEmpty && ciPre ("date").data r2 &&
       !(((r2.drop 4).head?.map isWordChar).getD false))) ||
  (match monthAt r with
   | some ml =>
     let w := (r.drop ml).takeWhile pyIsSpace
     let r2 := (r.drop ml).drop w.length
     !w.isEmpty && yearAt r2 &&
       !(((r2.drop 4).head?.map isWordChar).getD false)
   | none => false)

/-- `WORK_DATE_RANGE_PATTERN` matched at one position. -/
def dateRangeHere (prev : Option Char) (s : Chs) : Bool :=
  !isWordOpt prev &&
  (match monthAt s with
   | some ml =>
     let r1 := s.drop ml
     let w1 := r1.takeWhile pyIsSpace
     (!w1.isEmpty && yearAt (r1.drop w1.length) &&
       (let r2 := (r1.drop w1.length).drop 4
        let r3 := r2.dropWhile pyIsSpace
        match r3 with
        | c :: r4 =>
          (c == '-' || decide (c.toNat = 0x2013) || decide (c.toNat = 0x2014)) &&
            dateRangeEndAt (r4.dropWhile pyIsSpace)
        | [] => false))
   | none => false)

/-- `WORK_DATE_RANGE_PATTERN.search(line)`. -/
def hasDateRange (lineNN : Chs) : Bool := searchScan dateRangeHere none lineNN

/-- The candidate-line scan of `_infer_experience_match`. -/
def inferGo (raw : Chs) (lowerB upperB : Nat) (pos : Nat) :
    List Chs → Option HMatch
  | [] => none
  | line :: rest =>
    let le := pos + line.length
    if decide (lowerB ≤ pos) && decide (pos < upperB) &&
        hasDateRange (rstripCRLF line) then
      some ⟨"experience", pos, le, pos⟩
    else inferGo raw lowerB upperB le rest

/-- `_infer_experience_match` (chunk_resume.py line 356). -/
def inferExperience (raw : Chs) (ms0 : List HMatch) : Option HMatch :=
  if ms0.isEmpty then none
  else if !(ms0.any (fun m => m.key == "skills" || m.key == "education"))
  then none
  else
    let lowerB := match ms0.map (fun m => m.le) with
      | [] => 0
      | x :: xs => xs.foldl min x
    let tb := (ms0.filter (fun m =>
      m.key == "education" || m.key == "certifications")).map (fun m => m.ls)
    let upperB := match tb with
      | [] => raw.length
      | x :: xs => xs.foldl min x
    inferGo raw lowerB upperB 0 (splitLinesKE raw)

/-- The tail of `_dedupe_matches`: compare each match against the last
kept one. -/
def dedupeRest (prev : HMatch) : List HMatch → List HMatch
  | [] => []
  | m :: ms =>
    if m.ls < prev.le then dedupeRest prev ms
    else if m.key == prev.key && m.ls - prev.ls < 5 then dedupeRest prev ms
    else m :: dedupeRest m ms

/-- `_dedupe_matches` (chunk_resume.py line 336). -/
def dedupeMatches : List HMatch → List HMatch
  | [] => []
  | m :: ms => m :: dedupeRest m ms

/-- Stable insertion into a list sorted by `line_start`. -/
def insByLs (m : HMatch) : List HMatch → List HMatch
  | [] => [m]
  | x :: xs => if decide (m.ls ≤ x.ls) then m :: x :: xs else x :: insByLs m xs

/-- `sorted(matches, key=lambda m: m["line_start"])` (stable). -/
def sortMatches : List HMatch → List HMatch
  | [] => []
  | x :: xs => insByLs x (sortMatches xs)

/-- `raw_text[a:b]` for `a ≤ b`. -/
def sliceExtract (raw : Chs) (a b : Nat) : Chs := (raw.drop a).take (b - a)

/-- `section_slices.setdefault(sec, []).append(v)`. -/
def setdefaultAppend (m : List (String × List Chs)) (k : String) (v : Chs) :
    List (String × List Chs) :=
  match m with
  | [] => [(k, [v])]
  | (k', vs) :: t =>
    if k' == k then (k', vs ++ [v]) :: t else (k', vs) :: setdefaultAppend t k v

/-- State of the per-slice loop. -/
structure SliceState where
  slices : List (String × List Chs)
  integ : List (String × IntegRec)
  warns : List String

/-- The per-section integrity-counter update. -/
def bumpInteg (r : IntegRec) (rawLen rawTrimLen extLen : Nat) (stOk : Bool) :
    IntegRec :=
  match r with
  | .sec a b c d st =>
    .sec (a + rawLen) (b + rawTrimLen) (c + extLen) (d + 1)
      (if st == "ok" && !stOk then "warn" else st)
  | .unc a b st => .unc a b st

/-- The slice/integrity loop of `chunk_resume_from_bold_headings`
(chunk_resume.py lines 195-227). -/
def sliceLoop (raw : Chs) : List HMatch → SliceState → SliceState
  | [], st => st
  | m :: rest, st =>
    let e := match rest with
      | m2 :: _ => m2.ls
      | [] => raw.length
    let rawSlice := sliceExtract raw m.cs e
    let extracted := pyStrip rawSlice
    let st1 := if !extracted.isEmpty then
        { st with slices := setdefaultAppend st.slices m.key extracted }
      else st
    let rawTrim := pyStrip rawSlice
    let stOk := extracted.length == rawTrim.length
    let existing := (kvGet st1.integ m.key).getD (.sec 0 0 0 0 "ok")
    let st2 := { st1 with
      integ := kvSet st1.integ m.key
        (bumpInteg existing rawSlice.length rawTrim.length extracted.length stOk) }
    let st3 := if !stOk then
        { st2 with warns := st2.warns ++
          [m.key ++ ": extracted_chars(" ++ toString extracted.length ++
            ") != raw_slice_trimmed_chars(" ++ toString rawTrim.length ++
            "). Possible boundary mismatch."] }
      else st2
    sliceLoop raw rest st3

/-- One iteration of the slice loop as a function of the slice end
offset `e` (the next match's line start, or the text length). -/
def sliceStepState (raw : Chs) (m : HMatch) (e : Nat) (st : SliceState) :
    SliceState :=
  let rawSlice := sliceExtract raw m.cs e
  let extracted := pyStrip rawSlice
  let st1 := if !extracted.isEmpty then
      { st with slices := setdefaultAppend st.slices m.key extracted }
    else st
  let rawTrim := pyStrip rawSlice
  let stOk := extracted.length == rawTrim.length
  let existing := (kvGet st1.integ m.key).getD (.sec 0 0 0 0 "ok")
  let st2 := { st1 with
    integ := kvSet st1.integ m.key
      (bumpInteg existing rawSlice.length rawTrim.length extracted.length stOk) }
  if !stOk then
    { st2 with warns := st2.warns ++
      [m.key ++ ": extracted_chars(" ++ toString extracted.length ++
        ") != raw_slice_trimmed_chars(" ++ toString rawTrim.length ++
        "). Possible boundary mismatch."] }
  else st2

/-- The non-header default section keys, in order. -/
def chunkSectionKeys : List String :=
  ["summary", "experience", "education", "skills", "certifications"]

/-- `"\n\n".join(chunks)`. -/
def joinNl2 : List Chs → Chs
  | [] => []
  | [c] => c
  | c :: cs => c ++ '\n' :: '\n' :: joinNl2 cs

def metaKeys : List String := ["integrity_check", "integrity_warning", "Uncategorized"]

def standardOrderKeys : List String :=
  ["header", "summary", "experience", "education", "skills", "certifications"]

/-- `reorder_sections_to_standard` (chunk_resume.py line 86 and its copy
at resume_agents.py line 588): standard keys first, leftover content keys
in original order, metadata keys last.  (Python iterates the metadata
frozenset in unspecified order; the fixed order below is one of them and
no claim depends on it.) -/
def reorderSectionsKV {α : Type} (sections : List (String × α)) :
    List (String × α) :=
  let contentKeys := (sections.map (fun p => p.1)).filter
    (fun k => !metaKeys.contains k)
  let part1 := standardOrderKeys.filterMap (fun k =>
    (kvGet sections k).map (fun v => (k, v)))
  let part2 := contentKeys.filterMap (fun k =>
    if standardOrderKeys.contains k then none
    else (kvGet sections k).map (fun v => (k, v)))
  let part3 := metaKeys.filterMap (fun k =>
    (kvGet sections k).map (fun v => (k, v)))
  part1 ++ part2 ++ part3

/-- The output value of one section: `None` when no slices were stored,
otherwise the slices joined with blank lines. -/
def secVal (slices : List (String × List Chs)) (sec : String) : CVal :=
  match (kvGet slices sec).getD [] with
  | [] => CVal.noneV
  | chunks => CVal.text (joinNl2 chunks)

/-- The integrity warning text of the no-match branch. -/
def uncWarnText : String :=
  "Uncategorized extraction differs from trimmed raw text length (expected due to trimming)."

/-- `chunk_resume_from_bold_headings` (chunk_resume.py line 127), with the
default `expected_sections`. -/
def chunkResumeL (raw : Chs) : List (String × CVal) :=
  let matches0 := detectHeaders raw
  if matches0.isEmpty then
    let unc := pyStrip raw
    let status := if unc.length == (pyStrip raw).length then "ok" else "warn"
    let base :=
      [("Uncategorized", if unc.isEmpty then CVal.noneV else CVal.text unc),
       ("integrity_check",
        CVal.integ [("Uncategorized", .unc raw.length unc.length status)])]
    if status != "ok" then base ++ [("integrity_warning", CVal.warn [uncWarnText])]
    else base
  else
    let deduped1 := dedupeMatches (sortMatches matches0)
    let ms :=
      if !(deduped1.any (fun m => m.key == "experience")) then
        match inferExperience raw deduped1 with
        | some inf => dedupeMatches (sortMatches (deduped1 ++ [inf]))
        | none => deduped1
      else deduped1
    match ms with
    | [] => []
    | first :: _ =>
      let headerText := pyStrip (raw.take first.ls)
      let outputHeader :=
        if headerText.isEmpty then CVal.noneV else CVal.text headerText
      let finalSt := sliceLoop raw ms ⟨[], [], []⟩
      let sectionVals := chunkSectionKeys.map (fun sec =>
        (sec, secVal finalSt.slices sec))
      let res0 := ("header", outputHeader) :: sectionVals
      let res1 := res0 ++ [("integrity_check", CVal.integ finalSt.integ)]
      let res2 :=
        if !finalSt.warns.isEmpty then
          res1 ++ [("integrity_warning", CVal.warn finalSt.warns)]
        else res1
      reorderSectionsKV res2

/-- `chunk_resume_from_bold_headings` on `String`. -/
def chunk_resume_from_bold_headings (s : String) : List (String × CVal) :=
  chunkResumeL s.data

/-! ### The orchestrator (resume_agents.py lines 1032-1252)

`AgentResult` carries one agent's outcome.  The external language-model
call is abstracted away: `process_resume_with_agents` is parametrised by
the chunking outcome (an `Except`, so the exceptional path is
expressible) and by the list the `asyncio.gather(...,
return_exceptions=True)` call produces — one item per agent, either an
exception value or an `AgentResult` whose `data` is that agent's cleaned
extraction. -/

structure AgentResult where
  agentType : AgentType
  data : JDict
  success : Bool
  errorMessage : Option String := none

inductive GatherItem where
  | exc (msg : String)
  | res (r : AgentResult)

inductive PipelineEvent where
  | finalData (d : JDict)
  | errorEvent (msg : String)
deriving Repr

/-- The `_norm` helper of `_combine_agent_results`:
`re.sub(r'\s+', ' ', (v or '').strip()).lower()`. -/
def normTitle (v : String) : String :=
  String.mk (lowerS (rewriteScanNB mWsRun (pyStrip v.data)))

/-- The empty canonical record the merge starts from, keys in source
order. -/
def initialCombined : JDict :=
  [("name", .jstr ""), ("title", .jstr ""), ("requisitionNumber", .jstr ""),
   ("professionalSummary", .jlist []), ("summarySections", .jlist []),
   ("subsections", .jlist []), ("employmentHistory", .jlist []),
   ("education", .jlist []), ("certifications", .jlist []),
   ("technicalSkills", .jdict []), ("skillCategories", .jlist [])]

/-- One iteration of the merge loop: the accumulator carries the record
being built plus the header/summary title candidates. -/
def combineStep (acc : JDict × String × String) (r : AgentResult) :
    Except String (JDict × String × String) :=
  let c := acc.1
  let ht := acc.2.1
  let st := acc.2.2
  let d := r.data
  match r.agentType with
  | .header => do
    let ht' ← orEmptyStrip (dgetD d "title" .jnull)
    let rawName ← orEmptyStrip (dgetD d "name" .jnull)
    let cleaned := normalize_person_name rawName
    let c1 := dset c "name"
      (.jstr (if !cleaned.isEmpty then cleaned else rawName))
    let c2 := dset c1 "requisitionNumber" (dgetD d "requisitionNumber" (.jstr ""))
    return (c2, ht', st)
  | .summary => do
    let st' ← orEmptyStrip (dgetD d "title" .jnull)
    let c1 := dset c "professionalSummary" (dgetD d "professionalSummary" (.jlist []))
    let c2 := dset c1 "summarySections" (dgetD d "summarySections" (.jlist []))
    let c3 := dset c2 "subsections" (dgetD c2 "summarySections" (.jlist []))
    return (c3, ht, st')
  | .experience =>
    return (dset c "employmentHistory" (dgetD d "employmentHistory" (.jlist [])), ht, st)
  | .education =>
    return (dset c "education" (dgetD d "education" (.jlist [])), ht, st)
  | .skills =>
    let c1 := dset c "technicalSkills" (dgetD d "technicalSkills" (.jdict []))
    return (dset c1 "skillCategories" (dgetD d "skillCategories" (.jlist [])), ht, st)
  | .certifications =>
    return (dset c "certifications" (dgetD d "certifications" (.jlist [])), ht, st)

/-- `_combine_agent_results` (resume_agents.py line 1179). -/
def combineAgentResults (results : List AgentResult) : Except String JDict := do
  let acc ← foldME combineStep (initialCombined, "", "") results
  let c := acc.1
  let ht := acc.2.1
  let st := acc.2.2
  let nh := normTitle ht
  let ns := normTitle st
  let title :=
    if !nh.isEmpty && !ns.isEmpty then (if nh == ns then ht else "")
    else if !ht.isEmpty then ht
    else if !st.isEmpty then st
    else ""
  return dset c "title" (.jstr title)

/-- The six agents, in the order `process_resume_with_agents` creates
them. -/
def agentOrder : List AgentType :=
  [.header, .summary, .experience, .education, .skills, .certifications]

/-- The result-collection loop (resume_agents.py lines 1085-1098):
exceptions and unsuccessful results are logged and dropped, successful
results are kept in arrival order. -/
def successfulResults (items : List GatherItem) : List AgentResult :=
  items.filterMap (fun it =>
    match it with
    | .exc _ => none
    | .res r => if r.success then some r else none)

/-- `k in sections` on a key-value list. -/
def hasKeyKV {α : Type} (m : List (String × α)) (k : String) : Bool :=
  (m.find? (fun p => p.1 == k)).isSome

/--
`process_resume_with_agents` (resume_agents.py line 1040), collapsed to
its single terminal event.  `chunkOutcome` is the outcome of the
`chunk_resume_from_bold_headings` call: `.error` models that call
raising, in which case control jumps to the outer `except` handler at
line 1111 and the run terminates with an error event.  When chunking
returns, a dict carrying an `"error"` key is replaced by the empty
section map (lines 1054-1059), the sections are reordered, and the
gathered `items` are filtered and merged; an exception escaping the merge
is caught by the same outer handler.
-/
def processResumeWithAgents (chunkOutcome : Except String (List (String × CVal)))
    (items : List GatherItem) : PipelineEvent :=
  match chunkOutcome with
  | .error e => .errorEvent ("Resume processing failed: " ++ e)
  | .ok sections0 =>
    let sections1 := if hasKeyKV sections0 "error" then [] else sections0
    let _sections2 :=
      if !sections1.isEmpty then reorderSectionsKV sections1 else sections1
    match combineAgentResults (successfulResults items) with
    | .ok combined => .finalData combined
    | .error e => .errorEvent ("Resume processing failed: " ++ e)

/-! ### Inputs referenced by the claim theorems -/

/-- The date strings sampled by the idempotence property of the spec
(§8) together with further date shapes the code documents. -/
def sampledDateStrings : List String :=
  ["January 2024 - Present", "Jan 2020 - Dec 2021", "2006", "2024-2025",
   "2024/2025", "June 2019 to Current", "May 2018 - Till Date",
   "Aug 2019 — Sep 2021"]

/-- The degree field of an education entry (`None` for non-dicts). -/
def degreeOf : JVal → Option JVal
  | .jdict ed => dget ed "degree"
  | _ => none

/-- The ordered list of degree fields of the `education` list (empty
when the `education` value is absent or not a list). -/
def eduDegrees (d : JDict) : List (Option JVal) :=
  match dget d "education" with
  | some (.jlist xs) => xs.map degreeOf
  | _ => []

/-- An education payload whose degrees are non-standard (`MTech`,
`BTech`) and listed in descending rank order. -/
def eduSampleData : JDict :=
  [("education", .jlist
    [.jdict [("degree", .jstr "MTech")],
     .jdict [("degree", .jstr "BTech")]])]

/-- The job list of the `employmentHistory` field (empty when absent or
not a list). -/
def ehJobs (d : JDict) : List JVal :=
  match dget d "employmentHistory" with
  | some (.jlist xs) => xs
  | _ => []

/-- An experience payload with one job that has a non-empty projects
list but carries no `responsibilities` and no `keyTechnologies` key. -/
def expNoKTData : JDict :=
  [("employmentHistory", .jlist [.jdict [("projects", .jlist [.jdict []])]])]

/-- A job with a non-empty projects list and truthy job-level
`responsibilities` and `keyTechnologies`. -/
def c4WitnessData : JDict :=
  [("employmentHistory", .jlist [.jdict
    [("projects", .jlist [.jdict []]),
     ("responsibilities", .jlist [.jstr "x"]),
     ("keyTechnologies", .jstr "Python")]])]

def c4WitnessJob : JDict :=
  [("projects", .jlist [.jdict []]),
   ("responsibilities", .jlist []),
   ("keyTechnologies", .jstr "")]

def c4WitnessOut : JDict :=
  [("employmentHistory", .jlist [.jdict c4WitnessJob])]

/-- A gather outcome where the header agent reports title `Engineer`
and the summary agent reports title `Manager`. -/
def c7Results : List AgentResult :=
  [⟨.header, [("title", .jstr "Engineer"), ("name", .jstr "")], true, none⟩,
   ⟨.summary, [("title", .jstr "Manager")], true, none⟩]

/-- Cleaned data used by the C1 witness: every agent reports a title
and nothing else. -/
def c1DS : AgentType → JDict := fun _ => [("title", .jstr "Engineer")]

/-- A gather outcome where the certifications agent raised and the other
five succeeded. -/
def c1Items : List GatherItem :=
  agentOrder.map (fun a =>
    if a = AgentType.certifications then .exc "boom"
    else .res ⟨a, c1DS a, true, none⟩)

/-- Character count of one output value (only text values count). -/
def cvalLen : CVal → Nat
  | .text s => s.length
  | _ => 0

/-- Total character count of the chunker output's text values: the
header plus every non-None section value, joiners included. -/
def chunkTotalLen (out : List (String × CVal)) : Nat :=
  (out.map (fun p => cvalLen p.2)).sum

/-- Total character count of a line list. -/
def linesLen (ls : List Chs) : Nat := (ls.map List.length).sum

/-- Total joined length of a slices map. -/
def slicesMeasure (m : List (String × List Chs)) : Nat :=
  (m.map (fun p => (joinNl2 p.2).length)).sum

/-- Non-overlap chain of the deduped match list: each match ends at or
before the next one starts, and the last ends within the text. -/
def chainLE (N : Nat) : List HMatch → Prop
  | [] => True
  | [m] => m.le ≤ N
  | m :: m2 :: rest => m.le ≤ m2.ls ∧ chainLE N (m2 :: rest)

/-- Number of experience matches. -/
def countExp (ms : List HMatch) : Nat :=
  ms.countP (fun m => m.key == "experience")

/-! # Theorems

Everything from here on is a statement about the definitions above. -/

/-! ## Shared list and strip lemmas -/

theorem stripLeft_sublist (s : Chs) : List.Sublist (stripLeft s) s :=
  List.dropWhile_sublist _

theorem stripRight_sublist (s : Chs) : List.Sublist (stripRight s) s := by
  have h := List.dropWhile_sublist (l := s.reverse) pyIsSpace
  have h2 := h.reverse
  simpa [stripRight] using h2

theorem pyStrip_sublist (s : Chs) : List.Sublist (pyStrip s) s :=
  (stripRight_sublist _).trans (stripLeft_sublist s)

theorem pyStrip_length_le (s : Chs) : (pyStrip s).length ≤ s.length :=
  (pyStrip_sublist s).length_le

theorem pyStrip_subset (s : Chs) : pyStrip s ⊆ s :=
  (pyStrip_sublist s).subset

theorem except_bind_ok {A B : Type} (m : Except String A)
    (f : A → Except String B) (b : B) (h : (m >>= f) = .ok b) :
    ∃ a, m = .ok a ∧ f a = .ok b := by
  cases m with
  | error e => exact absurd h (by simp [Bind.bind, Except.bind])
  | ok a => exact ⟨a, rfl, by simpa [Bind.bind, Except.bind] using h⟩

theorem dget_dset_self (d : JDict) (k : String) (v : JVal) :
    dget (dset d k v) k = some v := by
  induction d with
  | nil => simp [dget, dset, List.find?]
  | cons p t ih =>
    obtain ⟨k1, v1⟩ := p
    cases hk : k1 == k with
    | true => simp [dset, hk, dget, List.find?]
    | false =>
      simp only [dset, hk, Bool.false_eq_true, if_false]
      simp only [dget, List.find?, hk]
      exact ih

theorem dget_dset_ne (d : JDict) (k k2 : String) (v : JVal)
    (h : (k2 == k) = false) : dget (dset d k v) k2 = dget d k2 := by
  have h2 : (k == k2) = false :=
    beq_eq_false_iff_ne.mpr (Ne.symm (beq_eq_false_iff_ne.mp h))
  induction d with
  | nil => simp [dget, dset, List.find?, h2]
  | cons p t ih =>
    obtain ⟨k1, v1⟩ := p
    cases hk : k1 == k with
    | true =>
      have hk1 : k1 = k := eq_of_beq hk
      simp only [dset, hk, if_true]
      simp only [dget, List.find?, h2, hk1]
    | false =>
      simp only [dset, hk, Bool.false_eq_true, if_false]
      cases hk2 : k1 == k2 with
      | true => simp only [dget, List.find?, hk2]
      | false =>
        simp only [dget, List.find?, hk2]
        exact ih

theorem mapME_ok_map_eq {A : Type} (f : A → Except String A)
    (g : A → Option JVal) (hf : ∀ x y, f x = .ok y → g y = g x) :
    ∀ xs ys, mapME f xs = .ok ys → ys.map g = xs.map g := by
  intro xs
  induction xs with
  | nil =>
    intro ys h
    simp only [mapME] at h
    cases h
    rfl
  | cons x xs ih =>
    intro ys h
    simp only [mapME] at h
    obtain ⟨y, hy, h2⟩ := except_bind_ok _ _ _ h
    obtain ⟨ys2, hys2, h3⟩ := except_bind_ok _ _ _ h2
    cases h3
    simp only [List.map]
    rw [hf x y hy, ih ys2 hys2]

theorem step_preserves_other_key (g : String → String) (key other : String)
    (hk : (other == key) = false) (ed e1 : JDict)
    (h : (if truthyAt ed key then do
        let s ← asStr (dgetD ed key .jnull)
        pure (dset ed key (.jstr (g s)))
      else pure ed) = .ok e1) :
    dget e1 other = dget ed other := by
  split at h
  · obtain ⟨s, hs, hp⟩ := except_bind_ok _ _ _ h
    cases hp
    exact dget_dset_ne ed key other _ hk
  · cases h
    rfl

theorem cleanEduEntry_degree (e e2 : JVal) (h : cleanEduEntry e = .ok e2) :
    degreeOf e2 = degreeOf e := by
  cases e with
  | jdict ed =>
    simp only [cleanEduEntry] at h
    obtain ⟨d1, h1, hb⟩ := except_bind_ok _ _ _ h
    obtain ⟨d2, h2, hp⟩ := except_bind_ok _ _ _ hb
    cases hp
    have hloc := step_preserves_other_key normalize_location "location" "degree"
      (by decide) ed d1 h1
    have hdate := step_preserves_other_key normalize_work_period "date" "degree"
      (by decide) d1 d2 h2
    show dget d2 "degree" = dget ed "degree"
    rw [hdate, hloc]
  | jnull => cases h; rfl
  | jbool b => cases h; rfl
  | jnum n => cases h; rfl
  | jstr s => cases h; rfl
  | jlist xs => cases h; rfl

/-! ## C10: termination of the ` strip_bullet_prefix` rewrite loop -/

theorem bulletStep_eq_or_lt (s : Chs) :
    bulletStep s = s ∨ (bulletStep s).length < s.length := by
  unfold bulletStep
  by_cases hbe : ((s.drop (s.takeWhile pyIsSpace).length).takeWhile isBulletChar).isEmpty
  · left
    simp [hbe]
  · have hr1ne : s.drop (s.takeWhile pyIsSpace).length ≠ [] := by
      intro h
      rw [h] at hbe
      simp at hbe
    have hslen : 1 ≤ s.length := by
      rcases s with _ | ⟨c, t⟩
      · simp at hr1ne
      · simp
    have hr1le : (s.drop (s.takeWhile pyIsSpace).length).length ≤ s.length := by
      simp
    have hblen : 1 ≤ ((s.drop (s.takeWhile pyIsSpace).length).takeWhile isBulletChar).length := by
      rcases h : (s.drop (s.takeWhile pyIsSpace).length).takeWhile isBulletChar with _ | ⟨c, t⟩
      · rw [h] at hbe
        simp at hbe
      · simp
    have hr1ge : 1 ≤ (s.drop (s.takeWhile pyIsSpace).length).length := by
      rcases h : s.drop (s.takeWhile pyIsSpace).length with _ | ⟨c, t⟩
      · exact absurd h hr1ne
      · simp
    have hr2 : ((s.drop (s.takeWhile pyIsSpace).length).drop
        ((s.drop (s.takeWhile pyIsSpace).length).takeWhile isBulletChar).length).length < s.length := by
      have hb_le := (List.takeWhile_sublist (l := s.drop (s.takeWhile pyIsSpace).length)
        isBulletChar).length_le
      simp only [List.length_drop]
      omega
    simp only [hbe, Bool.false_eq_true, if_false]
    rcases h2 : (s.drop (s.takeWhile pyIsSpace).length).drop
        ((s.drop (s.takeWhile pyIsSpace).length).takeWhile isBulletChar).length with _ | ⟨c, t⟩
    · left; rfl
    · by_cases hsp : pyIsSpace c
      · right
        simp only [hsp, if_true]
        calc ((c :: t).dropWhile pyIsSpace).length ≤ (c :: t).length :=
              (List.dropWhile_sublist _).length_le
          _ < s.length := by rw [← h2]; exact hr2
      · by_cases hal : c.isAlphanum
        · right
          simp only [hsp, if_false, hal, if_true, Bool.false_eq_true]
          rw [← h2]
          exact hr2
        · left
          simp [hsp, hal]

theorem bulletIter_reaches_fixpoint :
    ∀ (n : Nat) (s : Chs), s.length ≤ n →
      bulletStep (bulletIter n s) = bulletIter n s := by
  intro n
  induction n with
  | zero =>
    intro s h
    have : s = [] := List.length_eq_zero.mp (Nat.le_zero.mp h)
    subst this
    rfl
  | succ n ih =>
    intro s h
    by_cases hfix : bulletStep s = s
    · simp [bulletIter, hfix]
    · have hlt := (bulletStep_eq_or_lt s).resolve_left hfix
      simp only [bulletIter, hfix, if_false]
      exact ih (bulletStep s) (by omega)

/-- C10: ` strip_bullet_prefix` terminates on every input string — each
iteration of the rewrite loop either leaves the string unchanged (and the
loop exits) or removes a non-empty bullet prefix, strictly decreasing the
length, so the fixed point the Python `while True` loop stops at is
reached within `s.length` iterations. -/
theorem strip_bullet_prefix_terminates (s : Chs) :
    (bulletStep s = s ∨ (bulletStep s).length < s.length) ∧
      bulletStep (bulletIter s.length s) = bulletIter s.length s :=
  ⟨bulletStep_eq_or_lt s, bulletIter_reaches_fixpoint s.length s (le_refl _)⟩

/-! ## C5: idempotence of `normalize_work_period` -/

/-- C5 counterexample: `normalize_work_period` is not idempotent for
every input string.  On `"1/2/3"` the slash rule `(\d)\s*/\s*(\d)`
rewrites only the first, non-overlapping slash pair per pass
(`"1/2/3" → "1 - 2/3" → "1 - 2 - 3"`), so a second application changes
the result again. -/
theorem normalize_work_period_not_idempotent :
    normalize_work_period (normalize_work_period "1/2/3") ≠
      normalize_work_period "1/2/3" := by decide

/-- C5 amended: `normalize_work_period` is idempotent on sampled date
strings (the spec's §8 phrasing): one application of the normaliser is a
fixed point on each sampled date shape, though not on arbitrary strings
(see the counterexample). -/
theorem normalize_work_period_idempotent_on_samples :
    ∀ s ∈ sampledDateStrings,
      normalize_work_period (normalize_work_period s) = normalize_work_period s := by
  decide

/-! ## C6: the India rule of `normalize_location` -/

theorem stripCharsOf_sublist (cs : List Char) (s : Chs) :
    List.Sublist (stripCharsOf cs s) s := by
  unfold stripCharsOf
  have h1 : List.Sublist (s.dropWhile (fun c => cs.contains c)) s :=
    List.dropWhile_sublist _
  have h2 := (List.dropWhile_sublist
    (l := (s.dropWhile (fun c => cs.contains c)).reverse)
    (fun c => cs.contains c)).reverse
  simp only [List.reverse_reverse] at h2
  exact h2.trans h1

theorem rewriteScanF_subset_of_empty_repl
    (m : Option Char → Chs → Option (Chs × Nat))
    (hm : ∀ prev t r k, m prev t = some (r, k) → r = []) :
    ∀ (fuel : Nat) (prev : Option Char) (s : Chs),
      rewriteScanF m fuel prev s ⊆ s := by
  intro fuel
  induction fuel with
  | zero =>
    intro prev s
    cases s <;> simp [rewriteScanF]
  | succ n ih =>
    intro prev s
    cases s with
    | nil => simp [rewriteScanF]
    | cons c rest =>
      simp only [rewriteScanF]
      cases hmatch : m prev (c :: rest) with
      | none =>
        intro x hx
        rcases List.mem_cons.mp hx with h | h
        · exact h ▸ List.mem_cons_self _ _
        · exact List.mem_cons_of_mem _ (ih (some c) rest h)
      | some p =>
        rcases p with ⟨repl, k⟩
        have hrepl := hm prev (c :: rest) repl k hmatch
        subst hrepl
        intro x hx
        simp only [List.nil_append] at hx
        have hx2 := ih ((c :: rest).get? k) (rest.drop k) hx
        exact List.mem_cons_of_mem _ (List.drop_subset _ _ hx2)

theorem findCommaWordTail_subset :
    ∀ (s pre : Chs), findCommaWordTail s = some pre → pre ⊆ s := by
  intro s
  induction s with
  | nil => intro pre h; exact Option.noConfusion h
  | cons c rest ih =>
    intro pre h
    simp only [findCommaWordTail] at h
    split at h
    · cases h; simp
    · cases hfind : findCommaWordTail rest with
      | none => rw [hfind] at h; simp at h
      | some p =>
        rw [hfind] at h
        cases h
        intro x hx
        rcases List.mem_cons.mp hx with h1 | h1
        · exact h1 ▸ List.mem_cons_self _ _
        · exact List.mem_cons_of_mem _ (ih p hfind h1)

theorem string_mk_append (a : Chs) (t : String) :
    String.mk (a ++ t.data) = String.mk a ++ t := by
  cases t
  rfl

theorem string_data_mk (l : Chs) : (String.mk l).data = l := rfl

theorem subCommaWordTail_subset (s : Chs) : subCommaWordTail s ⊆ s := by
  unfold subCommaWordTail
  cases hfind : findCommaWordTail s with
  | none => exact fun x hx => hx
  | some pre => exact findCommaWordTail_subset s pre hfind

theorem mAZ2_empty_repl :
    ∀ prev t r k, mAZ2 prev t = some (r, k) → r = [] := by
  intro prev t r k h
  unfold mAZ2 at h
  split at h
  · simp at h
  · split at h
    · split at h
      · cases h; rfl
      · simp at h
    · simp at h

/-- Every character of the extracted city comes from the pre-comma
segment of the collapsed input. -/
theorem indiaCity_subset (n : Chs) :
    indiaCity n ⊆ n.takeWhile (fun c => c != ',') := by
  intro x hx
  have h1 := pyStrip_subset _ hx
  have h2 := subCommaWordTail_subset _ h1
  have h3 := (stripCharsOf_sublist [' ', ','] _).subset h2
  have h4 := rewriteScanF_subset_of_empty_repl mAZ2 mAZ2_empty_repl _ none _ h3
  exact pyStrip_subset _ h4

/-- Case analysis of the India branch, at the character-list level. -/
theorem indiaBranch_cases (n : Chs) :
    indiaBranch n = ("India").data ∨
      (indiaBranch n = indiaCity n ++ (", India").data ∧ indiaCity n ≠ [] ∧
        (∀ ch ∈ indiaCity n, ch ≠ ',') ∧ lowerS (indiaCity n) ≠ ("india").data) := by
  unfold indiaBranch
  by_cases hpre : ((n.takeWhile (fun c => c != ',')).isEmpty : Prop)
  · left
    rw [if_pos hpre]
  · rw [if_neg hpre]
    by_cases hcond : ((!(indiaCity n).isEmpty &&
        lowerS (indiaCity n) != ("india").data) = true)
    · right
      rw [if_pos hcond]
      have h1 := (Bool.and_eq_true _ _).mp hcond
      refine ⟨rfl, ?_, ?_, ?_⟩
      · intro h
        rw [h] at h1
        simp at h1
      · intro ch hch
        have hmem := indiaCity_subset n hch
        have := List.mem_takeWhile_imp hmem
        simpa using this
      · intro h
        have := h1.2
        rw [h] at this
        simp at this
    · left
      rw [if_neg hcond]

/-- C6: for every non-empty input mentioning the word India
(case-insensitively, as the code's `\bIndia\b` test on the
whitespace-collapsed string), `normalize_location` returns either exactly
`"India"` or `"City, India"` where the city part is non-empty, contains
no comma, and is not itself `"India"` — so there is at most one
comma-separated segment before `"India"` and never an `"India, India"`
duplication. -/
theorem normalize_location_india (s : String) (hne : s ≠ "")
    (hindia : hasWordIndia (pyCollapse s.data) = true) :
    normalize_location s = "India" ∨
      ∃ c : String, normalize_location s = c ++ ", India" ∧ c ≠ "" ∧
        (∀ ch ∈ c.data, ch ≠ ',') ∧ c ≠ "India" := by
  have hdata : s.data.isEmpty = false := by
    rcases s with ⟨l⟩
    cases l with
    | nil => exact absurd rfl hne
    | cons c t => rfl
  have hloc : normalizeLocationL s.data = indiaBranch (pyCollapse s.data) := by
    unfold normalizeLocationL
    rw [hdata]
    simp only [Bool.false_eq_true, if_false, hindia, if_true]
  rcases indiaBranch_cases (pyCollapse s.data) with h | ⟨heq, hne2, hcomma, hlower⟩
  · left
    show String.mk (normalizeLocationL s.data) = "India"
    rw [hloc, h]
  · right
    refine ⟨String.mk (indiaCity (pyCollapse s.data)), ?_, ?_, ?_, ?_⟩
    · show String.mk (normalizeLocationL s.data) = _
      rw [hloc, heq]
      exact string_mk_append _ ", India"
    · intro h
      have hd := congrArg String.data h
      rw [string_data_mk] at hd
      exact hne2 hd
    · simp only [string_data_mk]
      exact hcomma
    · intro h
      have hd := congrArg String.data h
      rw [string_data_mk] at hd
      rw [hd] at hlower
      exact hlower (by decide)

theorem normalize_location_india_witness :
    ("Hyderabad, Telangana, India" ≠ ("" : String)) ∧
      hasWordIndia (pyCollapse ("Hyderabad, Telangana, India").data) = true ∧
      (normalize_location "Hyderabad, Telangana, India" = "India" ∨
        ∃ c : String, normalize_location "Hyderabad, Telangana, India" =
            c ++ ", India" ∧ c ≠ "" ∧ (∀ ch ∈ c.data, ch ≠ ',') ∧ c ≠ "India") :=
  ⟨by decide, by decide,
   normalize_location_india "Hyderabad, Telangana, India" (by decide) (by decide)⟩

theorem normalize_work_period_idempotent_on_samples_witness :
    ("January 2024 - Present" ∈ sampledDateStrings) ∧
      normalize_work_period (normalize_work_period "January 2024 - Present") =
        normalize_work_period "January 2024 - Present" :=
  ⟨by decide,
   normalize_work_period_idempotent_on_samples "January 2024 - Present" (by decide)⟩

/-! ## C2: degree standardization is not performed by the deterministic
cleaning step -/

/-- Counterexample to C2 as stated: running the deterministic
normalization step (`_clean_extracted_data` for the education agent) on
an education list whose degrees are `MTech` then `BTech` leaves both
degrees unchanged — neither is mapped to `MS`/`BS` — and leaves the
descending-rank order in place.  The standardization and sorting the
spec describes exist only as natural-language instructions in the
education agent's schema prompt (agent_schemas.py lines 329-342), so
they are performed by the model, not by this deterministic step. -/
theorem education_degrees_not_standardized :
    (cleanExtractedData .education eduSampleData).map eduDegrees =
      .ok [some (.jstr "MTech"), some (.jstr "BTech")] ∧
    JVal.jstr "MTech" ≠ JVal.jstr "MS" ∧ JVal.jstr "BTech" ≠ JVal.jstr "BS" :=
  ⟨rfl, by simp, by simp⟩

/-- C2 (amended): the deterministic cleaning step preserves every
education entry's degree field verbatim and preserves the order of the
education list; it performs no degree standardization and no sorting.
-/
theorem cleanExtractedData_preserves_education_degrees
    (d d2 : JDict) (h : cleanExtractedData .education d = .ok d2) :
    eduDegrees d2 = eduDegrees d := by
  simp only [cleanExtractedData] at h
  split at h
  · simp only [cleanEducationData] at h
    obtain ⟨v2, hv2, hp⟩ := except_bind_ok _ _ _ h
    cases hp
    cases hget : dget d "education" with
    | none =>
      have hD : dgetD d "education" .jnull = .jnull := by
        simp [dgetD, hget]
      rw [hD] at hv2
      exact absurd hv2 (by simp [iterInPlace])
    | some v0 =>
      have hD : dgetD d "education" .jnull = v0 := by
        simp [dgetD, hget]
      rw [hD] at hv2
      cases v0 with
      | jnull => exact absurd hv2 (by simp [iterInPlace])
      | jbool b => exact absurd hv2 (by simp [iterInPlace])
      | jnum n => exact absurd hv2 (by simp [iterInPlace])
      | jstr s =>
        simp only [iterInPlace] at hv2
        obtain ⟨u, hu, hp2⟩ := except_bind_ok _ _ _ hv2
        cases hp2
        simp only [eduDegrees, dget_dset_self, hget]
      | jdict dd =>
        simp only [iterInPlace] at hv2
        obtain ⟨u, hu, hp2⟩ := except_bind_ok _ _ _ hv2
        cases hp2
        simp only [eduDegrees, dget_dset_self, hget]
      | jlist xs =>
        simp only [iterInPlace] at hv2
        obtain ⟨ys, hys, hp2⟩ := except_bind_ok _ _ _ hv2
        cases hp2
        simp only [eduDegrees, dget_dset_self, hget]
        exact mapME_ok_map_eq cleanEduEntry degreeOf cleanEduEntry_degree xs ys hys
  · cases h
    rfl

theorem cleanExtractedData_preserves_education_degrees_witness :
    cleanExtractedData .education eduSampleData = .ok eduSampleData ∧
    eduDegrees eduSampleData = eduDegrees eduSampleData :=
  ⟨rfl, cleanExtractedData_preserves_education_degrees eduSampleData
    eduSampleData rfl⟩

/-! ## C4: mutual exclusion of projects vs job-level
responsibilities/keyTechnologies -/

theorem except_pure_inj {A : Type} {a b : A}
    (h : (pure a : Except String A) = .ok b) : a = b := by
  cases h
  rfl

theorem mapME_ok_mem {A B : Type} (f : A → Except String B) :
    ∀ xs ys, mapME f xs = .ok ys → ∀ y ∈ ys, ∃ x ∈ xs, f x = .ok y := by
  intro xs
  induction xs with
  | nil =>
    intro ys h y hy
    simp only [mapME] at h
    cases h
    exact absurd hy (List.not_mem_nil y)
  | cons x xs ih =>
    intro ys h y hy
    simp only [mapME] at h
    obtain ⟨y1, hy1, h2⟩ := except_bind_ok _ _ _ h
    obtain ⟨ys2, hys2, h3⟩ := except_bind_ok _ _ _ h2
    cases h3
    rcases List.mem_cons.mp hy with rfl | hmem
    · exact ⟨x, List.mem_cons_self _ _, hy1⟩
    · obtain ⟨x2, hx2, hfx2⟩ := ih ys2 hys2 y hmem
      exact ⟨x2, List.mem_cons_of_mem _ hx2, hfx2⟩

theorem clearStep_self (job : JDict) (k : String) (v : JVal)
    (hv : truthy v = false) :
    truthyAt (if truthyAt job k then dset job k v else job) k = false := by
  cases h : truthyAt job k with
  | true =>
    rw [if_pos rfl, truthyAt, dget_dset_self]
    simpa using hv
  | false =>
    rw [if_neg (by simp)]
    exact h

theorem clearStep_other (job : JDict) (k k2 : String) (v : JVal)
    (hk : (k2 == k) = false) :
    truthyAt (if truthyAt job k then dset job k v else job) k2 =
      truthyAt job k2 := by
  cases h : truthyAt job k with
  | true =>
    rw [if_pos rfl, truthyAt, truthyAt, dget_dset_ne job k k2 v hk]
  | false =>
    rw [if_neg (by simp)]

theorem enforce_tech_invariant (job : JDict)
    (h1 : truthyAt job "projects" = true) :
    truthyAt (enforce_tech_responsibility_rules job) "responsibilities" = false ∧
    truthyAt (enforce_tech_responsibility_rules job) "keyTechnologies" = false := by
  constructor
  · simp only [enforce_tech_responsibility_rules]
    rw [if_pos h1]
    exact clearStep_self _ "responsibilities" (.jlist []) rfl
  · simp only [enforce_tech_responsibility_rules]
    rw [if_pos h1]
    rw [clearStep_other _ "responsibilities" "keyTechnologies" (.jlist [])
      (by decide)]
    exact clearStep_self job "keyTechnologies" (.jstr "") rfl

theorem enforce_tech_projects (job : JDict) :
    truthyAt (enforce_tech_responsibility_rules job) "projects" =
      truthyAt job "projects" := by
  cases h1 : truthyAt job "projects" with
  | false =>
    simp only [enforce_tech_responsibility_rules]
    rw [if_neg (by simp [h1])]
    exact h1
  | true =>
    simp only [enforce_tech_responsibility_rules]
    rw [if_pos h1]
    rw [clearStep_other _ "responsibilities" "projects" (.jlist []) (by decide)]
    rw [clearStep_other _ "keyTechnologies" "projects" (.jstr "") (by decide)]
    exact h1

theorem dedup_cases (job j : JDict)
    (h : enforce_project_period_dedup job = .ok j) :
    j = job ∨
      ∃ ps ps2, dget job "projects" = some (.jlist ps) ∧ ps.isEmpty = false ∧
        j = dset job "projects" (.jlist ps2) := by
  simp only [enforce_project_period_dedup] at h
  obtain ⟨jp, hjp, h2⟩ := except_bind_ok _ _ _ h
  split at h2
  · rename_i ps hget
    by_cases hc : (jp.isEmpty || ps.isEmpty) = true
    · rw [if_pos hc] at h2
      exact .inl (except_pure_inj h2).symm
    · rw [if_neg hc] at h2
      obtain ⟨ps2, hps2, h3⟩ := except_bind_ok _ _ _ h2
      have hpe : ps.isEmpty = false := by
        cases hq : ps.isEmpty with
        | false => rfl
        | true => exact absurd (by rw [hq, Bool.or_true]) hc
      exact .inr ⟨ps, ps2, hget, hpe, (except_pure_inj h3).symm⟩
  · exact .inl (except_pure_inj h2).symm

theorem cleaned_job_invariant (j7 j : JDict)
    (h : enforce_project_period_dedup (enforce_tech_responsibility_rules j7) =
      .ok j)
    (hp : truthyAt j "projects" = true) :
    truthyAt j "responsibilities" = false ∧
    truthyAt j "keyTechnologies" = false := by
  rcases dedup_cases _ j h with rfl | ⟨ps, ps2, hget, hne, rfl⟩
  · have h1 : truthyAt j7 "projects" = true := by
      rw [← enforce_tech_projects]
      exact hp
    exact enforce_tech_invariant j7 h1
  · have h1 : truthyAt j7 "projects" = true := by
      rw [← enforce_tech_projects, truthyAt, hget]
      simp [truthy, hne]
    have h2 := enforce_tech_invariant j7 h1
    constructor
    · rw [truthyAt, dget_dset_ne _ _ _ _ (by decide)]
      exact h2.1
    · rw [truthyAt, dget_dset_ne _ _ _ _ (by decide)]
      exact h2.2

theorem cleanJob_invariant (jd j : JDict) (h : cleanJob jd = .ok j)
    (hp : truthyAt j "projects" = true) :
    truthyAt j "responsibilities" = false ∧
    truthyAt j "keyTechnologies" = false := by
  simp only [cleanJob] at h
  obtain ⟨j1, h1, h2⟩ := except_bind_ok _ _ _ h
  obtain ⟨j2, h3, h4⟩ := except_bind_ok _ _ _ h2
  obtain ⟨j3, h5, h6⟩ := except_bind_ok _ _ _ h4
  obtain ⟨j6, h7, h8⟩ := except_bind_ok _ _ _ h6
  exact cleaned_job_invariant _ j h8 hp

/-- Counterexample to C4 as stated: deterministic cleaning of a job
that has a non-empty projects list but no `responsibilities` and no
`keyTechnologies` key leaves both keys absent — the enforcement at
resume_agents.py lines 423-437 only clears the fields when they are
truthy, so an absent field is not materialized as `[]` / `\x22\x22`,
and the cleaned job's `responsibilities` does not equal the empty list
nor its `keyTechnologies` the empty string. -/
theorem mutual_exclusion_fields_not_materialized :
    cleanExtractedData .experience expNoKTData = .ok expNoKTData ∧
    JVal.jdict [("projects", JVal.jlist [.jdict []])] ∈ ehJobs expNoKTData ∧
    dget [("projects", JVal.jlist [.jdict []])] "projects" =
      some (.jlist [.jdict []]) ∧
    ([JVal.jdict []] : List JVal) ≠ [] ∧
    dget [("projects", JVal.jlist [.jdict []])] "responsibilities" = none ∧
    dget [("projects", JVal.jlist [.jdict []])] "keyTechnologies" = none ∧
    (none : Option JVal) ≠ some (.jlist []) ∧
    (none : Option JVal) ≠ some (.jstr "") :=
  ⟨rfl, List.Mem.head _, rfl, by simp, rfl, rfl, by simp, by simp⟩

/-- C4 (amended): for every job dict in the `employmentHistory` list of
a successfully cleaned experience payload, if the job's projects list is
non-empty then its `responsibilities` and `keyTechnologies` fields are
falsy (absent, `[]`, `\x22\x22`, or `null`) — they are forced empty when
previously truthy, but an absent or falsy field is left as it was
rather than being materialized as `[]` / `\x22\x22`. -/
theorem mutual_exclusion_after_cleaning (d d2 : JDict)
    (h : cleanExtractedData .experience d = .ok d2)
    (j : JDict) (hj : JVal.jdict j ∈ ehJobs d2)
    (ps : List JVal) (hp : dget j "projects" = some (.jlist ps))
    (hne : ps ≠ []) :
    truthyAt j "responsibilities" = false ∧
    truthyAt j "keyTechnologies" = false := by
  have hpt : truthyAt j "projects" = true := by
    rw [truthyAt, hp]
    cases ps with
    | nil => exact absurd rfl hne
    | cons a t => rfl
  simp only [cleanExtractedData] at h
  by_cases htr : truthyAt d "employmentHistory" = true
  · rw [if_pos htr] at h
    simp only [cleanExperienceData] at h
    cases hget : dget d "employmentHistory" with
    | none =>
      have hD : dgetD d "employmentHistory" .jnull = .jnull := by
        simp [dgetD, hget]
      rw [hD] at h
      exact absurd h (by simp)
    | some v0 =>
      have hD : dgetD d "employmentHistory" .jnull = v0 := by
        simp [dgetD, hget]
      rw [hD] at h
      cases v0 with
      | jnull => exact absurd h (by simp)
      | jbool b => exact absurd h (by simp)
      | jnum n => exact absurd h (by simp)
      | jstr s =>
        cases except_pure_inj h
        simp only [ehJobs, dget_dset_self] at hj
        exact absurd hj (List.not_mem_nil _)
      | jdict jd =>
        obtain ⟨j0, hj0, hpj⟩ := except_bind_ok _ _ _ h
        cases except_pure_inj hpj
        simp only [ehJobs, dget_dset_self] at hj
        have hjj : JVal.jdict j = JVal.jdict j0 := by
          rcases List.mem_cons.mp hj with h1 | h1
          · exact h1
          · exact absurd h1 (List.not_mem_nil _)
        have hje : j = j0 := by injection hjj
        subst hje
        exact cleanJob_invariant jd j hj0 hpt
      | jlist xs =>
        obtain ⟨xs2, hxs2, hpj⟩ := except_bind_ok _ _ _ h
        cases except_pure_inj hpj
        simp only [ehJobs, dget_dset_self] at hj
        have hj2 : JVal.jdict j ∈ xs2 := (List.mem_filter.mp hj).1
        obtain ⟨x, hx, hfx⟩ := mapME_ok_mem _ xs xs2 hxs2 _ hj2
        cases x with
        | jdict jd =>
          have hfx2 : Except.map JVal.jdict (cleanJob jd) = .ok (.jdict j) := hfx
          cases hcj : cleanJob jd with
          | error e =>
            rw [hcj] at hfx2
            exact absurd hfx2 (by simp [Except.map])
          | ok j0 =>
            rw [hcj] at hfx2
            have h9 : (Except.ok (JVal.jdict j0) : Except String JVal) =
              .ok (.jdict j) := hfx2
            have h10 : JVal.jdict j0 = JVal.jdict j := by injection h9
            have hje : j0 = j := by injection h10
            subst hje
            exact cleanJob_invariant jd j0 hcj hpt
        | jnull => exact JVal.noConfusion (except_pure_inj hfx)
        | jbool b => exact JVal.noConfusion (except_pure_inj hfx)
        | jnum n => exact JVal.noConfusion (except_pure_inj hfx)
        | jstr s => exact JVal.noConfusion (except_pure_inj hfx)
        | jlist l => exact JVal.noConfusion (except_pure_inj hfx)
  · rw [if_neg htr] at h
    cases except_pure_inj h
    cases hget : dget d "employmentHistory" with
    | none =>
      simp only [ehJobs, hget] at hj
      exact absurd hj (List.not_mem_nil _)
    | some v0 =>
      cases v0 with
      | jlist xs =>
        simp only [ehJobs, hget] at hj
        cases xs with
        | nil => exact absurd hj (List.not_mem_nil _)
        | cons a t =>
          exact absurd (show truthyAt d "employmentHistory" = true by
            rw [truthyAt, hget]; rfl) htr
      | jnull =>
        simp only [ehJobs, hget] at hj
        exact absurd hj (List.not_mem_nil _)
      | jbool b =>
        simp only [ehJobs, hget] at hj
        exact absurd hj (List.not_mem_nil _)
      | jnum n =>
        simp only [ehJobs, hget] at hj
        exact absurd hj (List.not_mem_nil _)
      | jstr s =>
        simp only [ehJobs, hget] at hj
        exact absurd hj (List.not_mem_nil _)
      | jdict dd =>
        simp only [ehJobs, hget] at hj
        exact absurd hj (List.not_mem_nil _)

theorem mutual_exclusion_after_cleaning_witness :
    cleanExtractedData .experience c4WitnessData = .ok c4WitnessOut ∧
    JVal.jdict c4WitnessJob ∈ ehJobs c4WitnessOut ∧
    dget c4WitnessJob "projects" = some (.jlist [.jdict []]) ∧
    ([JVal.jdict []] : List JVal) ≠ [] ∧
    (truthyAt c4WitnessJob "responsibilities" = false ∧
     truthyAt c4WitnessJob "keyTechnologies" = false) :=
  ⟨rfl, List.Mem.head _, rfl, by simp,
   mutual_exclusion_after_cleaning c4WitnessData c4WitnessOut rfl
     c4WitnessJob (List.Mem.head _) [.jdict []] rfl (by simp)⟩

/-! ## C7: title reconciliation in the merge -/

theorem string_isEmpty_false {s : String} (h : s ≠ "") : s.isEmpty = false := by
  rcases s with ⟨l⟩
  cases l with
  | nil => exact absurd rfl h
  | cons c t =>
    have hpos := c.utf8Size_pos
    show (String.endPos ⟨c :: t⟩ == 0) = false
    simp only [String.endPos, String.utf8ByteSize, String.utf8ByteSize.go]
    have : String.utf8ByteSize.go t + c.utf8Size ≠ 0 := by omega
    simpa [String.Pos.ext_iff] using this

/-- C7: writing `H` and `S` for the stripped title strings accumulated
from the header and the summary agent, the merged record's title is
empty when both normalized titles are non-empty but differ; is `H` when
both are non-empty and the normalized forms agree; is the present one
when exactly one of `H`, `S` is non-empty; and is empty when neither is.
-/
theorem title_reconciliation (results : List AgentResult) (ht st : String)
    (hfold : ∃ c, foldME combineStep (initialCombined, "", "") results =
      .ok (c, ht, st)) :
    ∃ combined, combineAgentResults results = .ok combined ∧
      ((normTitle ht ≠ "" → normTitle st ≠ "" → normTitle ht ≠ normTitle st →
          dget combined "title" = some (.jstr "")) ∧
       (normTitle ht ≠ "" → normTitle st ≠ "" → normTitle ht = normTitle st →
          dget combined "title" = some (.jstr ht)) ∧
       (ht ≠ "" → st = "" → dget combined "title" = some (.jstr ht)) ∧
       (ht = "" → st ≠ "" → dget combined "title" = some (.jstr st)) ∧
       (ht = "" → st = "" → dget combined "title" = some (.jstr ""))) := by
  obtain ⟨c, hf⟩ := hfold
  refine ⟨dset c "title" (.jstr
    (if !(normTitle ht).isEmpty && !(normTitle st).isEmpty then
      (if normTitle ht == normTitle st then ht else "")
    else if !ht.isEmpty then ht
    else if !st.isEmpty then st
    else "")), ?_, ?_, ?_, ?_, ?_, ?_⟩
  · simp only [combineAgentResults]
    rw [hf]
    rfl
  · intro h1 h2 h3
    rw [dget_dset_self]
    have e3 : (normTitle ht == normTitle st) = false := beq_eq_false_iff_ne.mpr h3
    simp [string_isEmpty_false h1, string_isEmpty_false h2, e3]
  · intro h1 h2 h3
    rw [dget_dset_self]
    have e3 : (normTitle ht == normTitle st) = true := beq_iff_eq.mpr h3
    simp [string_isEmpty_false h1, string_isEmpty_false h2, e3]
  · intro hht hst
    subst hst
    rw [dget_dset_self]
    have h0 : normTitle "" = "" := rfl
    have h1 : ("" : String).isEmpty = true := rfl
    simp [h0, h1, string_isEmpty_false hht]
  · intro hht hst
    subst hht
    rw [dget_dset_self]
    have h0 : normTitle "" = "" := rfl
    have h1 : ("" : String).isEmpty = true := rfl
    simp [h0, h1, string_isEmpty_false hst]
  · intro hht hst
    subst hht
    subst hst
    rw [dget_dset_self]
    rfl

theorem title_reconciliation_witness :
    ∃ combined, combineAgentResults c7Results = .ok combined ∧
      ((normTitle "Engineer" ≠ "" → normTitle "Manager" ≠ "" →
          normTitle "Engineer" ≠ normTitle "Manager" →
          dget combined "title" = some (.jstr "")) ∧
       (normTitle "Engineer" ≠ "" → normTitle "Manager" ≠ "" →
          normTitle "Engineer" = normTitle "Manager" →
          dget combined "title" = some (.jstr "Engineer")) ∧
       (("Engineer" : String) ≠ "" → ("Manager" : String) = "" →
          dget combined "title" = some (.jstr "Engineer")) ∧
       (("Engineer" : String) = "" → ("Manager" : String) ≠ "" →
          dget combined "title" = some (.jstr "Manager")) ∧
       (("Engineer" : String) = "" → ("Manager" : String) = "" →
          dget combined "title" = some (.jstr ""))) :=
  title_reconciliation c7Results "Engineer" "Manager" ⟨_, rfl⟩

/-! ## C1: partial-failure tolerance of the orchestrator -/

theorem except_ok_bind {A B : Type} (a : A) (f : A → Except String B) :
    ((Except.ok a : Except String A) >>= f) = f a := rfl

theorem foldME_cons_ok {A B : Type} (f : B → A → Except String B) (b c : B)
    (x : A) (xs : List A) (h : f b x = .ok c) :
    foldME f b (x :: xs) = foldME f c xs := by
  simp only [foldME]
  rw [h]
  rfl

theorem dgetD_dset_self (d : JDict) (k : String) (v w : JVal) :
    dgetD (dset d k v) k w = v := by
  rw [dgetD, dget_dset_self]
  rfl

theorem combineStep_header (acc : JDict × String × String) (d : JDict)
    (hts nms : String)
    (h1 : orEmptyStrip (dgetD d "title" .jnull) = .ok hts)
    (h2 : orEmptyStrip (dgetD d "name" .jnull) = .ok nms) :
    combineStep acc ⟨.header, d, true, none⟩ = .ok
      (dset (dset acc.1 "name" (.jstr
          (if !(normalize_person_name nms).isEmpty then normalize_person_name nms
           else nms)))
        "requisitionNumber" (dgetD d "requisitionNumber" (.jstr "")),
       hts, acc.2.2) := by
  simp only [combineStep]
  rw [h1, h2]
  rfl

theorem combineStep_summary (acc : JDict × String × String) (d : JDict)
    (sts : String) (h1 : orEmptyStrip (dgetD d "title" .jnull) = .ok sts) :
    combineStep acc ⟨.summary, d, true, none⟩ = .ok
      (dset (dset (dset acc.1 "professionalSummary"
          (dgetD d "professionalSummary" (.jlist [])))
        "summarySections" (dgetD d "summarySections" (.jlist [])))
        "subsections" (dgetD d "summarySections" (.jlist [])),
       acc.2.1, sts) := by
  simp only [combineStep]
  rw [h1, dgetD_dset_self]
  rfl

theorem combineStep_experience (acc : JDict × String × String) (d : JDict) :
    combineStep acc ⟨.experience, d, true, none⟩ = .ok
      (dset acc.1 "employmentHistory" (dgetD d "employmentHistory" (.jlist [])),
       acc.2.1, acc.2.2) := rfl

theorem combineStep_education (acc : JDict × String × String) (d : JDict) :
    combineStep acc ⟨.education, d, true, none⟩ = .ok
      (dset acc.1 "education" (dgetD d "education" (.jlist [])),
       acc.2.1, acc.2.2) := rfl

theorem combineStep_skills (acc : JDict × String × String) (d : JDict) :
    combineStep acc ⟨.skills, d, true, none⟩ = .ok
      (dset (dset acc.1 "technicalSkills" (dgetD d "technicalSkills" (.jdict [])))
        "skillCategories" (dgetD d "skillCategories" (.jlist [])),
       acc.2.1, acc.2.2) := rfl

theorem combineStep_certifications (acc : JDict × String × String) (d : JDict) :
    combineStep acc ⟨.certifications, d, true, none⟩ = .ok
      (dset acc.1 "certifications" (dgetD d "certifications" (.jlist [])),
       acc.2.1, acc.2.2) := rfl

theorem successfulResults_append (xs ys : List GatherItem) :
    successfulResults (xs ++ ys) =
      successfulResults xs ++ successfulResults ys := by
  simp [successfulResults, List.filterMap_append]

set_option maxHeartbeats 3200000 in
/-- C1: if exactly one of the six agents fails (an exception, or any
gather item that the result-collection loop drops) while the other five
succeed with cleaned data `ds`, the run terminates with a single
final-data payload: each successful agent's fields are populated from
its data, the failed agent's fields stay at the empty defaults of the
initial combined record, and the pipeline reports success rather than a
terminal error. -/
theorem partial_failure_tolerance
    (t : AgentType) (failItem : GatherItem) (ds : AgentType → JDict)
    (hts nms sts : String) (sections : List (String × CVal))
    (items : List GatherItem)
    (hitems : items = agentOrder.map (fun a =>
      if a = t then failItem else .res ⟨a, ds a, true, none⟩))
    (hdrop : successfulResults [failItem] = [])
    (hh1 : orEmptyStrip (dgetD (ds .header) "title" .jnull) = .ok hts)
    (hh2 : orEmptyStrip (dgetD (ds .header) "name" .jnull) = .ok nms)
    (hs1 : orEmptyStrip (dgetD (ds .summary) "title" .jnull) = .ok sts) :
    ∃ combined,
      processResumeWithAgents (.ok sections) items = .finalData combined ∧
      dget combined "name" = some (if t = .header then .jstr "" else
        .jstr (if !(normalize_person_name nms).isEmpty then
          normalize_person_name nms else nms)) ∧
      dget combined "requisitionNumber" = some (if t = .header then .jstr ""
        else dgetD (ds .header) "requisitionNumber" (.jstr "")) ∧
      dget combined "professionalSummary" = some (if t = .summary then .jlist []
        else dgetD (ds .summary) "professionalSummary" (.jlist [])) ∧
      dget combined "summarySections" = some (if t = .summary then .jlist []
        else dgetD (ds .summary) "summarySections" (.jlist [])) ∧
      dget combined "subsections" = some (if t = .summary then .jlist []
        else dgetD (ds .summary) "summarySections" (.jlist [])) ∧
      dget combined "employmentHistory" = some (if t = .experience then .jlist []
        else dgetD (ds .experience) "employmentHistory" (.jlist [])) ∧
      dget combined "education" = some (if t = .education then .jlist []
        else dgetD (ds .education) "education" (.jlist [])) ∧
      dget combined "technicalSkills" = some (if t = .skills then .jdict []
        else dgetD (ds .skills) "technicalSkills" (.jdict [])) ∧
      dget combined "skillCategories" = some (if t = .skills then .jlist []
        else dgetD (ds .skills) "skillCategories" (.jlist [])) ∧
      dget combined "certifications" = some (if t = .certifications then
        .jlist [] else dgetD (ds .certifications) "certifications" (.jlist [])) ∧
      ∃ ttl, dget combined "title" = some (.jstr ttl) := by
  cases t with
  | header =>
    subst hitems
    have hmap : agentOrder.map (fun a => if a = AgentType.header then failItem
        else GatherItem.res ⟨a, ds a, true, none⟩) =
        ([] : List GatherItem) ++ failItem ::
        [GatherItem.res ⟨.summary, ds .summary, true, none⟩,
         GatherItem.res ⟨.experience, ds .experience, true, none⟩,
         GatherItem.res ⟨.education, ds .education, true, none⟩,
         GatherItem.res ⟨.skills, ds .skills, true, none⟩,
         GatherItem.res ⟨.certifications, ds .certifications, true, none⟩] := rfl
    have hsr : successfulResults (agentOrder.map (fun a => if a = AgentType.header then failItem
        else GatherItem.res ⟨a, ds a, true, none⟩)) =
        [⟨.summary, ds .summary, true, none⟩,
         ⟨.experience, ds .experience, true, none⟩,
         ⟨.education, ds .education, true, none⟩,
         ⟨.skills, ds .skills, true, none⟩,
         ⟨.certifications, ds .certifications, true, none⟩] := by
      rw [hmap, successfulResults_append,
        show (failItem :: [GatherItem.res ⟨.summary, ds .summary, true, none⟩,
         GatherItem.res ⟨.experience, ds .experience, true, none⟩,
         GatherItem.res ⟨.education, ds .education, true, none⟩,
         GatherItem.res ⟨.skills, ds .skills, true, none⟩,
         GatherItem.res ⟨.certifications, ds .certifications, true, none⟩] :
          List GatherItem) = [failItem] ++ [GatherItem.res ⟨.summary, ds .summary, true, none⟩,
         GatherItem.res ⟨.experience, ds .experience, true, none⟩,
         GatherItem.res ⟨.education, ds .education, true, none⟩,
         GatherItem.res ⟨.skills, ds .skills, true, none⟩,
         GatherItem.res ⟨.certifications, ds .certifications, true, none⟩] from rfl,
        successfulResults_append, hdrop]
      rfl
    apply Exists.intro
    refine ⟨?_, ?_, ?_, ?_, ?_, ?_, ?_, ?_, ?_, ?_, ?_, ?_⟩
    · simp only [processResumeWithAgents]
      rw [hsr, combineAgentResults]
      rw [foldME_cons_ok _ _ _ _ _ (combineStep_summary _ _ _ hs1),
        foldME_cons_ok _ _ _ _ _ (combineStep_experience _ _),
        foldME_cons_ok _ _ _ _ _ (combineStep_education _ _),
        foldME_cons_ok _ _ _ _ _ (combineStep_skills _ _),
        foldME_cons_ok _ _ _ _ _ (combineStep_certifications _ _),
        foldME]
      rfl
    · rfl
    · rfl
    · rfl
    · rfl
    · rfl
    · rfl
    · rfl
    · rfl
    · rfl
    · rfl
    · exact ⟨_, rfl⟩
  | summary =>
    subst hitems
    have hmap : agentOrder.map (fun a => if a = AgentType.summary then failItem
        else GatherItem.res ⟨a, ds a, true, none⟩) =
        [GatherItem.res ⟨.header, ds .header, true, none⟩] ++ failItem ::
        [GatherItem.res ⟨.experience, ds .experience, true, none⟩,
         GatherItem.res ⟨.education, ds .education, true, none⟩,
         GatherItem.res ⟨.skills, ds .skills, true, none⟩,
         GatherItem.res ⟨.certifications, ds .certifications, true, none⟩] := rfl
    have hsr : successfulResults (agentOrder.map (fun a => if a = AgentType.summary then failItem
        else GatherItem.res ⟨a, ds a, true, none⟩)) =
        [⟨.header, ds .header, true, none⟩,
         ⟨.experience, ds .experience, true, none⟩,
         ⟨.education, ds .education, true, none⟩,
         ⟨.skills, ds .skills, true, none⟩,
         ⟨.certifications, ds .certifications, true, none⟩] := by
      rw [hmap, successfulResults_append,
        show (failItem :: [GatherItem.res ⟨.experience, ds .experience, true, none⟩,
         GatherItem.res ⟨.education, ds .education, true, none⟩,
         GatherItem.res ⟨.skills, ds .skills, true, none⟩,
         GatherItem.res ⟨.certifications, ds .certifications, true, none⟩] :
          List GatherItem) = [failItem] ++ [GatherItem.res ⟨.experience, ds .experience, true, none⟩,
         GatherItem.res ⟨.education, ds .education, true, none⟩,
         GatherItem.res ⟨.skills, ds .skills, true, none⟩,
         GatherItem.res ⟨.certifications, ds .certifications, true, none⟩] from rfl,
        successfulResults_append, hdrop]
      rfl
    apply Exists.intro
    refine ⟨?_, ?_, ?_, ?_, ?_, ?_, ?_, ?_, ?_, ?_, ?_, ?_⟩
    · simp only [processResumeWithAgents]
      rw [hsr, combineAgentResults]
      rw [foldME_cons_ok _ _ _ _ _ (combineStep_header _ _ _ _ hh1 hh2),
        foldME_cons_ok _ _ _ _ _ (combineStep_experience _ _),
        foldME_cons_ok _ _ _ _ _ (combineStep_education _ _),
        foldME_cons_ok _ _ _ _ _ (combineStep_skills _ _),
        foldME_cons_ok _ _ _ _ _ (combineStep_certifications _ _),
        foldME]
      rfl
    · rfl
    · rfl
    · rfl
    · rfl
    · rfl
    · rfl
    · rfl
    · rfl
    · rfl
    · rfl
    · exact ⟨_, rfl⟩
  | experience =>
    subst hitems
    have hmap : agentOrder.map (fun a => if a = AgentType.experience then failItem
        else GatherItem.res ⟨a, ds a, true, none⟩) =
        [GatherItem.res ⟨.header, ds .header, true, none⟩,
         GatherItem.res ⟨.summary, ds .summary, true, none⟩] ++ failItem ::
        [GatherItem.res ⟨.education, ds .education, true, none⟩,
         GatherItem.res ⟨.skills, ds .skills, true, none⟩,
         GatherItem.res ⟨.certifications, ds .certifications, true, none⟩] := rfl
    have hsr : successfulResults (agentOrder.map (fun a => if a = AgentType.experience then failItem
        else GatherItem.res ⟨a, ds a, true, none⟩)) =
        [⟨.header, ds .header, true, none⟩,
         ⟨.summary, ds .summary, true, none⟩,
         ⟨.education, ds .education, true, none⟩,
         ⟨.skills, ds .skills, true, none⟩,
         ⟨.certifications, ds .certifications, true, none⟩] := by
      rw [hmap, successfulResults_append,
        show (failItem :: [GatherItem.res ⟨.education, ds .education, true, none⟩,
         GatherItem.res ⟨.skills, ds .skills, true, none⟩,
         GatherItem.res ⟨.certifications, ds .certifications, true, none⟩] :
          List GatherItem) = [failItem] ++ [GatherItem.res ⟨.education, ds .education, true, none⟩,
         GatherItem.res ⟨.skills, ds .skills, true, none⟩,
         GatherItem.res ⟨.certifications, ds .certifications, true, none⟩] from rfl,
        successfulResults_append, hdrop]
      rfl
    apply Exists.intro
    refine ⟨?_, ?_, ?_, ?_, ?_, ?_, ?_, ?_, ?_, ?_, ?_, ?_⟩
    · simp only [processResumeWithAgents]
      rw [hsr, combineAgentResults]
      rw [foldME_cons_ok _ _ _ _ _ (combineStep_header _ _ _ _ hh1 hh2),
        foldME_cons_ok _ _ _ _ _ (combineStep_summary _ _ _ hs1),
        foldME_cons_ok _ _ _ _ _ (combineStep_education _ _),
        foldME_cons_ok _ _ _ _ _ (combineStep_skills _ _),
        foldME_cons_ok _ _ _ _ _ (combineStep_certifications _ _),
        foldME]
      rfl
    · rfl
    · rfl
    · rfl
    · rfl
    · rfl
    · rfl
    · rfl
    · rfl
    · rfl
    · rfl
    · exact ⟨_, rfl⟩
  | education =>
    subst hitems
    have hmap : agentOrder.map (fun a => if a = AgentType.education then failItem
        else GatherItem.res ⟨a, ds a, true, none⟩) =
        [GatherItem.res ⟨.header, ds .header, true, none⟩,
         GatherItem.res ⟨.summary, ds .summary, true, none⟩,
         GatherItem.res ⟨.experience, ds .experience, true, none⟩] ++ failItem ::
        [GatherItem.res ⟨.skills, ds .skills, true, none⟩,
         GatherItem.res ⟨.certifications, ds .certifications, true, none⟩] := rfl
    have hsr : successfulResults (agentOrder.map (fun a => if a = AgentType.education then failItem
        else GatherItem.res ⟨a, ds a, true, none⟩)) =
        [⟨.header, ds .header, true, none⟩,
         ⟨.summary, ds .summary, true, none⟩,
         ⟨.experience, ds .experience, true, none⟩,
         ⟨.skills, ds .skills, true, none⟩,
         ⟨.certifications, ds .certifications, true, none⟩] := by
      rw [hmap, successfulResults_append,
        show (failItem :: [GatherItem.res ⟨.skills, ds .skills, true, none⟩,
         GatherItem.res ⟨.certifications, ds .certifications, true, none⟩] :
          List GatherItem) = [failItem] ++ [GatherItem.res ⟨.skills, ds .skills, true, none⟩,
         GatherItem.res ⟨.certifications, ds .certifications, true, none⟩] from rfl,
        successfulResults_append, hdrop]
      rfl
    apply Exists.intro
    refine ⟨?_, ?_, ?_, ?_, ?_, ?_, ?_, ?_, ?_, ?_, ?_, ?_⟩
    · simp only [processResumeWithAgents]
      rw [hsr, combineAgentResults]
      rw [foldME_cons_ok _ _ _ _ _ (combineStep_header _ _ _ _ hh1 hh2),
        foldME_cons_ok _ _ _ _ _ (combineStep_summary _ _ _ hs1),
        foldME_cons_ok _ _ _ _ _ (combineStep_experience _ _),
        foldME_cons_ok _ _ _ _ _ (combineStep_skills _ _),
        foldME_cons_ok _ _ _ _ _ (combineStep_certifications _ _),
        foldME]
      rfl
    · rfl
    · rfl
    · rfl
    · rfl
    · rfl
    · rfl
    · rfl
    · rfl
    · rfl
    · rfl
    · exact ⟨_, rfl⟩
  | skills =>
    subst hitems
    have hmap : agentOrder.map (fun a => if a = AgentType.skills then failItem
        else GatherItem.res ⟨a, ds a, true, none⟩) =
        [GatherItem.res ⟨.header, ds .header, true, none⟩,
         GatherItem.res ⟨.summary, ds .summary, true, none⟩,
         GatherItem.res ⟨.experience, ds .experience, true, none⟩,
         GatherItem.res ⟨.education, ds .education, true, none⟩] ++ failItem ::
        [GatherItem.res ⟨.certifications, ds .certifications, true, none⟩] := rfl
    have hsr : successfulResults (agentOrder.map (fun a => if a = AgentType.skills then failItem
        else GatherItem.res ⟨a, ds a, true, none⟩)) =
        [⟨.header, ds .header, true, none⟩,
         ⟨.summary, ds .summary, true, none⟩,
         ⟨.experience, ds .experience, true, none⟩,
         ⟨.education, ds .education, true, none⟩,
         ⟨.certifications, ds .certifications, true, none⟩] := by
      rw [hmap, successfulResults_append,
        show (failItem :: [GatherItem.res ⟨.certifications, ds .certifications, true, none⟩] :
          List GatherItem) = [failItem] ++ [GatherItem.res ⟨.certifications, ds .certifications, true, none⟩] from rfl,
        successfulResults_append, hdrop]
      rfl
    apply Exists.intro
    refine ⟨?_, ?_, ?_, ?_, ?_, ?_, ?_, ?_, ?_, ?_, ?_, ?_⟩
    · simp only [processResumeWithAgents]
      rw [hsr, combineAgentResults]
      rw [foldME_cons_ok _ _ _ _ _ (combineStep_header _ _ _ _ hh1 hh2),
        foldME_cons_ok _ _ _ _ _ (combineStep_summary _ _ _ hs1),
        foldME_cons_ok _ _ _ _ _ (combineStep_experience _ _),
        foldME_cons_ok _ _ _ _ _ (combineStep_education _ _),
        foldME_cons_ok _ _ _ _ _ (combineStep_certifications _ _),
        foldME]
      rfl
    · rfl
    · rfl
    · rfl
    · rfl
    · rfl
    · rfl
    · rfl
    · rfl
    · rfl
    · rfl
    · exact ⟨_, rfl⟩
  | certifications =>
    subst hitems
    have hmap : agentOrder.map (fun a => if a = AgentType.certifications then failItem
        else GatherItem.res ⟨a, ds a, true, none⟩) =
        [GatherItem.res ⟨.header, ds .header, true, none⟩,
         GatherItem.res ⟨.summary, ds .summary, true, none⟩,
         GatherItem.res ⟨.experience, ds .experience, true, none⟩,
         GatherItem.res ⟨.education, ds .education, true, none⟩,
         GatherItem.res ⟨.skills, ds .skills, true, none⟩] ++ failItem ::
        ([] : List GatherItem) := rfl
    have hsr : successfulResults (agentOrder.map (fun a => if a = AgentType.certifications then failItem
        else GatherItem.res ⟨a, ds a, true, none⟩)) =
        [⟨.header, ds .header, true, none⟩,
         ⟨.summary, ds .summary, true, none⟩,
         ⟨.experience, ds .experience, true, none⟩,
         ⟨.education, ds .education, true, none⟩,
         ⟨.skills, ds .skills, true, none⟩] := by
      rw [hmap, successfulResults_append,
        show (failItem :: ([] : List GatherItem) :
          List GatherItem) = [failItem] ++ ([] : List GatherItem) from rfl,
        successfulResults_append, hdrop]
      rfl
    apply Exists.intro
    refine ⟨?_, ?_, ?_, ?_, ?_, ?_, ?_, ?_, ?_, ?_, ?_, ?_⟩
    · simp only [processResumeWithAgents]
      rw [hsr, combineAgentResults]
      rw [foldME_cons_ok _ _ _ _ _ (combineStep_header _ _ _ _ hh1 hh2),
        foldME_cons_ok _ _ _ _ _ (combineStep_summary _ _ _ hs1),
        foldME_cons_ok _ _ _ _ _ (combineStep_experience _ _),
        foldME_cons_ok _ _ _ _ _ (combineStep_education _ _),
        foldME_cons_ok _ _ _ _ _ (combineStep_skills _ _),
        foldME]
      rfl
    · rfl
    · rfl
    · rfl
    · rfl
    · rfl
    · rfl
    · rfl
    · rfl
    · rfl
    · rfl
    · exact ⟨_, rfl⟩

theorem partial_failure_tolerance_witness :
    ∃ combined,
      processResumeWithAgents (.ok []) c1Items = .finalData combined ∧
      dget combined "name" = some (if AgentType.certifications = .header then
        .jstr "" else .jstr (if !(normalize_person_name "").isEmpty then
          normalize_person_name "" else "")) ∧
      dget combined "requisitionNumber" =
        some (if AgentType.certifications = .header then .jstr ""
          else dgetD (c1DS .header) "requisitionNumber" (.jstr "")) ∧
      dget combined "professionalSummary" =
        some (if AgentType.certifications = .summary then .jlist []
          else dgetD (c1DS .summary) "professionalSummary" (.jlist [])) ∧
      dget combined "summarySections" =
        some (if AgentType.certifications = .summary then .jlist []
          else dgetD (c1DS .summary) "summarySections" (.jlist [])) ∧
      dget combined "subsections" =
        some (if AgentType.certifications = .summary then .jlist []
          else dgetD (c1DS .summary) "summarySections" (.jlist [])) ∧
      dget combined "employmentHistory" =
        some (if AgentType.certifications = .experience then .jlist []
          else dgetD (c1DS .experience) "employmentHistory" (.jlist [])) ∧
      dget combined "education" =
        some (if AgentType.certifications = .education then .jlist []
          else dgetD (c1DS .education) "education" (.jlist [])) ∧
      dget combined "technicalSkills" =
        some (if AgentType.certifications = .skills then .jdict []
          else dgetD (c1DS .skills) "technicalSkills" (.jdict [])) ∧
      dget combined "skillCategories" =
        some (if AgentType.certifications = .skills then .jlist []
          else dgetD (c1DS .skills) "skillCategories" (.jlist [])) ∧
      dget combined "certifications" =
        some (if AgentType.certifications = .certifications then .jlist []
          else dgetD (c1DS .certifications) "certifications" (.jlist [])) ∧
      ∃ ttl, dget combined "title" = some (.jstr ttl) :=
  partial_failure_tolerance .certifications (.exc "boom") c1DS
    "Engineer" "" "Engineer" [] c1Items rfl rfl rfl rfl rfl

/-! ## C9 / C3: the chunker's integrity bookkeeping and key set -/

theorem statusOf_bumpInteg_true (r : IntegRec) (a b c : Nat) :
    statusOf (bumpInteg r a b c true) = statusOf r := by
  cases r with
  | unc x y st => rfl
  | sec x y z w st => simp [bumpInteg, statusOf]

theorem kvSet_mem {A : Type} (m : List (String × A)) (k : String) (v : A) :
    ∀ p ∈ kvSet m k v, p ∈ m ∨ p = (k, v) := by
  induction m with
  | nil =>
    intro p hp
    simp only [kvSet] at hp
    rcases List.mem_cons.mp hp with h | h
    · exact .inr h
    · exact absurd h (List.not_mem_nil p)
  | cons q t ih =>
    intro p hp
    obtain ⟨k1, v1⟩ := q
    simp only [kvSet] at hp
    by_cases hk : (k1 == k) = true
    · rw [if_pos hk] at hp
      rcases List.mem_cons.mp hp with h | h
      · exact .inr h
      · exact .inl (List.mem_cons_of_mem _ h)
    · rw [if_neg hk] at hp
      rcases List.mem_cons.mp hp with h | h
      · exact .inl (h ▸ List.mem_cons_self _ _)
      · rcases ih p h with h2 | h2
        · exact .inl (List.mem_cons_of_mem _ h2)
        · exact .inr h2

theorem kvGet_mem {A : Type} (m : List (String × A)) (k : String) (v : A)
    (h : kvGet m k = some v) : (k, v) ∈ m := by
  simp only [kvGet] at h
  cases hf : m.find? (fun p => p.1 == k) with
  | none => rw [hf] at h; exact Option.noConfusion h
  | some p =>
    rw [hf] at h
    have hp1 : (p.1 == k) = true := List.find?_some (p := fun q : String × A => q.1 == k) hf
    have hpm : p ∈ m := List.mem_of_find?_eq_some hf
    have hk : p.1 = k := eq_of_beq hp1
    have hv : p.2 = v := by cases h; rfl
    have : (k, v) = p := by
      rw [← hk, ← hv]
    rw [this]
    exact hpm

theorem sliceLoop_warns (raw : Chs) :
    ∀ ms st, (sliceLoop raw ms st).warns = st.warns := by
  intro ms
  induction ms with
  | nil => intro st; rfl
  | cons m rest ih =>
    intro st
    simp only [sliceLoop, beq_self_eq_true, Bool.not_true, Bool.false_eq_true,
      if_false]
    rw [ih]
    simp only [apply_ite SliceState.warns, ite_self]

theorem sliceLoop_integ_ok (raw : Chs) :
    ∀ ms st, (∀ p ∈ st.integ, statusOf p.2 = "ok") →
      ∀ p ∈ (sliceLoop raw ms st).integ, statusOf p.2 = "ok" := by
  intro ms
  induction ms with
  | nil => intro st h; exact h
  | cons m rest ih =>
    intro st h
    simp only [sliceLoop, beq_self_eq_true, Bool.not_true, Bool.false_eq_true,
      if_false]
    apply ih
    intro p hp
    simp only [apply_ite SliceState.integ, ite_self] at hp
    rcases kvSet_mem _ _ _ p hp with h2 | h2
    · exact h p h2
    · rw [h2]
      show statusOf (bumpInteg _ _ _ _ true) = "ok"
      rw [statusOf_bumpInteg_true]
      cases hg : kvGet st.integ m.key with
      | none => rfl
      | some r =>
        show statusOf r = "ok"
        exact h (m.key, r) (kvGet_mem _ _ _ hg)

theorem hasKeyKV_eq_any {A : Type} (m : List (String × A)) (k : String) :
    hasKeyKV m k = m.any (fun p => p.1 == k) := by
  induction m with
  | nil => rfl
  | cons q t ih =>
    show (List.find? _ (q :: t)).isSome = (q :: t).any _
    cases hp : (q.1 == k) with
    | true =>
      rw [List.find?_cons_of_pos (p := fun r : String × A => r.1 == k) _ hp,
        List.any_cons, hp]
      simp
    | false =>
      rw [List.find?_cons_of_neg (p := fun r : String × A => r.1 == k) _
        (by simp [hp]), List.any_cons, hp]
      simpa [hasKeyKV] using ih

theorem hasKeyKV_append {A : Type} (xs ys : List (String × A)) (k : String) :
    hasKeyKV (xs ++ ys) k = (hasKeyKV xs k || hasKeyKV ys k) := by
  rw [hasKeyKV_eq_any, hasKeyKV_eq_any, hasKeyKV_eq_any, List.any_append]

theorem hasKeyKV_filterMap_false {A B : Type} (xs : List A)
    (f : A → Option (String × B)) (k0 : String)
    (h : ∀ x ∈ xs, ∀ p, f x = some p → (p.1 == k0) = false) :
    hasKeyKV (xs.filterMap f) k0 = false := by
  induction xs with
  | nil => rfl
  | cons x xs ih =>
    rw [List.filterMap_cons]
    cases hfx : f x with
    | none => exact ih (fun y hy => h y (List.mem_cons_of_mem _ hy))
    | some p =>
      show hasKeyKV (p :: xs.filterMap f) k0 = false
      rw [hasKeyKV_eq_any, List.any_cons, h x (List.mem_cons_self _ _) p hfx,
        Bool.false_or, ← hasKeyKV_eq_any]
      exact ih (fun y hy => h y (List.mem_cons_of_mem _ hy))

/-- If a key is absent from the chunker's section dict, it is absent
from the reordered dict. -/
theorem hasKeyKV_reorder_none {A : Type} (sections : List (String × A))
    (k0 : String) (h : kvGet sections k0 = none) :
    hasKeyKV (reorderSectionsKV sections) k0 = false := by
  have hpart : ∀ (keys : List String),
      hasKeyKV (keys.filterMap (fun k =>
        (kvGet sections k).map (fun v => (k, v)))) k0 = false := by
    intro keys
    apply hasKeyKV_filterMap_false
    intro k hk p hp
    cases hbeq : k == k0 with
    | false =>
      cases hg : kvGet sections k with
      | none => rw [hg] at hp; exact Option.noConfusion hp
      | some v =>
        rw [hg] at hp
        cases hp
        exact hbeq
    | true =>
      have hke : k = k0 := eq_of_beq hbeq
      rw [hke, h] at hp
      exact Option.noConfusion hp
  have hpart2 : hasKeyKV (((sections.map (fun p => p.1)).filter
      (fun k => !metaKeys.contains k)).filterMap (fun k =>
        if standardOrderKeys.contains k then none
        else (kvGet sections k).map (fun v => (k, v)))) k0 = false := by
    apply hasKeyKV_filterMap_false
    intro k hk p hp
    by_cases hstd : (standardOrderKeys.contains k) = true
    · rw [if_pos hstd] at hp
      exact Option.noConfusion hp
    · rw [if_neg hstd] at hp
      cases hbeq : k == k0 with
      | false =>
        cases hg : kvGet sections k with
        | none => rw [hg] at hp; exact Option.noConfusion hp
        | some v =>
          rw [hg] at hp
          cases hp
          exact hbeq
      | true =>
        have hke : k = k0 := eq_of_beq hbeq
        rw [hke, h] at hp
        exact Option.noConfusion hp
  simp only [reorderSectionsKV]
  rw [hasKeyKV_append, hasKeyKV_append, hpart, hpart, hpart2]
  rfl

theorem kvGet_eq_none_of_hasKey_false {A : Type} (m : List (String × A))
    (k : String) (h : hasKeyKV m k = false) : kvGet m k = none := by
  simp only [hasKeyKV] at h
  cases hf : m.find? (fun p => p.1 == k) with
  | none => simp [kvGet, hf]
  | some p =>
    rw [hf] at h
    exact absurd h (by simp)

theorem kvGet_append {A : Type} (xs ys : List (String × A)) (k : String) :
    kvGet (xs ++ ys) k =
      (match kvGet xs k with
       | some v => some v
       | none => kvGet ys k) := by
  induction xs with
  | nil => simp [kvGet]
  | cons q t ih =>
    cases hp : (q.1 == k) with
    | true =>
      show ((q :: (t ++ ys)).find? _).map _ = _
      rw [List.find?_cons_of_pos (p := fun r : String × A => r.1 == k) _ hp]
      show some q.2 = _
      have hq : kvGet (q :: t) k = some q.2 := by
        show ((q :: t).find? _).map _ = _
        rw [List.find?_cons_of_pos (p := fun r : String × A => r.1 == k) _ hp]
        rfl
      rw [hq]
    | false =>
      show ((q :: (t ++ ys)).find? _).map _ = _
      rw [List.find?_cons_of_neg (p := fun r : String × A => r.1 == k) _
        (by simp [hp])]
      have h2 : kvGet (q :: t) k = kvGet t k := by
        show ((q :: t).find? _).map _ = _
        rw [List.find?_cons_of_neg (p := fun r : String × A => r.1 == k) _
          (by simp [hp])]
        rfl
      rw [h2]
      exact ih

/-- Reordering preserves the `integrity_check` entry. -/
theorem kvGet_reorder_ic {A : Type} (sections : List (String × A)) :
    kvGet (reorderSectionsKV sections) "integrity_check" =
      kvGet sections "integrity_check" := by
  have hpart1 : hasKeyKV (standardOrderKeys.filterMap (fun k =>
      (kvGet sections k).map (fun v => (k, v)))) "integrity_check" = false := by
    apply hasKeyKV_filterMap_false
    intro k hk p hp
    cases hg : kvGet sections k with
    | none => rw [hg] at hp; exact Option.noConfusion hp
    | some v =>
      rw [hg] at hp
      cases hp
      fin_cases hk <;> rfl
  have hpart2 : hasKeyKV (((sections.map (fun p => p.1)).filter
      (fun k => !metaKeys.contains k)).filterMap (fun k =>
        if standardOrderKeys.contains k then none
        else (kvGet sections k).map (fun v => (k, v)))) "integrity_check" =
      false := by
    apply hasKeyKV_filterMap_false
    intro k hk p hp
    by_cases hstd : (standardOrderKeys.contains k) = true
    · rw [if_pos hstd] at hp
      exact Option.noConfusion hp
    · rw [if_neg hstd] at hp
      cases hg : kvGet sections k with
      | none => rw [hg] at hp; exact Option.noConfusion hp
      | some v =>
        rw [hg] at hp
        cases hp
        have hmeta : metaKeys.contains k = false := by
          have := (List.mem_filter.mp hk).2
          simpa using this
        cases hbeq : k == "integrity_check" with
        | true =>
          have hke : k = "integrity_check" := eq_of_beq hbeq
          rw [hke] at hmeta
          exact absurd hmeta (by decide)
        | false => rfl
  simp only [reorderSectionsKV]
  rw [kvGet_append, kvGet_append,
    kvGet_eq_none_of_hasKey_false _ _ hpart1,
    kvGet_eq_none_of_hasKey_false _ _ hpart2]
  show kvGet (metaKeys.filterMap (fun k =>
    (kvGet sections k).map (fun v => (k, v)))) "integrity_check" = _
  simp only [metaKeys, List.filterMap_cons]
  cases hic : kvGet sections "integrity_check" with
  | some v =>
    show kvGet ((("integrity_check", v)) :: _) "integrity_check" = some v
    show ((_ :: _).find? _).map _ = _
    rw [List.find?_cons_of_pos (p := fun r : String × A => r.1 == "integrity_check")
      (a := ("integrity_check", v)) _ rfl]
    rfl
  | none =>
    show kvGet (List.filterMap (fun k =>
        Option.map (fun v => (k, v)) (kvGet sections k))
      ["integrity_warning", "Uncategorized"]) "integrity_check" = none
    apply kvGet_eq_none_of_hasKey_false
    apply hasKeyKV_filterMap_false
    intro k hk p hp
    cases hg : kvGet sections k with
    | none => rw [hg] at hp; exact Option.noConfusion hp
    | some v =>
      rw [hg] at hp
      cases hp
      fin_cases hk <;> rfl

/-- In the no-match branch the integrity status is `ok` by construction
and no warning entry is added. -/
theorem chunkResumeL_nomatch (raw : Chs)
    (hdet : (detectHeaders raw).isEmpty = true) :
    chunkResumeL raw =
      [("Uncategorized", if (pyStrip raw).isEmpty then CVal.noneV
          else CVal.text (pyStrip raw)),
       ("integrity_check", CVal.integ
          [("Uncategorized", .unc raw.length (pyStrip raw).length "ok")])] := by
  simp only [chunkResumeL]
  rw [if_pos hdet]
  simp

/-- In the match branch the result is the reordering of the header pair,
the five section pairs and the integrity entry; the warning append never
fires because the slice loop adds no warnings. -/
theorem chunkResumeL_match_result (raw : Chs)
    (hdet : (detectHeaders raw).isEmpty = false) :
    chunkResumeL raw = [] ∨
    ∃ (ms : List HMatch) (first : HMatch),
      chunkResumeL raw = reorderSectionsKV
        ((("header", if (pyStrip (raw.take first.ls)).isEmpty then CVal.noneV
            else CVal.text (pyStrip (raw.take first.ls))) ::
          chunkSectionKeys.map (fun sec =>
            (sec, secVal (sliceLoop raw ms ⟨[], [], []⟩).slices sec))) ++
          [("integrity_check",
            CVal.integ (sliceLoop raw ms ⟨[], [], []⟩).integ)]) := by
  simp only [chunkResumeL]
  rw [if_neg (by simp [hdet])]
  split
  · exact .inl rfl
  · rename_i first rest heq
    right
    refine ⟨first :: rest, first, ?_⟩
    rw [heq]
    simp only [sliceLoop_warns, List.isEmpty_nil, Bool.not_true,
      Bool.false_eq_true, if_false]

/-- Both facts of the chunker's integrity bookkeeping, for every input:
neither an `integrity_warning` nor an `error` key is ever produced, and
every per-section integrity status is `ok`. -/
theorem chunkResumeL_facts (raw : Chs) :
    (hasKeyKV (chunkResumeL raw) "integrity_warning" = false ∧
     hasKeyKV (chunkResumeL raw) "error" = false) ∧
    ∀ entries, kvGet (chunkResumeL raw) "integrity_check" =
        some (CVal.integ entries) → ∀ p ∈ entries, statusOf p.2 = "ok" := by
  cases hdet : (detectHeaders raw).isEmpty with
  | true =>
    rw [chunkResumeL_nomatch raw hdet]
    refine ⟨⟨rfl, rfl⟩, ?_⟩
    intro entries he
    have he2 : (some (CVal.integ
        [("Uncategorized", IntegRec.unc raw.length (pyStrip raw).length "ok")]) :
        Option CVal) = some (CVal.integ entries) := he
    have he3 : [("Uncategorized",
        IntegRec.unc raw.length (pyStrip raw).length "ok")] = entries := by
      injection he2 with h4
      injection h4
    rw [← he3]
    intro p hp
    have hp2 : p = ("Uncategorized",
        IntegRec.unc raw.length (pyStrip raw).length "ok") := by
      rcases List.mem_cons.mp hp with h | h
      · exact h
      · exact absurd h (List.not_mem_nil p)
    rw [hp2]
    rfl
  | false =>
    rcases chunkResumeL_match_result raw hdet with hnil | ⟨ms, first, heq⟩
    · rw [hnil]
      refine ⟨⟨rfl, rfl⟩, ?_⟩
      intro entries he
      exact absurd he (by simp [kvGet])
    · rw [heq]
      refine ⟨⟨?_, ?_⟩, ?_⟩
      · exact hasKeyKV_reorder_none _ _ rfl
      · exact hasKeyKV_reorder_none _ _ rfl
      · intro entries he
        rw [kvGet_reorder_ic] at he
        have he2 : (some (CVal.integ (sliceLoop raw ms ⟨[], [], []⟩).integ) :
            Option CVal) = some (CVal.integ entries) := he
        have he3 : (sliceLoop raw ms ⟨[], [], []⟩).integ = entries := by
          injection he2 with h4
          injection h4
        rw [← he3]
        exact sliceLoop_integ_ok raw ms ⟨[], [], []⟩
          (fun p hp => absurd hp (List.not_mem_nil p))

/-- C9: for every input, the chunker's output never carries the
`integrity_warning` key and every per-section `integrity_check` status
equals `ok`: in both the no-match branch and the per-slice loop the
extracted text is the trimmed raw slice, so the compared lengths are
equal by construction and the warning branch is unreachable. -/
theorem chunk_integrity_always_ok (s : String) :
    hasKeyKV (chunk_resume_from_bold_headings s) "integrity_warning" = false ∧
    ∀ entries, kvGet (chunk_resume_from_bold_headings s) "integrity_check" =
        some (CVal.integ entries) → ∀ p ∈ entries, statusOf p.2 = "ok" :=
  ⟨(chunkResumeL_facts s.data).1.1, (chunkResumeL_facts s.data).2⟩

theorem chunk_integrity_always_ok_witness :
    hasKeyKV (chunk_resume_from_bold_headings "hello") "integrity_warning" =
      false ∧
    statusOf (IntegRec.unc 5 5 "ok") = "ok" :=
  ⟨(chunk_integrity_always_ok "hello").1,
   (chunk_integrity_always_ok "hello").2
     [("Uncategorized", .unc 5 5 "ok")] rfl
     ("Uncategorized", .unc 5 5 "ok") (List.Mem.head _)⟩

/-- C3: contrary to the spec's graceful-degradation description, a
chunking exception is fatal.  First conjunct: when the chunking call
raises, the run terminates with the outer handler's terminal error
event (resume_agents.py line 1111), not with a success payload.  Second
conjunct: the `error`-key recovery at lines 1054-1059 is dead code —
`chunk_resume_from_bold_headings` never returns a dict with an `error`
key, so the empty-section fallback can never trigger. -/
theorem chunk_exception_reaches_outer_handler :
    (∀ msg items, processResumeWithAgents (.error msg) items =
      .errorEvent ("Resume processing failed: " ++ msg)) ∧
    ∀ s, hasKeyKV (chunk_resume_from_bold_headings s) "error" = false :=
  ⟨fun _ _ => rfl, fun s => (chunkResumeL_facts s.data).1.2⟩

theorem chunk_exception_reaches_outer_handler_witness :
    processResumeWithAgents (.error "boom") [] =
      .errorEvent "Resume processing failed: boom" ∧
    hasKeyKV (chunk_resume_from_bold_headings "x") "error" = false :=
  ⟨chunk_exception_reaches_outer_handler.1 "boom" [],
   chunk_exception_reaches_outer_handler.2 "x"⟩

/-! ## C8: chunk round-trip length bound -/

theorem joinNl2_append_le (vs : List Chs) (v : Chs) :
    (joinNl2 (vs ++ [v])).length ≤ (joinNl2 vs).length + 2 + v.length := by
  induction vs with
  | nil => simp [joinNl2]
  | cons c cs ih =>
    cases cs with
    | nil =>
      show (c ++ '\n' :: '\n' :: joinNl2 [v]).length ≤
        (joinNl2 [c]).length + 2 + v.length
      show (c ++ '\n' :: '\n' :: v).length ≤ c.length + 2 + v.length
      simp [List.length_append]
      omega
    | cons c2 cs2 =>
      show (c ++ '\n' :: '\n' :: joinNl2 (c2 :: (cs2 ++ [v]))).length ≤
        (c ++ '\n' :: '\n' :: joinNl2 (c2 :: cs2)).length + 2 + v.length
      have h2 : joinNl2 (c2 :: (cs2 ++ [v])) = joinNl2 ((c2 :: cs2) ++ [v]) := rfl
      rw [h2]
      simp only [List.length_append, List.length_cons]
      have h3 := ih
      omega

theorem slicesMeasure_setdefault_new (m : List (String × List Chs))
    (k : String) (v : Chs) (h : hasKeyKV m k = false) :
    slicesMeasure (setdefaultAppend m k v) = slicesMeasure m + v.length := by
  induction m with
  | nil =>
    show slicesMeasure [(k, [v])] = 0 + v.length
    show (joinNl2 [v]).length + 0 = 0 + v.length
    show v.length + 0 = 0 + v.length
    omega
  | cons q t ih =>
    obtain ⟨k1, vs⟩ := q
    have hk1 : (k1 == k) = false := by
      cases hb : (k1 == k) with
      | false => rfl
      | true =>
        rw [hasKeyKV_eq_any, List.any_cons] at h
        rw [show ((k1, vs).1 == k) = true from hb] at h
        simp at h
    have ht : hasKeyKV t k = false := by
      rw [hasKeyKV_eq_any, List.any_cons, hk1, Bool.false_or,
        ← hasKeyKV_eq_any] at h
      exact h
    show slicesMeasure (if (k1 == k) = true then (k1, vs ++ [v]) :: t
      else (k1, vs) :: setdefaultAppend t k v) = _
    rw [if_neg (by simp [hk1])]
    show (joinNl2 vs).length + slicesMeasure (setdefaultAppend t k v) = _
    rw [ih ht]
    show (joinNl2 vs).length + (slicesMeasure t + v.length) =
      (joinNl2 vs).length + slicesMeasure t + v.length
    omega

theorem slicesMeasure_setdefault_le (m : List (String × List Chs))
    (k : String) (v : Chs) :
    slicesMeasure (setdefaultAppend m k v) ≤
      slicesMeasure m + (2 + v.length) := by
  induction m with
  | nil =>
    show (joinNl2 [v]).length + 0 ≤ 0 + (2 + v.length)
    show v.length + 0 ≤ 0 + (2 + v.length)
    omega
  | cons q t ih =>
    obtain ⟨k1, vs⟩ := q
    show slicesMeasure (if (k1 == k) = true then (k1, vs ++ [v]) :: t
      else (k1, vs) :: setdefaultAppend t k v) ≤ _
    by_cases hb : (k1 == k) = true
    · rw [if_pos hb]
      show (joinNl2 (vs ++ [v])).length + slicesMeasure t ≤
        (joinNl2 vs).length + slicesMeasure t + (2 + v.length)
      have h2 := joinNl2_append_le vs v
      omega
    · rw [if_neg hb]
      show (joinNl2 vs).length + slicesMeasure (setdefaultAppend t k v) ≤
        (joinNl2 vs).length + slicesMeasure t + (2 + v.length)
      omega

theorem hasKeyKV_setdefault_ne (m : List (String × List Chs)) (k k2 : String)
    (v : Chs) (h : (k == k2) = false) :
    hasKeyKV (setdefaultAppend m k v) k2 = hasKeyKV m k2 := by
  induction m with
  | nil =>
    show hasKeyKV [(k, [v])] k2 = hasKeyKV ([] : List (String × List Chs)) k2
    rw [hasKeyKV_eq_any, hasKeyKV_eq_any]
    simp [h]
  | cons q t ih =>
    obtain ⟨k1, vs⟩ := q
    show hasKeyKV (if (k1 == k) = true then (k1, vs ++ [v]) :: t
      else (k1, vs) :: setdefaultAppend t k v) k2 = _
    by_cases hb : (k1 == k) = true
    · rw [if_pos hb]
      simp only [hasKeyKV_eq_any, List.any_cons]
    · rw [if_neg hb]
      simp only [hasKeyKV_eq_any, List.any_cons] at ih ⊢
      rw [ih]

theorem setdefault_keys_mem (m : List (String × List Chs)) (k : String)
    (v : Chs) :
    ∀ x ∈ (setdefaultAppend m k v).map (fun p => p.1),
      x ∈ m.map (fun p => p.1) ∨ x = k := by
  induction m with
  | nil =>
    intro x hx
    simp only [setdefaultAppend, List.map_cons, List.map_nil] at hx
    rcases List.mem_cons.mp hx with h | h
    · exact .inr h
    · exact absurd h (List.not_mem_nil x)
  | cons q t ih =>
    obtain ⟨k1, vs⟩ := q
    intro x hx
    by_cases hb : (k1 == k) = true
    · rw [show setdefaultAppend ((k1, vs) :: t) k v = (k1, vs ++ [v]) :: t from
        by simp [setdefaultAppend, hb]] at hx
      simp only [List.map_cons] at hx ⊢
      exact .inl hx
    · rw [show setdefaultAppend ((k1, vs) :: t) k v =
        (k1, vs) :: setdefaultAppend t k v from
        by simp [setdefaultAppend, hb]] at hx
      simp only [List.map_cons] at hx ⊢
      rcases List.mem_cons.mp hx with h | h
      · exact .inl (h ▸ List.Mem.head _)
      · rcases ih x h with h2 | h2
        · exact .inl (List.mem_cons_of_mem _ h2)
        · exact .inr h2

theorem setdefault_keys_nodup (m : List (String × List Chs)) (k : String)
    (v : Chs) (h : (m.map (fun p => p.1)).Nodup) :
    ((setdefaultAppend m k v).map (fun p => p.1)).Nodup := by
  induction m with
  | nil => simp [setdefaultAppend]
  | cons q t ih =>
    obtain ⟨k1, vs⟩ := q
    simp only [List.map_cons, List.nodup_cons] at h
    by_cases hb : (k1 == k) = true
    · rw [show setdefaultAppend ((k1, vs) :: t) k v = (k1, vs ++ [v]) :: t from
        by simp [setdefaultAppend, hb]]
      simp only [List.map_cons, List.nodup_cons]
      exact h
    · rw [show setdefaultAppend ((k1, vs) :: t) k v =
        (k1, vs) :: setdefaultAppend t k v from
        by simp [setdefaultAppend, hb]]
      simp only [List.map_cons, List.nodup_cons]
      refine ⟨?_, ih h.2⟩
      intro hmem
      rcases setdefault_keys_mem t k v k1 hmem with h2 | h2
      · exact h.1 h2
      · rw [h2] at hb
        exact hb (by simp)

theorem sliceExtract_length_le (raw : Chs) (a b : Nat) :
    (sliceExtract raw a b).length ≤ b - a := by
  simp only [sliceExtract, List.length_take]
  omega

theorem sliceLoop_slices_nodup (raw : Chs) :
    ∀ ms st, (st.slices.map (fun p => p.1)).Nodup →
      ((sliceLoop raw ms st).slices.map (fun p => p.1)).Nodup := by
  intro ms
  induction ms with
  | nil => intro st h; exact h
  | cons m rest ih =>
    intro st h
    simp only [sliceLoop, beq_self_eq_true, Bool.not_true, Bool.false_eq_true,
      if_false]
    apply ih
    simp only [apply_ite SliceState.slices, ite_self]
    split
    · exact setdefault_keys_nodup _ _ _ h
    · exact h

theorem sum_map_update (keys : List String) (k : String)
    (f g : String → Nat) :
    keys.Nodup → k ∈ keys → (∀ s ∈ keys, s ≠ k → f s = g s) → g k = 0 →
    (keys.map f).sum = (keys.map g).sum + f k := by
  induction keys with
  | nil => intro _ hk; exact absurd hk (List.not_mem_nil k)
  | cons a kt ih =>
    intro hnd hk hfg hgk
    simp only [List.map_cons, List.sum_cons]
    by_cases ha : a = k
    · subst ha
      have hnotin : a ∉ kt := (List.nodup_cons.mp hnd).1
      have hmap : kt.map f = kt.map g := by
        apply List.map_congr_left
        intro s hs
        exact hfg s (List.mem_cons_of_mem _ hs) (fun he => hnotin (he ▸ hs))
      rw [hmap, hgk]
      omega
    · have hk2 : k ∈ kt := by
        rcases List.mem_cons.mp hk with h | h
        · exact absurd h.symm ha
        · exact h
      rw [hfg a (List.mem_cons_self _ _) ha,
        ih (List.nodup_cons.mp hnd).2 hk2
          (fun s hs => hfg s (List.mem_cons_of_mem _ hs)) hgk]
      omega

theorem kvGet_none_of_key_not_mem {A : Type} (m : List (String × A))
    (k : String) (h : k ∉ m.map (fun p => p.1)) : kvGet m k = none := by
  apply kvGet_eq_none_of_hasKey_false
  rw [hasKeyKV_eq_any]
  cases hb : m.any (fun p => p.1 == k) with
  | false => rfl
  | true =>
    exfalso
    obtain ⟨p, hp, hpk⟩ := List.any_eq_true.mp hb
    exact h (List.mem_map.mpr ⟨p, hp, eq_of_beq hpk⟩)

theorem kv_sum_le (m : List (String × List Chs)) :
    (m.map (fun p => p.1)).Nodup →
    ∀ keys : List String, keys.Nodup →
    (keys.map (fun sec =>
      (joinNl2 ((kvGet m sec).getD [])).length)).sum ≤ slicesMeasure m := by
  induction m with
  | nil =>
    intro _ keys _
    have hmap : keys.map (fun sec =>
        (joinNl2 ((kvGet ([] : List (String × List Chs)) sec).getD [])).length) =
        keys.map (fun _ => 0) := by
      apply List.map_congr_left
      intro s _
      rfl
    rw [hmap]
    simp [slicesMeasure]
  | cons q t ih =>
    obtain ⟨k, vs⟩ := q
    intro hnd keys hknd
    have hknotin : k ∉ t.map (fun p => p.1) := (List.nodup_cons.mp
      (by simpa using hnd)).1
    have htnd : (t.map (fun p => p.1)).Nodup := (List.nodup_cons.mp
      (by simpa using hnd)).2
    have hget : ∀ sec, sec ≠ k →
        kvGet ((k, vs) :: t) sec = kvGet t sec := by
      intro sec hne
      show (((k, vs) :: t).find? _).map _ = _
      rw [List.find?_cons_of_neg (p := fun r : String × List Chs => r.1 == sec) _
        (by simp; exact fun he => hne he.symm)]
      rfl
    by_cases hk : k ∈ keys
    · have hupd := sum_map_update keys k
        (fun sec => (joinNl2 ((kvGet ((k, vs) :: t) sec).getD [])).length)
        (fun sec => (joinNl2 ((kvGet t sec).getD [])).length)
        hknd hk
        (fun s hs hne => by
          show (joinNl2 ((kvGet ((k, vs) :: t) s).getD [])).length =
            (joinNl2 ((kvGet t s).getD [])).length
          rw [hget s hne])
        (by
          show (joinNl2 ((kvGet t k).getD [])).length = 0
          rw [kvGet_none_of_key_not_mem t k hknotin]
          rfl)
      rw [hupd]
      have hself : kvGet ((k, vs) :: t) k = some vs := by
        show (((k, vs) :: t).find? _).map _ = _
        rw [List.find?_cons_of_pos (p := fun r : String × List Chs => r.1 == k)
          (a := (k, vs)) _ (by simp)]
        rfl
      show (keys.map (fun sec =>
          (joinNl2 ((kvGet t sec).getD [])).length)).sum +
        (joinNl2 ((kvGet ((k, vs) :: t) k).getD [])).length ≤
        slicesMeasure ((k, vs) :: t)
      rw [hself]
      have hih := ih htnd keys hknd
      show (keys.map (fun sec =>
          (joinNl2 ((kvGet t sec).getD [])).length)).sum +
        (joinNl2 vs).length ≤ (joinNl2 vs).length + slicesMeasure t
      omega
    · have hmap : keys.map (fun sec =>
          (joinNl2 ((kvGet ((k, vs) :: t) sec).getD [])).length) =
          keys.map (fun sec => (joinNl2 ((kvGet t sec).getD [])).length) := by
        apply List.map_congr_left
        intro s hs
        show (joinNl2 ((kvGet ((k, vs) :: t) s).getD [])).length =
          (joinNl2 ((kvGet t s).getD [])).length
        rw [hget s (fun he => hk (he ▸ hs))]
      rw [hmap]
      have hih := ih htnd keys hknd
      show (keys.map (fun sec =>
          (joinNl2 ((kvGet t sec).getD [])).length)).sum ≤
        (joinNl2 vs).length + slicesMeasure t
      omega

/-- Every match of a chain ends within the text (given per-match
well-formedness `ls ≤ cs ≤ le`). -/
theorem chainLE_le (N : Nat) :
    ∀ ms, chainLE N ms → (∀ m ∈ ms, m.ls ≤ m.le) →
      ∀ m ∈ ms, m.le ≤ N := by
  intro ms
  induction ms with
  | nil => intro _ _ m hm; exact absurd hm (List.not_mem_nil m)
  | cons m rest ih =>
    intro hch hwf m2 hm2
    cases rest with
    | nil =>
      rcases List.mem_cons.mp hm2 with h | h
      · exact h ▸ hch
      · exact absurd h (List.not_mem_nil m2)
    | cons m3 rest2 =>
      obtain ⟨h1, h2⟩ := hch
      rcases List.mem_cons.mp hm2 with h | h
      · have h3 := hwf m3 (List.mem_cons_of_mem _ (List.mem_cons_self _ _))
        have h4 := ih h2 (fun x hx => hwf x (List.mem_cons_of_mem _ hx)) m3
          (List.mem_cons_self _ _)
        rw [h]
        omega
      · exact ih h2 (fun x hx => hwf x (List.mem_cons_of_mem _ hx)) m2 h

theorem sliceLoop_cons_nil (raw : Chs) (m : HMatch) (st : SliceState) :
    sliceLoop raw [m] st = sliceStepState raw m raw.length st := rfl

theorem sliceLoop_cons_cons (raw : Chs) (m m2 : HMatch) (rest2 : List HMatch)
    (st : SliceState) :
    sliceLoop raw (m :: m2 :: rest2) st =
      sliceLoop raw (m2 :: rest2) (sliceStepState raw m m2.ls st) := rfl

theorem sliceStepState_slices (raw : Chs) (m : HMatch) (e : Nat)
    (st : SliceState) :
    (sliceStepState raw m e st).slices =
      (if (!(pyStrip (sliceExtract raw m.cs e)).isEmpty) = true then
        setdefaultAppend st.slices m.key (pyStrip (sliceExtract raw m.cs e))
        else st.slices) := by
  simp only [sliceStepState, beq_self_eq_true, Bool.not_true, Bool.false_eq_true,
    if_false, apply_ite SliceState.slices, ite_self]

theorem sliceStep_measure (raw : Chs) (m : HMatch) (e : Nat)
    (st : SliceState) :
    slicesMeasure (if (!(pyStrip (sliceExtract raw m.cs e)).isEmpty) = true then
      setdefaultAppend st.slices m.key (pyStrip (sliceExtract raw m.cs e))
      else st.slices) ≤ slicesMeasure st.slices + (2 + (e - m.cs)) := by
  have hextle : (pyStrip (sliceExtract raw m.cs e)).length ≤ e - m.cs :=
    le_trans (pyStrip_length_le _) (sliceExtract_length_le _ _ _)
  split
  · have hb := slicesMeasure_setdefault_le st.slices m.key
      (pyStrip (sliceExtract raw m.cs e))
    omega
  · omega

theorem sliceStep_measure_new (raw : Chs) (m : HMatch) (e : Nat)
    (st : SliceState) (hkey : hasKeyKV st.slices m.key = false) :
    slicesMeasure (if (!(pyStrip (sliceExtract raw m.cs e)).isEmpty) = true then
      setdefaultAppend st.slices m.key (pyStrip (sliceExtract raw m.cs e))
      else st.slices) ≤ slicesMeasure st.slices + (e - m.cs) := by
  have hextle : (pyStrip (sliceExtract raw m.cs e)).length ≤ e - m.cs :=
    le_trans (pyStrip_length_le _) (sliceExtract_length_le _ _ _)
  split
  · rw [slicesMeasure_setdefault_new _ _ _ hkey]
    omega
  · omega

theorem sliceStep_hasKey (raw : Chs) (m : HMatch) (e : Nat)
    (st : SliceState) (k2 : String) (h : (m.key == k2) = false) :
    hasKeyKV (if (!(pyStrip (sliceExtract raw m.cs e)).isEmpty) = true then
      setdefaultAppend st.slices m.key (pyStrip (sliceExtract raw m.cs e))
      else st.slices) k2 = hasKeyKV st.slices k2 := by
  split
  · exact hasKeyKV_setdefault_ne _ _ _ _ h
  · rfl

set_option maxHeartbeats 1600000 in
/-- The central bound of the slice loop: processing a chain of matches
whose line starts sit at or after `lb` grows the slices measure by at
most `raw.length - lb`.  Each detector match pays for its possible
2-character joiner out of the gap `cs - ls ≥ 2` consumed by its heading;
the single inferred experience match has `cs = ls` but is the first (and
only) slice of its section, so it never joins. -/
theorem sliceLoop_bound (raw : Chs) :
    ∀ (ms : List HMatch) (st : SliceState) (lb : Nat),
    (∀ m ∈ ms, (m.ls + 2 ≤ m.cs ∨ m.key = "experience") ∧
      m.ls ≤ m.cs ∧ m.ls ≤ m.le ∧ (m.ls + 2 ≤ m.cs → m.ls + 2 ≤ m.le)) →
    ((hasKeyKV st.slices "experience" = false ∧ countExp ms ≤ 1) ∨
      (∀ m ∈ ms, m.ls + 2 ≤ m.cs)) →
    chainLE raw.length ms →
    (match ms with | [] => True | m :: _ => lb ≤ m.ls) →
    slicesMeasure (sliceLoop raw ms st).slices ≤
      slicesMeasure st.slices + (raw.length - lb) := by
  intro ms
  induction ms with
  | nil => intro st lb _ _ _ _; exact Nat.le_add_right _ _
  | cons m rest ih =>
    intro st lb h1 h2 hch hlb
    have hlb2 : lb ≤ m.ls := hlb
    have hm := h1 m (List.mem_cons_self _ _)
    have hwf1 : m.ls ≤ m.cs := hm.2.1
    have hwf2 : m.ls ≤ m.le := hm.2.2.1
    have h1r : ∀ x ∈ rest, (x.ls + 2 ≤ x.cs ∨ x.key = "experience") ∧
        x.ls ≤ x.cs ∧ x.ls ≤ x.le ∧ (x.ls + 2 ≤ x.cs → x.ls + 2 ≤ x.le) :=
      fun x hx => h1 x (List.mem_cons_of_mem _ hx)
    cases rest with
    | nil =>
      have hle : m.le ≤ raw.length := hch
      rw [sliceLoop_cons_nil, sliceStepState_slices]
      rcases h2 with ⟨hkey, hcount⟩ | hall
      · by_cases hexp : m.key = "experience"
        · have hkey2 : hasKeyKV st.slices m.key = false := by
            rw [hexp]; exact hkey
          have hb := sliceStep_measure_new raw m raw.length st hkey2
          omega
        · have hdet := hm.1.resolve_right hexp
          have hle_det := hm.2.2.2 hdet
          have hb := sliceStep_measure raw m raw.length st
          omega
      · have hdet := hall m (List.mem_cons_self _ _)
        have hle_det := hm.2.2.2 hdet
        have hb := sliceStep_measure raw m raw.length st
        omega
    | cons m2 rest2 =>
      obtain ⟨hle2, hch2⟩ := hch
      have hm2wf := h1r m2 (List.mem_cons_self _ _)
      have hm2le : m2.le ≤ raw.length :=
        chainLE_le raw.length (m2 :: rest2) hch2
          (fun x hx => (h1r x hx).2.2.1) m2 (List.mem_cons_self _ _)
      have he_le : m2.ls ≤ raw.length := by
        have h3 := hm2wf.2.2.1
        omega
      rw [sliceLoop_cons_cons]
      refine le_trans
        (ih (sliceStepState raw m m2.ls st) m2.ls h1r ?_ hch2 (le_refl _)) ?_
      · rw [sliceStepState_slices]
        rcases h2 with ⟨hkey, hcount⟩ | hall
        · by_cases hexp : m.key = "experience"
          · right
            intro x hx
            have hbeq : (m.key == "experience") = true := by
              rw [hexp]; simp
            have hc0 : countExp (m2 :: rest2) = 0 := by
              simp only [countExp, List.countP_cons, hbeq, if_true] at hcount
              simp only [countExp, List.countP_cons]
              omega
            have hx0 : ¬((fun m => m.key == "experience") x = true) :=
              List.countP_eq_zero.mp hc0 x hx
            refine ((h1r x hx).1.resolve_right ?_)
            intro he
            refine hx0 ?_
            show (x.key == "experience") = true
            rw [he]
            rfl
          · left
            refine ⟨?_, ?_⟩
            · rw [sliceStep_hasKey raw m m2.ls st "experience"
                (beq_eq_false_iff_ne.mpr hexp)]
              exact hkey
            · simp only [countExp, List.countP_cons] at hcount ⊢
              omega
        · exact .inr (fun x hx => hall x (List.mem_cons_of_mem _ hx))
      · rw [sliceStepState_slices]
        rcases h2 with ⟨hkey, hcount⟩ | hall
        · by_cases hexp : m.key = "experience"
          · have hkey2 : hasKeyKV st.slices m.key = false := by
              rw [hexp]; exact hkey
            have hb := sliceStep_measure_new raw m m2.ls st hkey2
            omega
          · have hdet := hm.1.resolve_right hexp
            have hle_det := hm.2.2.2 hdet
            have hb := sliceStep_measure raw m m2.ls st
            omega
        · have hdet := hall m (List.mem_cons_self _ _)
          have hle_det := hm.2.2.2 hdet
          have hb := sliceStep_measure raw m m2.ls st
          omega

theorem splitLinesGo_len (acc : Chs) (s : Chs) :
    linesLen (splitLinesGo acc s) = acc.length + s.length := by
  induction acc, s using splitLinesGo.induct with
  | case1 acc hae =>
    rw [splitLinesGo.eq_1, if_pos hae]
    have : acc = [] := by simpa using hae
    simp [this, linesLen]
  | case2 acc hae =>
    rw [splitLinesGo.eq_1, if_neg hae]
    simp [linesLen]
  | case3 acc r ih =>
    rw [splitLinesGo.eq_2]
    simp only [linesLen, List.map_cons, List.sum_cons] at ih ⊢
    simp only [List.length_append, List.length_reverse, List.length_cons,
      List.length_nil] at ih ⊢
    omega
  | case4 acc c r hne hlb ih =>
    rw [splitLinesGo.eq_3 _ _ _ hne, if_pos hlb]
    simp only [linesLen, List.map_cons, List.sum_cons] at ih ⊢
    simp only [List.length_append, List.length_reverse, List.length_cons,
      List.length_nil] at ih ⊢
    omega
  | case5 acc c r hne hnlb ih =>
    rw [splitLinesGo.eq_3 _ _ _ hne, if_neg hnlb]
    simp only [linesLen] at ih ⊢
    simp only [List.length_cons] at ih ⊢
    omega

theorem splitLinesKE_len (s : Chs) : linesLen (splitLinesKE s) = s.length := by
  simp [splitLinesKE, splitLinesGo_len]

theorem rstripCRLF_length_le (s : Chs) : (rstripCRLF s).length ≤ s.length := by
  simp only [rstripCRLF, List.length_reverse]
  calc (s.reverse.dropWhile (fun c => c == '\x0d' || c == '\n')).length
      ≤ s.reverse.length := (List.dropWhile_sublist _).length_le
    _ = s.length := List.length_reverse s

theorem ciPre_length (pat s : Chs) (h : ciPre pat s = true) :
    pat.length ≤ s.length := by
  have h2 := (Bool.and_eq_true _ _).mp h
  exact of_decide_eq_true h2.2

theorem pfxWs_rest_le (s : Chs) : (pfxWs s).2.length ≤ s.length := by
  simp only [pfxWs, List.length_drop]
  omega

theorem pfxStar_rest_le (r : Chs) : (pfxStar r).2.length ≤ r.length := by
  simp only [pfxStar]
  split
  · rename_i t
    show (t.drop (t.takeWhile pyIsSpace).length).length ≤ ('*' :: '*' :: t).length
    simp only [List.length_drop, List.length_cons]
    omega
  · rename_i t hne
    show (t.drop (t.takeWhile pyIsSpace).length).length ≤ ('*' :: t).length
    simp only [List.length_drop, List.length_cons]
    omega
  · exact le_refl _

theorem pfxBullet_rest_le (r : Chs) : (pfxBullet r).2.length ≤ r.length := by
  simp only [pfxBullet]
  split
  · exact le_refl _
  · show ((r.drop (r.takeWhile isBulletChar).length).drop
      ((r.drop (r.takeWhile isBulletChar).length).takeWhile
        pyIsSpace).length).length ≤ r.length
    simp only [List.length_drop]
    omega

theorem pfxNum_rest_le (r : Chs) : (pfxNum r).2.length ≤ r.length := by
  simp only [pfxNum]
  split
  · exact le_refl _
  · split
    · rename_i c t2 heq
      split
      · show (t2.drop (t2.takeWhile pyIsSpace).length).length ≤ r.length
        have hlen : ((r.drop (r.takeWhile Char.isDigit).length).drop
            ((r.drop (r.takeWhile Char.isDigit).length).takeWhile
              pyIsSpace).length).length = t2.length + 1 := by
          rw [heq]
          simp
        simp only [List.length_drop] at hlen ⊢
        omega
      · exact le_refl _
    · exact le_refl _

theorem parseLinePrefix_rest_le (s : Chs) :
    (parseLinePrefix s).2.length ≤ s.length := by
  simp only [parseLinePrefix]
  calc (pfxNum (pfxBullet (pfxStar (pfxWs s).2).2).2).2.length
      ≤ (pfxBullet (pfxStar (pfxWs s).2).2).2.length := pfxNum_rest_le _
    _ ≤ (pfxStar (pfxWs s).2).2.length := pfxBullet_rest_le _
    _ ≤ (pfxWs s).2.length := pfxStar_rest_le _
    _ ≤ s.length := pfxWs_rest_le s

theorem sectionAliases_min_len :
    ∀ p ∈ sectionAliases, ∀ al ∈ p.2, 2 ≤ al.length := by
  decide

/-- Facts about any header match produced by `matchLine`: the heading
line carries at least a two-character alias, so both the content start
and the line end sit at least two characters past the line start. -/
theorem matchLine_facts (lineNN : Chs) (ls le : Nat) (m : HMatch)
    (hlen : lineNN.length ≤ le - ls) (hline : ls ≤ le)
    (h : matchLine lineNN ls le = some m) :
    m.ls = ls ∧ m.le = le ∧ m.ls + 2 ≤ m.cs ∧ m.ls + 2 ≤ m.le := by
  simp only [matchLine] at h
  obtain ⟨p, hp, hfp⟩ := List.exists_of_findSome?_eq_some h
  have hrest : (parseLinePrefix lineNN).2.length ≤ le - ls :=
    le_trans (parseLinePrefix_rest_le _) hlen
  cases hti : tryInline p.2 (parseLinePrefix lineNN).1 (parseLinePrefix lineNN).2 with
  | some off =>
    rw [hti] at hfp
    have hm : m = ⟨p.1, ls, le, ls + off⟩ := by
      cases hfp
      rfl
    obtain ⟨al, hal, hfal⟩ := List.exists_of_findSome?_eq_some hti
    have hoff : 2 ≤ off ∧ 2 ≤ le - ls := by
      by_cases hci : (ciPre al.data (parseLinePrefix lineNN).2) = true
      · rw [if_pos hci] at hfal
        cases hit : inlineTail ((parseLinePrefix lineNN).2.drop al.length) with
        | none => rw [hit] at hfal; exact absurd hfal (by simp)
        | some t =>
          rw [hit] at hfal
          have hofeq : off = (parseLinePrefix lineNN).1 + al.length + t := by
            cases hfal
            rfl
          have hal2 : 2 ≤ al.length := sectionAliases_min_len p hp al hal
          have halci : al.data.length ≤ (parseLinePrefix lineNN).2.length :=
            ciPre_length _ _ hci
          have haldata : al.data.length = al.length := rfl
          constructor
          · omega
          · omega
      · rw [if_neg hci] at hfal
        exact absurd hfal (by simp)
    rw [hm]
    refine ⟨rfl, rfl, ?_, ?_⟩
    · show ls + 2 ≤ ls + off
      omega
    · show ls + 2 ≤ le
      omega
  | none =>
    rw [hti] at hfp
    by_cases hts : (tryStandalone p.2 (parseLinePrefix lineNN).2) = true
    · rw [if_pos hts] at hfp
      have hm : m = ⟨p.1, ls, le, le⟩ := by
        cases hfp
        rfl
      obtain ⟨al, hal, hfal⟩ := List.any_eq_true.mp hts
      have hci : (ciPre al.data (parseLinePrefix lineNN).2) = true :=
        ((Bool.and_eq_true _ _).mp hfal).1
      have hal2 : 2 ≤ al.length := sectionAliases_min_len p hp al hal
      have halci : al.data.length ≤ (parseLinePrefix lineNN).2.length :=
        ciPre_length _ _ hci
      have haldata : al.data.length = al.length := rfl
      rw [hm]
      refine ⟨rfl, rfl, ?_, ?_⟩
      · show ls + 2 ≤ le
        omega
      · show ls + 2 ≤ le
        omega
    · rw [if_neg hts] at hfp
      exact absurd hfp (by simp)

/-- Facts about every detected header: start at or after the scan
position, at least two characters of heading before both the content
start and the line end, and the end within the scanned text. -/
theorem detectGo_facts :
    ∀ (lines : List Chs) (pos : Nat) (m : HMatch), m ∈ detectGo pos lines →
      pos ≤ m.ls ∧ m.ls + 2 ≤ m.cs ∧ m.ls + 2 ≤ m.le ∧
        m.le ≤ pos + linesLen lines := by
  intro lines
  induction lines with
  | nil => intro pos m hm; exact absurd hm (List.not_mem_nil m)
  | cons line rest ih =>
    intro pos m hm
    simp only [detectGo] at hm
    have hligne : (rstripCRLF line).length ≤
        (pos + line.length) - pos := by
      have := rstripCRLF_length_le line
      omega
    cases hml : matchLine (rstripCRLF line) pos (pos + line.length) with
    | some m0 =>
      rw [hml] at hm
      rcases List.mem_cons.mp hm with h | h
      · obtain ⟨he1, he2, he3, he4⟩ := matchLine_facts _ _ _ m0 hligne
          (Nat.le_add_right _ _) hml
        subst h
        refine ⟨by omega, by omega, by omega, ?_⟩
        show m.le ≤ pos + linesLen (line :: rest)
        simp only [linesLen, List.map_cons, List.sum_cons]
        omega
      · obtain ⟨hf1, hf2, hf3, hf4⟩ := ih (pos + line.length) m h
        refine ⟨by omega, by omega, by omega, ?_⟩
        show m.le ≤ pos + linesLen (line :: rest)
        simp only [linesLen, List.map_cons, List.sum_cons]
        simp only [linesLen] at hf4
        omega
    | none =>
      rw [hml] at hm
      obtain ⟨hf1, hf2, hf3, hf4⟩ := ih (pos + line.length) m hm
      refine ⟨by omega, by omega, by omega, ?_⟩
      show m.le ≤ pos + linesLen (line :: rest)
      simp only [linesLen, List.map_cons, List.sum_cons]
      simp only [linesLen] at hf4
      omega

theorem detectHeaders_facts (raw : Chs) (m : HMatch)
    (hm : m ∈ detectHeaders raw) :
    m.ls + 2 ≤ m.cs ∧ m.ls + 2 ≤ m.le ∧ m.le ≤ raw.length := by
  obtain ⟨h1, h2, h3, h4⟩ := detectGo_facts (splitLinesKE raw) 0 m hm
  rw [splitLinesKE_len] at h4
  exact ⟨h2, h3, by omega⟩

/-- Facts about an inferred experience match: experience key, content
start at the line start, end within the scanned text. -/
theorem inferGo_facts (raw : Chs) (lowerB upperB : Nat) :
    ∀ (lines : List Chs) (pos : Nat) (m : HMatch),
      inferGo raw lowerB upperB pos lines = some m →
      m.key = "experience" ∧ m.cs = m.ls ∧ m.ls ≤ m.le ∧
        m.le ≤ pos + linesLen lines := by
  intro lines
  induction lines with
  | nil => intro pos m hm; exact Option.noConfusion hm
  | cons line rest ih =>
    intro pos m hm
    simp only [inferGo] at hm
    split at hm
    · have hme : m = ⟨"experience", pos, pos + line.length, pos⟩ := by
        cases hm
        rfl
      rw [hme]
      refine ⟨rfl, rfl, Nat.le_add_right _ _, ?_⟩
      show pos + line.length ≤ pos + linesLen (line :: rest)
      simp only [linesLen, List.map_cons, List.sum_cons]
      omega
    · obtain ⟨h1, h2, h3, h4⟩ := ih (pos + line.length) m hm
      refine ⟨h1, h2, h3, ?_⟩
      show m.le ≤ pos + linesLen (line :: rest)
      simp only [linesLen, List.map_cons, List.sum_cons]
      simp only [linesLen] at h4
      omega

theorem inferExperience_facts (raw : Chs) (ms0 : List HMatch) (m : HMatch)
    (h : inferExperience raw ms0 = some m) :
    m.key = "experience" ∧ m.cs = m.ls ∧ m.ls ≤ m.le ∧ m.le ≤ raw.length := by
  simp only [inferExperience] at h
  split at h
  · exact Option.noConfusion h
  · split at h
    · exact Option.noConfusion h
    · obtain ⟨h1, h2, h3, h4⟩ := inferGo_facts raw _ _ (splitLinesKE raw) 0 m h
      rw [splitLinesKE_len] at h4
      exact ⟨h1, h2, h3, by omega⟩

theorem insByLs_perm (m : HMatch) :
    ∀ l : List HMatch, List.Perm (insByLs m l) (m :: l) := by
  intro l
  induction l with
  | nil => exact List.Perm.refl _
  | cons x xs ih =>
    simp only [insByLs]
    split
    · exact List.Perm.refl _
    · exact List.Perm.trans (List.Perm.cons x ih) (List.Perm.swap m x xs)

theorem sortMatches_perm :
    ∀ l : List HMatch, List.Perm (sortMatches l) l := by
  intro l
  induction l with
  | nil => exact List.Perm.refl _
  | cons x xs ih =>
    simp only [sortMatches]
    exact List.Perm.trans (insByLs_perm x (sortMatches xs))
      (List.Perm.cons x ih)

theorem dedupeRest_sublist (prev : HMatch) :
    ∀ l : List HMatch, List.Sublist (dedupeRest prev l) l := by
  intro l
  induction l generalizing prev with
  | nil => exact List.Sublist.refl _
  | cons x xs ih =>
    simp only [dedupeRest]
    split
    · exact List.Sublist.trans (ih prev) (List.sublist_cons_self _ _)
    · split
      · exact List.Sublist.trans (ih prev) (List.sublist_cons_self _ _)
      · exact List.Sublist.cons₂ x (ih x)

theorem dedupeMatches_subset (l : List HMatch) :
    ∀ m ∈ dedupeMatches l, m ∈ l := by
  cases l with
  | nil => intro m hm; exact absurd hm (List.not_mem_nil m)
  | cons x xs =>
    intro m hm
    simp only [dedupeMatches] at hm
    rcases List.mem_cons.mp hm with h | h
    · exact h ▸ List.mem_cons_self _ _
    · exact List.mem_cons_of_mem _ ((dedupeRest_sublist x xs).subset h)

theorem dedupe_chain (N : Nat) :
    ∀ (l : List HMatch) (prev : HMatch),
      (∀ m ∈ l, m.le ≤ N) → prev.le ≤ N →
      chainLE N (prev :: dedupeRest prev l) := by
  intro l
  induction l with
  | nil => intro prev _ hp; exact hp
  | cons x xs ih =>
    intro prev hN hp
    simp only [dedupeRest]
    split
    · exact ih prev (fun m hm => hN m (List.mem_cons_of_mem _ hm)) hp
    · split
      · exact ih prev (fun m hm => hN m (List.mem_cons_of_mem _ hm)) hp
      · rename_i hlt hkey
        refine ⟨by omega, ?_⟩
        exact ih x (fun m hm => hN m (List.mem_cons_of_mem _ hm))
          (hN x (List.mem_cons_self _ _))

theorem dedupeMatches_chain (N : Nat) (l : List HMatch)
    (hN : ∀ m ∈ l, m.le ≤ N) : chainLE N (dedupeMatches l) := by
  cases l with
  | nil => exact trivial
  | cons x xs =>
    simp only [dedupeMatches]
    exact dedupe_chain N xs x (fun m hm => hN m (List.mem_cons_of_mem _ hm))
      (hN x (List.mem_cons_self _ _))

theorem cvalLen_secVal (slices : List (String × List Chs)) (sec : String) :
    cvalLen (secVal slices sec) =
      (joinNl2 ((kvGet slices sec).getD [])).length := by
  simp only [secVal]
  cases h : (kvGet slices sec).getD [] with
  | nil => rfl
  | cons c cs => rfl

theorem countExp_dedupe_le (l : List HMatch) :
    countExp (dedupeMatches l) ≤ countExp l := by
  cases l with
  | nil => exact le_refl _
  | cons x xs =>
    simp only [dedupeMatches, countExp, List.countP_cons]
    have hsub := List.Sublist.countP_le (fun m => m.key == "experience")
      (dedupeRest_sublist x xs)
    simp only [countExp] at hsub
    omega

theorem countExp_perm {a b : List HMatch} (h : List.Perm a b) :
    countExp a = countExp b := h.countP_eq _

theorem countExp_append (a b : List HMatch) :
    countExp (a ++ b) = countExp a + countExp b := List.countP_append _ _ _

/-- The chunker's result record is already in standard order, so the
reordering pass is the identity on it. -/
theorem reorder_res1_eq (hv : CVal) (f : String → CVal) (iv : CVal) :
    reorderSectionsKV ((("header", hv) ::
        chunkSectionKeys.map (fun sec => (sec, f sec))) ++
      [("integrity_check", iv)]) =
      (("header", hv) :: chunkSectionKeys.map (fun sec => (sec, f sec))) ++
        [("integrity_check", iv)] := rfl

theorem chunkTotalLen_res1 (hv : CVal) (sl : List (String × List Chs))
    (iv : CVal) :
    chunkTotalLen ((("header", hv) ::
        chunkSectionKeys.map (fun sec => (sec, secVal sl sec))) ++
      [("integrity_check", iv)]) =
      cvalLen hv +
        ((chunkSectionKeys.map (fun sec =>
          (joinNl2 ((kvGet sl sec).getD [])).length)).sum + cvalLen iv) := by
  simp only [chunkTotalLen, chunkSectionKeys, List.map_cons, List.map_nil,
    List.map_append, List.sum_cons, List.sum_nil, List.sum_append,
    cvalLen_secVal]
  omega

/-- C8: chunk round-trip length bound — for every input text, the sum
of the character counts of the chunker output's header text and all
non-None section values (blank-line joiners included) does not exceed
the character count of the original raw text: no content is duplicated
across sections. -/
theorem chunk_roundtrip_length_bound (s : String) :
    chunkTotalLen (chunk_resume_from_bold_headings s) ≤ s.length := by
  show chunkTotalLen (chunkResumeL s.data) ≤ s.data.length
  cases hdet : (detectHeaders s.data).isEmpty with
  | true =>
    rw [chunkResumeL_nomatch s.data hdet]
    split
    · exact Nat.zero_le _
    · have hps := pyStrip_length_le s.data
      show (pyStrip s.data).length + ((0 : Nat) + 0) ≤ s.data.length
      omega
  | false =>
    simp only [chunkResumeL]
    rw [if_neg (by simp [hdet])]
    split
    · exact Nat.zero_le _
    · rename_i first rest heq
      have hd1facts : ∀ m ∈ dedupeMatches (sortMatches (detectHeaders s.data)),
          m.ls + 2 ≤ m.cs ∧ m.ls + 2 ≤ m.le ∧ m.le ≤ s.data.length := by
        intro m hm
        have hm2 := dedupeMatches_subset _ m hm
        have hm3 := (sortMatches_perm _).mem_iff.mp hm2
        exact detectHeaders_facts s.data m hm3
      have hfacts : ∀ m ∈ first :: rest,
          (m.ls + 2 ≤ m.cs ∨ m.key = "experience") ∧ m.ls ≤ m.cs ∧
            m.ls ≤ m.le ∧ (m.ls + 2 ≤ m.cs → m.ls + 2 ≤ m.le) := by
        rw [← heq]
        split
        · split
          · rename_i inf hinf
            intro m hm
            have hm2 := dedupeMatches_subset _ m hm
            have hm3 := (sortMatches_perm _).mem_iff.mp hm2
            rcases List.mem_append.mp hm3 with h | h
            · have hf := hd1facts m h
              exact ⟨.inl hf.1, by omega, by omega, fun _ => hf.2.1⟩
            · have he : m = inf := List.mem_singleton.mp h
              obtain ⟨k1, k2, k3, k4⟩ := inferExperience_facts s.data _ inf hinf
              rw [he]
              exact ⟨.inr k1, by omega, k3, fun hc => by omega⟩
          · intro m hm
            have hf := hd1facts m hm
            exact ⟨.inl hf.1, by omega, by omega, fun _ => hf.2.1⟩
        · intro m hm
          have hf := hd1facts m hm
          exact ⟨.inl hf.1, by omega, by omega, fun _ => hf.2.1⟩
      have hcount : countExp (first :: rest) ≤ 1 ∨
          (∀ m ∈ first :: rest, m.ls + 2 ≤ m.cs) := by
        rw [← heq]
        split
        · rename_i hc
          have hany : (dedupeMatches (sortMatches (detectHeaders s.data))).any
              (fun m => m.key == "experience") = false := by
            simpa using hc
          have hd1zero :
              countExp (dedupeMatches (sortMatches (detectHeaders s.data))) =
                0 := by
            simp only [countExp]
            exact List.countP_eq_zero.mpr (List.any_eq_false.mp hany)
          split
          · rename_i inf hinf
            left
            have hone : countExp [inf] ≤ 1 := by
              cases hx : inf.key == "experience" <;>
                simp [countExp, List.countP_cons, List.countP_nil, hx]
            calc countExp (dedupeMatches (sortMatches
                    (dedupeMatches (sortMatches (detectHeaders s.data)) ++
                      [inf])))
                ≤ countExp (sortMatches
                    (dedupeMatches (sortMatches (detectHeaders s.data)) ++
                      [inf])) := countExp_dedupe_le _
              _ = countExp (dedupeMatches (sortMatches (detectHeaders s.data)) ++
                      [inf]) := countExp_perm (sortMatches_perm _)
              _ = countExp (dedupeMatches (sortMatches (detectHeaders s.data))) +
                      countExp [inf] := countExp_append _ _
              _ ≤ 1 := by omega
          · left
            omega
        · right
          intro m hm
          exact (hd1facts m hm).1
      have hchain : chainLE s.data.length (first :: rest) := by
        rw [← heq]
        split
        · split
          · rename_i inf hinf
            apply dedupeMatches_chain
            intro m hm
            have hm3 := (sortMatches_perm _).mem_iff.mp hm
            rcases List.mem_append.mp hm3 with h | h
            · exact (hd1facts m h).2.2
            · have he : m = inf := List.mem_singleton.mp h
              rw [he]
              exact (inferExperience_facts s.data _ inf hinf).2.2.2
          · apply dedupeMatches_chain
            intro m hm
            exact (detectHeaders_facts s.data m
              ((sortMatches_perm _).mem_iff.mp hm)).2.2
        · apply dedupeMatches_chain
          intro m hm
          exact (detectHeaders_facts s.data m
            ((sortMatches_perm _).mem_iff.mp hm)).2.2
      rw [heq]
      have hwarns : (sliceLoop s.data (first :: rest)
          (⟨[], [], []⟩ : SliceState)).warns = ([] : List String) :=
        sliceLoop_warns s.data (first :: rest) ⟨[], [], []⟩
      rw [hwarns]
      simp only [List.isEmpty_nil, Bool.not_true, Bool.false_eq_true, if_false]
      rw [reorder_res1_eq, chunkTotalLen_res1]
      have hiv : cvalLen (CVal.integ (sliceLoop s.data (first :: rest)
          (⟨[], [], []⟩ : SliceState)).integ) = 0 := rfl
      have hheader : cvalLen (if (pyStrip (s.data.take first.ls)).isEmpty
          then CVal.noneV else CVal.text (pyStrip (s.data.take first.ls))) ≤
          first.ls := by
        split
        · exact Nat.zero_le _
        · show (pyStrip (s.data.take first.ls)).length ≤ first.ls
          have h1 := pyStrip_length_le (s.data.take first.ls)
          have h2 : (s.data.take first.ls).length ≤ first.ls := by
            rw [List.length_take]
            omega
          omega
      have hnodup : ((sliceLoop s.data (first :: rest)
          (⟨[], [], []⟩ : SliceState)).slices.map (fun p => p.1)).Nodup :=
        sliceLoop_slices_nodup s.data (first :: rest) ⟨[], [], []⟩
          (by exact List.nodup_nil)
      have hsec := kv_sum_le (sliceLoop s.data (first :: rest)
          (⟨[], [], []⟩ : SliceState)).slices hnodup chunkSectionKeys
        (by decide)
      have hcond : (hasKeyKV (SliceState.slices ⟨[], [], []⟩) "experience" =
            false ∧ countExp (first :: rest) ≤ 1) ∨
          (∀ m ∈ first :: rest, m.ls + 2 ≤ m.cs) := by
        rcases hcount with h | h
        · exact .inl ⟨rfl, h⟩
        · exact .inr h
      have hbound := sliceLoop_bound s.data (first :: rest) ⟨[], [], []⟩
        first.ls hfacts hcond hchain (by exact Nat.le_refl _)
      have h0 : slicesMeasure (SliceState.slices ⟨[], [], []⟩) = 0 := rfl
      have hls_le : first.ls ≤ s.data.length := by
        have ha := (hfacts first (List.mem_cons_self _ _)).2.2.1
        have hb := chainLE_le s.data.length (first :: rest) hchain
          (fun x hx => (hfacts x hx).2.2.1) first (List.mem_cons_self _ _)
        omega
      omega
